import Mathlib

/-!
# fifo.c : segment-list FIFO queue with ticket counters and hazard-pointer reclamation

Shallow embedding of `src/fifo.c`, executed one operation at a time
(each call of `fifo_register`, `fifo_put`, `fifo_get`, `fifo_unregister` runs
to completion before the next one starts).

Representation choices.

* Memory for segments is a list of cells (`Heap`); the address of a segment is
  its position in that list, `none` marks a freed cell.  `posix_memalign`
  hands out the next position, so an address is never reused.
* Segment addresses, handle addresses and `void *` payloads are natural
  numbers; the payload `0` is the null pointer (the `EMPTY` sentinel).
* Handle storage belongs to the caller; it is a partial map from handle
  addresses to records.  The intrusive `next` link of the registry is the
  order of the list `plist`.
* `size_t` counters (segment ids, tickets) are unbounded naturals: they only
  ever count up by one, so wrap-around needs `2^64` operations.  The places
  where the source computes with possibly "negative" unsigned values (the
  sentinel `-1`, the unsigned difference and the `int` threshold in `cleanup`,
  the decrement of `W`) are modelled with explicit arithmetic modulo `2^64`
  and `2^32`.
* A result `none` means the call does not return normally: it dereferences a
  null or freed pointer, divides by zero, or spins until the fuel given to the
  spin loop is used up.
-/

namespace Fifo

/-- The null payload, used by the source as the empty-slot sentinel. -/
def EMPTY : Nat := 0

/-- The value of `(size_t) -1`. -/
def SIZE_MAX : Nat := 2 ^ 64 - 1

/-- Source type `node_t`: `next`, `id` and the slot cells `buffer[0 .. size)`. -/
structure node_t where
  next : Option Nat
  id : Nat
  buffer : List Nat
deriving DecidableEq, Repr

/-- Segment memory: cell `a` holds the node stored at address `a`, or `none`
once it has been freed. -/
abbrev Heap := List (Option node_t)

/-- Dereference a node pointer; `none` for a freed or never allocated cell. -/
def Heap.read (m : Heap) (a : Nat) : Option node_t := m.getD a none

/-- Store a node at an address. -/
def Heap.write (m : Heap) (a : Nat) (n : node_t) : Heap := m.set a (some n)

/-- Source call `free(a)`. -/
def Heap.free (m : Heap) (a : Nat) : Heap := m.set a none

/-- Modelled from the spec: `fifo_handle_t` is declared in `fifo.h`, which is not
among the sources.  The fields are the ones the spec lists for a handle and
`fifo.c` uses: the hazard pointer, the two cached nodes `node[ENQ]`,
`node[DEQ]` and the `winner` flag (the `next` link is the order of `plist`). -/
structure handle_t where
  hazard : Option Nat
  node0 : Nat
  node1 : Nat
  winner : Bool
deriving DecidableEq, Repr

/-- A pointer to one of the `node_t *` fields of a handle, as passed to
`check` and `acquire` (`&p->hazard`, `&p->node[ENQ]`, `&p->node[DEQ]`). -/
inductive Field where
  | hazard
  | ENQ
  | DEQ
deriving DecidableEq, Repr

/-- Read through a field pointer (`*pnode`). -/
def handle_t.get (hd : handle_t) : Field → Option Nat
  | Field.hazard => hd.hazard
  | Field.ENQ => some hd.node0
  | Field.DEQ => some hd.node1

/-- Write through a field pointer (`*pnode = v`); the cached nodes are only
ever assigned non-null pointers. -/
def handle_t.set (hd : handle_t) : Field → Option Nat → handle_t
  | Field.hazard, v => { hd with hazard := v }
  | Field.ENQ, v => { hd with node0 := v.getD hd.node0 }
  | Field.DEQ, v => { hd with node1 := v.getD hd.node1 }

/-- Modelled from the spec: `fifo_t` is declared in `fifo.h`, which is not among
the sources.  The fields are the ones the spec lists for the queue root and
`fifo.c` uses (`lock`, `S`, `W`, `head.index`, `head.node`, `tail[ENQ].index`,
`tail[DEQ].index`, `plist`); `W` holds the `size_t` argument `width` of
`fifo_init`.  The record also carries the memory its pointers refer to:
the segment cells (`heap`) and the handle records (`handles`). -/
structure fifo_t where
  lock : Bool
  S : Nat
  W : Nat
  head_index : Nat
  head_node : Nat
  tail_ENQ : Nat
  tail_DEQ : Nat
  plist : List Nat
  heap : Heap
  handles : Nat → Option handle_t

/-- Overwrite the record of handle `p`. -/
def fifo_t.setHandle (q : fifo_t) (p : Nat) (hd : handle_t) : fifo_t :=
  { q with handles := Function.update q.handles p (some hd) }

/-- Source macro `fetch_and_add` (`__atomic_fetch_add`): the value read and the value stored. -/
def fetch_and_add (v k : Nat) : Nat × Nat := (v, v + k)

/-- Source macro `compare_and_swap` (`__sync_val_compare_and_swap`) on a cell holding `cur`: the value the cell
holds afterwards and the value returned (the old content). -/
def compare_and_swap {α : Type} [DecidableEq α] (cur old new : α) : α × α :=
  (if cur = old then new else cur, cur)

/-- Unsigned `size_t` subtraction `a - b`. -/
def size_sub (a b : Nat) : Nat := (a % 2 ^ 64 + (2 ^ 64 - b % 2 ^ 64)) % 2 ^ 64

/-- Conversion of a `size_t` value to `int` (low 32 bits, two's complement). -/
def to_int (x : Nat) : Int :=
  if x % 2 ^ 32 < 2 ^ 31 then ((x % 2 ^ 32 : Nat) : Int) else ((x % 2 ^ 32 : Nat) : Int) - 2 ^ 32

/-- Conversion of an `int` to `size_t`, as done by the comparison in `cleanup`. -/
def to_size_t (z : Int) : Nat := (z % 2 ^ 64).toNat

/-- The value of `int threshold = 2 * fifo->W` as it enters the unsigned comparison. -/
def threshold (W : Nat) : Nat := to_size_t (to_int ((2 * W) % 2 ^ 64))

/-- Source function `new_node(id, size)`: a zeroed node with the given id at a fresh address. -/
def new_node (m : Heap) (id size : Nat) : Heap × Nat :=
  (m ++ [some { next := none, id := id, buffer := List.replicate size EMPTY }], m.length)

/-- Source function `check(pnode, phazard, to)` applied to the fields of handle `p`.
`phazard = none` is the call with a null `phazard`. -/
def check (q : fifo_t) (p : Nat) (pnode : Field) (phazard : Option Field) (to_ : Nat) :
    Option (fifo_t × Nat) :=
  match q.handles p with
  | none => none
  | some hd =>
    match phazard with
    | some ph =>
      match hd.get pnode with
      | none => none
      | some node =>
        match q.heap.read node, q.heap.read to_ with
        | some n, some t =>
          if n.id < t.id then
            let cas := compare_and_swap (hd.get pnode) (some node) (some to_)
            let hd1 := hd.set pnode cas.1
            let curr := cas.2
            let q1 := q.setHandle p hd1
            let node1 : Option Nat :=
              match hd1.get ph with
              | some hazard => some hazard
              | none => if curr = some node then some to_ else curr
            match node1 with
            | none => none
            | some node1 =>
              match q1.heap.read node1 with
              | none => none
              | some n1 => if n1.id < t.id then some (q1, node1) else some (q1, to_)
          else some (q, to_)
        | _, _ => none
    | none =>
      match hd.get pnode with
      | none => some (q, to_)
      | some node =>
        match q.heap.read node, q.heap.read to_ with
        | some n, some t => if n.id < t.id then some (q, node) else some (q, to_)
        | _, _ => none

/-- The registry scan of `cleanup`:
`for (p = plist; p != NULL && curr != head; p = p->next)`. -/
def scan (curr : Nat) : List Nat → fifo_t → Nat → Option (fifo_t × Nat)
  | [], q, head => some (q, head)
  | p :: rest, q, head =>
    if curr = head then some (q, head) else
    match check q p Field.hazard none head with
    | none => none
    | some (q1, head1) =>
      match check q1 p Field.ENQ (some Field.hazard) head1 with
      | none => none
      | some (q2, head2) =>
        match check q2 p Field.DEQ (some Field.hazard) head2 with
        | none => none
        | some (q3, head3) => scan curr rest q3 head3

/-- The freeing walk of `cleanup`: `while (curr != head) ...`.  The first
argument bounds the number of iterations. -/
def free_loop : Nat → Heap → Nat → Nat → Option Heap
  | 0, m, curr, head => if curr = head then some m else none
  | k + 1, m, curr, head =>
    if curr = head then some m else
    match m.read curr with
    | none => none
    | some c =>
      match c.next with
      | none => none
      | some next => free_loop k (m.free curr) next head

/-- Source function `cleanup(fifo, head)`.  Every iteration of the freeing walk frees a cell
that was live, so `heap.length` iterations are always enough. -/
def cleanup (q : fifo_t) (head : Nat) : Option fifo_t :=
  let index := q.head_index
  let thr := threshold q.W
  if index = SIZE_MAX then some q else
  match q.heap.read head with
  | none => none
  | some h =>
    if size_sub h.id index > thr then
      let cas := compare_and_swap q.head_index index SIZE_MAX
      if index = cas.2 then
        let q0 := { q with head_index := cas.1 }
        let curr := q0.head_node
        match scan curr q0.plist q0 head with
        | none => none
        | some (q1, head1) =>
          match free_loop q1.heap.length q1.heap curr head1 with
          | none => none
          | some m =>
            match m.read head1 with
            | none => none
            | some h1 => some { q1 with heap := m, head_node := head1, head_index := h1.id }
      else some { q with head_index := cas.1 }
    else some q

/-- The loop of `update`: the first argument is the number of iterations left
(`to - i`), the second the loop variable `i`. -/
def update_loop (size : Nat) : Nat → Nat → Heap → Nat → Bool → Option (Heap × Nat × Bool)
  | 0, _, m, node, winner => some (m, node, winner)
  | k + 1, i, m, node, winner =>
    let prev := node
    match m.read prev with
    | none => none
    | some pn =>
      match pn.next with
      | some node => update_loop size k (i + 1) m node winner
      | none =>
        let m1 := (new_node m (i + 1) size).1
        let next := (new_node m (i + 1) size).2
        match m1.read prev with
        | none => none
        | some pn1 =>
          let cas := compare_and_swap pn1.next none (some next)
          let m2 := m1.write prev { pn1 with next := cas.1 }
          match cas.2 with
          | some node => update_loop size k (i + 1) (m2.free next) node winner
          | none => update_loop size k (i + 1) m2 next true

/-- Source function `update(node, to, size, winner)`: the loop runs for `i = node->id, ..., to - 1`. -/
def update (m : Heap) (node : Nat) (to_ size : Nat) (winner : Bool) :
    Option (Heap × Nat × Bool) :=
  match m.read node with
  | none => none
  | some n => update_loop size (to_ - n.id) n.id m node winner

/-- Source function `acquire(pnode, phazard)` on handle `p`: publish the cached node as hazard
and re-read it.  Nothing else runs between the two reads, so the loop body is
executed once. -/
def acquire (q : fifo_t) (p : Nat) (pnode : Field) : Option (fifo_t × Nat) :=
  match q.handles p with
  | none => none
  | some hd =>
    match hd.get pnode with
    | none => none
    | some temp =>
      let hd1 := hd.set Field.hazard (some temp)
      match hd1.get pnode with
      | none => none
      | some node => if node = temp then some (q.setHandle p hd1, node) else none

/-- Source statement `release(&handle->hazard, NULL)`. -/
def release_hazard (q : fifo_t) (p : Nat) : Option fifo_t :=
  match q.handles p with
  | none => none
  | some hd => some (q.setHandle p (hd.set Field.hazard none))

/-- The step `if (node->id != ni) node = handle->node[side] = update(...)`
shared by `fifo_put` and `fifo_get`. -/
def advance (q : fifo_t) (p : Nat) (side : Field) (node : Nat) (ni : Nat) :
    Option (fifo_t × Nat) :=
  match q.heap.read node with
  | none => none
  | some n =>
    if n.id ≠ ni then
      match q.handles p with
      | none => none
      | some hd =>
        match update q.heap node ni q.S hd.winner with
        | none => none
        | some (m, node1, w) =>
          some ({ q with heap := m,
                         handles := Function.update q.handles p
                           (some ({ hd with winner := w }.set side (some node1))) }, node1)
    else some (q, node)

/-- Source function `fifo_put(fifo, handle, data)`. -/
def fifo_put (q : fifo_t) (handle : Nat) (data : Nat) : Option fifo_t :=
  match acquire q handle Field.ENQ with
  | none => none
  | some (q1, node) =>
    let faa := fetch_and_add q1.tail_ENQ 1
    let i := faa.1
    let q2 := { q1 with tail_ENQ := faa.2 }
    if q2.S = 0 then none else
    let ni := i / q2.S
    let li := i % q2.S
    match advance q2 handle Field.ENQ node ni with
    | none => none
    | some (q3, node1) =>
      match q3.heap.read node1 with
      | none => none
      | some n =>
        if li < n.buffer.length then
          release_hazard { q3 with heap := q3.heap.write node1 { n with buffer := n.buffer.set li data } }
            handle
        else none

/-- Source loop `spin_while(NULL == (val = cell))` on a cell nobody else writes: the first
argument bounds the number of times the cell is read. -/
def spin_while : Nat → Nat → Option Nat
  | 0, _ => none
  | k + 1, cell => if cell = EMPTY then spin_while k cell else some cell

/-- Source function `fifo_get(fifo, handle)`; `fuel` bounds the spin loop. -/
def fifo_get (fuel : Nat) (q : fifo_t) (handle : Nat) : Option (fifo_t × Nat) :=
  match acquire q handle Field.DEQ with
  | none => none
  | some (q1, node) =>
    let faa := fetch_and_add q1.tail_DEQ 1
    let i := faa.1
    let q2 := { q1 with tail_DEQ := faa.2 }
    if q2.S = 0 then none else
    let ni := i / q2.S
    let li := i % q2.S
    match advance q2 handle Field.DEQ node ni with
    | none => none
    | some (q3, node1) =>
      match q3.heap.read node1 with
      | none => none
      | some n =>
        match n.buffer.get? li with
        | none => none
        | some cell =>
          match spin_while fuel cell with
          | none => none
          | some val =>
            match q3.handles handle with
            | none => none
            | some hd =>
              let q4 : Option fifo_t :=
                if hd.winner then
                  match cleanup q3 node1 with
                  | none => none
                  | some q5 =>
                    match q5.handles handle with
                    | none => none
                    | some hd5 => some (q5.setHandle handle { hd5 with winner := false })
                else some q3
              match q4 with
              | none => none
              | some q6 =>
                match release_hazard q6 handle with
                | none => none
                | some q7 => some (q7, val)

/-- Source function `fifo_init(fifo, size, width)` on empty segment memory and empty handle storage. -/
def fifo_init (size width : Nat) : fifo_t :=
  { lock := false
    S := size
    W := width
    head_index := 0
    head_node := (new_node [] 0 size).2
    tail_ENQ := 0
    tail_DEQ := 0
    plist := []
    heap := (new_node [] 0 size).1
    handles := fun _ => none }

/-- Source function `fifo_register(fifo, me)`: the CAS on `plist` succeeds at the first attempt.
The new first element `me` is followed by the previous chain; as a list this
is exact when `me` is not linked already. -/
def fifo_register (q : fifo_t) (me : Nat) : fifo_t :=
  { q with
    handles := Function.update q.handles me
      (some { hazard := none, node0 := q.head_node, node1 := q.head_node, winner := false })
    plist := me :: q.plist }

/-- The walk `while (p->next != me) p = p->next; p->next = me->next;` started
at the first handle of the list; it faults when it runs off the end. -/
def unlink_after (me : Nat) : List Nat → Option (List Nat)
  | [] => none
  | [_] => none
  | p :: n :: rest =>
    if n = me then some (p :: rest) else (unlink_after me (n :: rest)).map (fun l => p :: l)

/-- Source function `fifo_unregister(fifo, me)`; a held lock makes the call spin for ever. -/
def fifo_unregister (q : fifo_t) (me : Nat) : Option fifo_t :=
  if q.lock then none else
  let q1 := { q with lock := true }
  let q2 := { q1 with W := size_sub q1.W 1 }
  match q2.plist with
  | [] => none
  | p :: rest =>
    if p = me then some { q2 with plist := rest, lock := false }
    else
      match unlink_after me (p :: rest) with
      | none => none
      | some l => some { q2 with plist := l, lock := false }

/-- One call made by a client thread. -/
inductive Op where
  | register (h : Nat)
  | unregister (h : Nat)
  | put (h : Nat) (x : Nat)
  | get (h : Nat)
deriving DecidableEq, Repr

/-- Run one call to completion; the second component lists the value returned
by a `get`.  Registering a handle that is already linked would tie the
intrusive registry chain into a cycle, which the list `plist` cannot represent;
such a call is outside the model (`none`). -/
def step (fuel : Nat) (q : fifo_t) : Op → Option (fifo_t × List Nat)
  | Op.register h => if h ∈ q.plist then none else some (fifo_register q h, [])
  | Op.unregister h => (fifo_unregister q h).map (fun q1 => (q1, []))
  | Op.put h x => (fifo_put q h x).map (fun q1 => (q1, []))
  | Op.get h => (fifo_get fuel q h).map (fun r => (r.1, [r.2]))

/-- An operation-atomic run: the calls are executed one after the other; the
result lists the values returned by the `get` calls in order of completion. -/
def run (fuel : Nat) : fifo_t → List Op → Option (fifo_t × List Nat)
  | q, [] => some (q, [])
  | q, op :: ops =>
    match step fuel q op with
    | none => none
    | some (q1, o1) =>
      match run fuel q1 ops with
      | none => none
      | some (q2, o2) => some (q2, o1 ++ o2)

/-- The items passed to `put`, in call order. -/
def puts : List Op → List Nat
  | [] => []
  | Op.put _ x :: ops => x :: puts ops
  | _ :: ops => puts ops

/-- Number of `get` calls. -/
def gets : List Op → Nat
  | [] => 0
  | Op.get _ :: ops => gets ops + 1
  | _ :: ops => gets ops

/-- Client discipline for a run, given the handles registered so far and the
number of items put but not yet got: `put`/`get`/`unregister` only on a
registered handle, `register` only on a handle that is not registered, only
non-null items, and a `get` only when an item is available. -/
def wf_run : List Nat → Nat → List Op → Bool
  | _, _, [] => true
  | reg, avail, Op.register h :: ops => decide (h ∉ reg) && wf_run (h :: reg) avail ops
  | reg, avail, Op.unregister h :: ops => decide (h ∈ reg) && wf_run (reg.erase h) avail ops
  | reg, avail, Op.put h x :: ops => decide (h ∈ reg) && decide (x ≠ EMPTY) && wf_run reg (avail + 1) ops
  | reg, avail, Op.get h :: ops => decide (h ∈ reg) && decide (0 < avail) && wf_run reg (avail - 1) ops



/-! ## Well-formed segment lists -/

/-- The cells of segment `k` once `items` have been put: item number `t` sits
in cell `t % S` of segment `t / S`, every other cell is still `EMPTY`. -/
def slots (S : Nat) (items : List Nat) (k : Nat) : List Nat :=
  (List.range S).map (fun l => items.getD (k * S + l) EMPTY)

/-- The segments with ids `lo, ..., hi - 1` form a `next`-chain: segment `k`
lives at address `addr k`, carries id `k` and cells `B k`, and its `next`
points to segment `k + 1` (null for the last one). -/
def ChainB (m : Heap) (addr : Nat → Nat) (lo hi : Nat) (B : Nat → List Nat) : Prop :=
  ∀ k < hi, lo ≤ k →
    m.read (addr k) =
      some { next := if k + 1 < hi then some (addr (k + 1)) else none, id := k, buffer := B k }

/-- The cells found in memory at the address of segment `k`. -/
def bufAt (m : Heap) (addr : Nat → Nat) (k : Nat) : List Nat :=
  match m.read (addr k) with
  | some n => n.buffer
  | none => []

/-- A well-formed segment list with arbitrary cell contents. -/
def Chain (m : Heap) (addr : Nat → Nat) (lo hi : Nat) : Prop :=
  ChainB m addr lo hi (bufAt m addr)

/-- Address `a` is one of the segments `lo, ..., hi - 1`. -/
def InChain (addr : Nat → Nat) (lo hi : Nat) (a : Nat) : Prop :=
  ∃ k < hi, lo ≤ k ∧ addr k = a

/-- Every segment pointer of a handle record (the hazard when it is published,
`node[ENQ]`, `node[DEQ]`) refers to one of the segments `lo, ..., hi - 1`. -/
def RefsIn (addr : Nat → Nat) (lo hi : Nat) (hd : handle_t) : Prop :=
  (∀ a, hd.hazard = some a → InChain addr lo hi a) ∧
    InChain addr lo hi hd.node0 ∧ InChain addr lo hi hd.node1

/-- The node at `a` has a smaller id than the node at `b`. -/
def IdLt (m : Heap) (a b : Nat) : Prop :=
  ∃ n n1, m.read a = some n ∧ m.read b = some n1 ∧ n.id < n1.id

/-- What a registry scan may do to a handle record: the hazard and the winner
flag stay, each cached node either stays or is moved forward to a segment with
id between `tlo` and `thi`. -/
def Adv (m : Heap) (addr : Nat → Nat) (tlo thi : Nat) (hd hd1 : handle_t) : Prop :=
  hd1.hazard = hd.hazard ∧ hd1.winner = hd.winner ∧
    (hd1.node0 = hd.node0 ∨
      (∃ k, tlo ≤ k ∧ k ≤ thi ∧ hd1.node0 = addr k) ∧ IdLt m hd.node0 hd1.node0) ∧
    (hd1.node1 = hd.node1 ∨
      (∃ k, tlo ≤ k ∧ k ≤ thi ∧ hd1.node1 = addr k) ∧ IdLt m hd.node1 hd1.node1)

/-- Everything in the queue state except the handle records. -/
def fifo_t.root (q : fifo_t) : Bool × Nat × Nat × Nat × Nat × Nat × Nat × List Nat × Heap :=
  (q.lock, q.S, q.W, q.head_index, q.head_node, q.tail_ENQ, q.tail_DEQ, q.plist, q.heap)

/-- Outcome of `cleanup` called with candidate segment `c` on a list of segments
`lo, ..., hi - 1`: the new head is segment `t`, the segments `lo, ..., t - 1`
have been freed and nothing else in memory changed, every handle record was at
most advanced, and all registered handles refer to segments from `t` on. -/
structure CleanupPost (addr : Nat → Nat) (lo hi c : Nat) (q q1 : fifo_t) (t : Nat) : Prop where
  lo_le : lo ≤ t
  le_c : t ≤ c
  index : (q1 = q ∧ t = lo) ∨
    (q1.head_index = t ∧ q.head_index ≠ SIZE_MAX ∧ size_sub c q.head_index > threshold q.W)
  head : q1.head_node = addr t
  lock : q1.lock = q.lock
  size : q1.S = q.S
  width : q1.W = q.W
  enq : q1.tail_ENQ = q.tail_ENQ
  deq : q1.tail_DEQ = q.tail_DEQ
  plist : q1.plist = q.plist
  length : q1.heap.length = q.heap.length
  freed : ∀ k, lo ≤ k → k < t → q1.heap.read (addr k) = none
  kept : ∀ a, (∀ k, lo ≤ k → k < t → addr k ≠ a) → q1.heap.read a = q.heap.read a
  others : ∀ h, h ∉ q.plist → q1.handles h = q.handles h
  absent : ∀ h, q.handles h = none → q1.handles h = none
  adv : ∀ h hd, q.handles h = some hd → ∃ hd1, q1.handles h = some hd1 ∧ Adv q.heap addr t c hd hd1
  refs : ∀ h ∈ q.plist, ∀ hd1, q1.handles h = some hd1 → RefsIn addr t hi hd1

/-- The invariant of operation-atomic runs, between two calls.  `items` are the
payloads put so far, segment `k` lives at `addr k`, and the live segments are
exactly those with ids `head.index, ..., hi - 1`. -/
structure Inv (q : fifo_t) (items : List Nat) (addr : Nat → Nat) (hi : Nat) : Prop where
  spos : 0 < q.S
  lock : q.lock = false
  enq : q.tail_ENQ = items.length
  deq : q.tail_DEQ ≤ q.tail_ENQ
  lt : q.head_index < hi
  head : q.head_node = addr q.head_index
  chain : ChainB q.heap addr q.head_index hi (slots q.S items)
  exact : ∀ a n, q.heap.read a = some n → q.head_index ≤ n.id ∧ n.id < hi ∧ a = addr n.id
  fits : items.length ≤ hi * q.S
  head_le : q.head_index ≤ q.tail_DEQ / q.S
  handles : ∀ h ∈ q.plist, ∃ k0 k1 w,
    q.handles h = some { hazard := none, node0 := addr k0, node1 := addr k1, winner := w } ∧
    q.head_index ≤ k0 ∧ k0 < hi ∧ k0 ≤ q.tail_ENQ / q.S ∧
    q.head_index ≤ k1 ∧ k1 < hi ∧ k1 ≤ q.tail_DEQ / q.S

/-- The registry after a run that started with the handles `reg` linked. -/
def regs_after : List Nat → List Op → List Nat
  | reg, [] => reg
  | reg, Op.register h :: ops => regs_after (h :: reg) ops
  | reg, Op.unregister h :: ops => regs_after (reg.erase h) ops
  | reg, _ :: ops => regs_after reg ops

/-- Number of `unregister` calls. -/
def unregs : List Op → Nat
  | [] => 0
  | Op.unregister _ :: ops => unregs ops + 1
  | _ :: ops => unregs ops

/-- Number of `register` calls. -/
def regs : List Op → Nat
  | [] => 0
  | Op.register _ :: ops => regs ops + 1
  | _ :: ops => regs ops

/-- Follow `next` pointers `k` times starting from address `a`. -/
def follow (m : Heap) : Nat → Nat → Option Nat
  | 0, a => some a
  | k + 1, a =>
    match m.read a with
    | none => none
    | some n =>
      match n.next with
      | none => none
      | some b => follow m k b

/-- The content of the slot addressed by ticket `i`: cell `i % S` of the segment
with id `i / S`, looked up by walking the list from `head.node`.  A segment that
has not been allocated yet counts as `EMPTY` (whoever needs it first installs
it zeroed). -/
def slot_at (q : fifo_t) (i : Nat) : Nat :=
  match q.heap.read q.head_node with
  | none => EMPTY
  | some hn =>
    match follow q.heap (i / q.S - hn.id) q.head_node with
    | none => EMPTY
    | some a =>
      match q.heap.read a with
      | none => EMPTY
      | some n => if n.id = i / q.S then n.buffer.getD (i % q.S) EMPTY else EMPTY

/-- The control fields that only `fifo_init`, the ticket draws and the
registry operations write: lock, `S`, `W`, both ticket counters and `plist`. -/
def fifo_t.ctl (q : fifo_t) : Bool × Nat × Nat × Nat × Nat × List Nat :=
  (q.lock, q.S, q.W, q.tail_ENQ, q.tail_DEQ, q.plist)

/-- A state for exercising `cleanup`: six segments of one cell each at
addresses `0, ..., 5`, `W = 1`, handle `1` with a published hazard on segment
`3`, handle `2` lagging behind on segment `2`. -/
def scan_state : fifo_t :=
  { lock := false
    S := 1
    W := 1
    head_index := 0
    head_node := 0
    tail_ENQ := 6
    tail_DEQ := 6
    plist := [1, 2]
    heap := [some { next := some 1, id := 0, buffer := [10] },
             some { next := some 2, id := 1, buffer := [11] },
             some { next := some 3, id := 2, buffer := [12] },
             some { next := some 4, id := 3, buffer := [13] },
             some { next := some 5, id := 4, buffer := [14] },
             some { next := none, id := 5, buffer := [15] }]
    handles := fun h =>
      if h = 1 then some { hazard := some 3, node0 := 4, node1 := 5, winner := true }
      else if h = 2 then some { hazard := none, node0 := 2, node1 := 5, winner := false }
      else none }

/-- A two-segment list (`S = 2`) whose last segment has no successor yet. -/
def two_segments : Heap :=
  [some { next := some 1, id := 0, buffer := [10, 11] },
   some { next := none, id := 1, buffer := [12, 0] }]

/-- The state and outputs of a completed run (the initial state of a one-cell
queue when the run does not complete). -/
def run_result (r : Option (fifo_t × List Nat)) : fifo_t × List Nat :=
  r.getD (fifo_init 1 0, [])

/-- A run with two handles: three puts and one get on a queue with `S = 2`. -/
def demo_ops : List Op :=
  [Op.register 7, Op.register 8, Op.put 7 11, Op.put 8 12, Op.get 8, Op.put 7 13]

/-- The state after four put/get round trips of one handle on a queue with
`S = 1`, `W = 0`: reclamation has advanced the head to segment `2`. -/
def reclaimed_state : fifo_t :=
  (run_result (run 1 (fifo_init 1 0)
    [Op.register 7, Op.put 7 1, Op.get 7, Op.put 7 2, Op.get 7, Op.put 7 3, Op.get 7,
      Op.put 7 4, Op.get 7])).1

/-- The statements of `fifo_get` up to and including the move to the segment of
the ticket: `acquire`, the ticket draw and `update`.  The result is the state
reached, the local `node` and the local `li`. -/
def get_front (q : fifo_t) (handle : Nat) : Option (fifo_t × Nat × Nat) :=
  match acquire q handle Field.DEQ with
  | none => none
  | some (q1, node) =>
    let faa := fetch_and_add q1.tail_DEQ 1
    let i := faa.1
    let q2 := { q1 with tail_DEQ := faa.2 }
    if q2.S = 0 then none else
    let ni := i / q2.S
    let li := i % q2.S
    match advance q2 handle Field.DEQ node ni with
    | none => none
    | some (q3, node1) => some (q3, node1, li)

/-- The statements of `fifo_get` that follow `get_front`: the spin on the cell,
the block `if (handle->winner) { cleanup(fifo, node); handle->winner = 0; }`
and the release of the hazard. -/
def get_back (fuel : Nat) (q3 : fifo_t) (handle node1 li : Nat) : Option (fifo_t × Nat) :=
  match q3.heap.read node1 with
  | none => none
  | some n =>
    match n.buffer.get? li with
    | none => none
    | some cell =>
      match spin_while fuel cell with
      | none => none
      | some val =>
        match q3.handles handle with
        | none => none
        | some hd =>
          let q4 : Option fifo_t :=
            if hd.winner then
              match cleanup q3 node1 with
              | none => none
              | some q5 =>
                match q5.handles handle with
                | none => none
                | some hd5 => some (q5.setHandle handle { hd5 with winner := false })
            else some q3
          match q4 with
          | none => none
          | some q6 =>
            match release_hazard q6 handle with
            | none => none
            | some q7 => some (q7, val)

/-- The ids of the segments met by following `next` from address `a`, at most
`fuel` of them. -/
def segs (m : Heap) : Nat → Nat → List Nat
  | 0, _ => []
  | k + 1, a =>
    match m.read a with
    | none => []
    | some n =>
      n.id :: (match n.next with
        | none => []
        | some b => segs m k b)

/-- The ids of the segment list of the queue, from `head.node` on. -/
def seg_list (q : fifo_t) : List Nat :=
  segs q.heap q.heap.length q.head_node

/-- The ids of the allocated segments that have not been freed, in address order. -/
def live_ids (m : Heap) : List Nat :=
  m.filterMap (fun c => c.map node_t.id)

/-- The number of allocated segments that have not been freed. -/
def live_count (m : Heap) : Nat :=
  ((List.range m.length).filter (fun a => (m.read a).isSome)).length

/-- A lone thread alternating `put` and `get`: one round trip per item. -/
def round_trips (h : Nat) : List Nat → List Op
  | [] => []
  | x :: xs => Op.put h x :: Op.get h :: round_trips h xs

/-- Every handle in `G` only calls `fifo_get`, every other handle only calls `fifo_put`. -/
def role_split (G : List Nat) : List Op → Bool
  | [] => true
  | Op.put h _ :: ops => decide (h ∉ G) && role_split G ops
  | Op.get h :: ops => decide (h ∈ G) && role_split G ops
  | _ :: ops => role_split G ops

/-- The state of a one-cell queue initialised with `width = 2^31` after two
put/get round trips of handle `7` and a third `put`: segments `0`, `1`, `2`
are allocated and handle `7` has its winner flag set. -/
def wide_state : fifo_t :=
  (run_result (run 1 (fifo_init 1 2147483648)
    [Op.register 7, Op.put 7 1, Op.get 7, Op.put 7 2, Op.get 7, Op.put 7 3])).1

/-- The state a lone handle `7` reaches from `fifo_init(S, W0)` by registering
and carrying out the calls `ops`. -/
def lone_state (S W0 : Nat) (ops : List Op) : fifo_t :=
  (run_result (run 1 (fifo_init S W0) (Op.register 7 :: ops))).1

/-- The first `n` round trips of handle `7`, putting the items `1, ..., n`. -/
def trips (n : Nat) : List Op :=
  round_trips 7 ((List.range n).map (fun i => i + 1))

/-- What is observed of the segment memory: the ids of the live segments,
`head.index`, and the id of the segment `head.node` points to. -/
def observe (q : fifo_t) : List Nat × Nat × Option Nat :=
  (live_ids q.heap, q.head_index, (q.heap.read q.head_node).map node_t.id)

/-- A run on `fifo_init(1, 2)` with two handles: handle `7` puts six items, then
handle `8` gets five of them.  Handle `7` has installed segments `1, ..., 5`
and its cached `node[DEQ]` is still segment `0`. -/
def stale_ops : List Op :=
  [Op.register 7, Op.register 8, Op.put 7 1, Op.put 7 2, Op.put 7 3, Op.put 7 4, Op.put 7 5,
    Op.put 7 6, Op.get 8, Op.get 8, Op.get 8, Op.get 8, Op.get 8]

/-- The state reached by `stale_ops`. -/
def stale_state : fifo_t :=
  (run_result (run 1 (fifo_init 1 2) stale_ops)).1

/-- Invariant SEG-1 on the list that starts at `head.node`: the head segment is
live and `head.index` is its id; every segment reached by following `next`
is live, the `k`-th one has id `head.index + k`, and `X.next = Y` implies that
`Y` is live with `Y.id = X.id + 1`. -/
def seg_chain (q : fifo_t) : Prop :=
  (∃ n0, q.heap.read q.head_node = some n0 ∧ n0.id = q.head_index) ∧
  ∀ k a, follow q.heap k q.head_node = some a →
    ∃ x, q.heap.read a = some x ∧ x.id = q.head_index + k ∧
      ∀ b, x.next = some b → ∃ y, q.heap.read b = some y ∧ y.id = x.id + 1

/-- The cell `node->buffer[li]` that `fifo_get` spins on. -/
def get_cell (q : fifo_t) (node li : Nat) : Option Nat :=
  (q.heap.read node).bind (fun n => n.buffer.get? li)

/-- No reclamation pass has run so far: the head is still the initial segment,
the handles in `G` (the consumers) have a clear winner flag, no allocated cell
has been freed, and the list ends with the segment of the last ticket drawn by
a `put` (`hi` is the number of segments in the list). -/
structure NoRec (q : fifo_t) (G : List Nat) (hi : Nat) : Prop where
  index : q.head_index = 0
  node : q.head_node = 0
  quiet : ∀ h ∈ G, ∀ hd, q.handles h = some hd → hd.winner = false
  live : ∀ a, a < q.heap.length → (q.heap.read a).isSome = true
  top : hi = (q.tail_ENQ - 1) / q.S + 1

/-- The state of a queue used by the single handle `h`, between two put/get
round trips: every item put has been got, the handle's `node[DEQ]` is the last
segment of the list and its winner flag is clear, and at most
`max (2 * W0 + 1) 2` segments are live. -/
structure Lone (q : fifo_t) (h W0 : Nat) (items : List Nat) (addr : Nat → Nat) (hi : Nat) :
    Prop where
  inv : Inv q items addr hi
  ne : ∀ x ∈ items, x ≠ EMPTY
  plist : q.plist = [h]
  width : q.W = W0
  deq : q.tail_DEQ = q.tail_ENQ
  top : hi = (q.tail_ENQ - 1) / q.S + 1
  handle : ∃ a0, q.handles h =
    some { hazard := none, node0 := a0, node1 := addr (hi - 1), winner := false }
  bound : hi - q.head_index ≤ max (2 * W0 + 1) 2

/-- Program points of `update` between two accesses to shared memory, each
with the locals that are live there: `top` is the loop test `i < to`, `load`
stands before `node = prev->next`, `alloc` before `next = new_node(i + 1, size)`
(the load returned null), `cas` before
`compare_and_swap(&prev->next, NULL, next)`, `dispose` before `free(next)`
(the compare-and-swap returned the non-null `node`), and `ret` is
`return node`. -/
inductive upc where
  | top (node i : Nat)
  | load (prev i : Nat)
  | alloc (prev i : Nat)
  | cas (prev i next : Nat)
  | dispose (prev i next node : Nat)
  | ret (node : Nat)
deriving DecidableEq, Repr

/-- A thread inside `update(node, to, size, winner)`: its program point, the
arguments `to` and `size`, and the flag `*winner`. -/
structure uthread where
  pc : upc
  to_ : Nat
  size : Nat
  winner : Bool
deriving DecidableEq, Repr

/-- Entry of `update`: `i = node->id`. -/
def ustart (m : Heap) (node to_ size : Nat) (winner : Bool) : Option uthread :=
  (m.read node).map (fun n => { pc := upc.top node n.id, to_ := to_, size := size, winner := winner })

/-- One step of a thread in `update`: the code up to and including its next
access to shared memory (load of `prev->next`, `new_node`, the compare-and-swap,
`free`).  A thread that has returned does nothing. -/
def ustep (m : Heap) (t : uthread) : Option (Heap × uthread) :=
  match t.pc with
  | upc.top node i =>
    if i < t.to_ then some (m, { t with pc := upc.load node i })
    else some (m, { t with pc := upc.ret node })
  | upc.load prev i =>
    match m.read prev with
    | none => none
    | some pn =>
      match pn.next with
      | some node => some (m, { t with pc := upc.top node (i + 1) })
      | none => some (m, { t with pc := upc.alloc prev i })
  | upc.alloc prev i =>
    some ((new_node m (i + 1) t.size).1,
      { t with pc := upc.cas prev i (new_node m (i + 1) t.size).2 })
  | upc.cas prev i next =>
    match m.read prev with
    | none => none
    | some pn =>
      let c := compare_and_swap pn.next none (some next)
      let m1 := m.write prev { pn with next := c.1 }
      match c.2 with
      | some node => some (m1, { t with pc := upc.dispose prev i next node })
      | none => some (m1, { t with pc := upc.top next (i + 1), winner := true })
  | upc.dispose _ i next node =>
    some (m.free next, { t with pc := upc.top node (i + 1) })
  | upc.ret _ => some (m, t)

/-- Two threads in `update` on one memory, interleaved by a schedule: `true`
lets the first thread take its next step, `false` the second. -/
def race : List Bool → Heap × uthread × uthread → Option (Heap × uthread × uthread)
  | [], s => some s
  | true :: sch, (m, a, b) =>
    match ustep m a with
    | none => none
    | some (m1, a1) => race sch (m1, a1, b)
  | false :: sch, (m, a, b) =>
    match ustep m b with
    | none => none
    | some (m1, b1) => race sch (m1, a, b1)

/-- What a thread racing to extend the segment `P` (id `k`) knows at each program
point; `nx` is the current content of `P->next` and `L0` the size of the memory
when the race started. -/
def pc_ok (m : Heap) (P k S L0 : Nat) (nx : Option Nat) (w : Bool) : upc → Prop
  | upc.top node i => (node = P ∧ i = k ∧ w = false) ∨ (i = k + 1 ∧ nx = some node)
  | upc.load prev i => prev = P ∧ i = k ∧ w = false
  | upc.alloc prev i => prev = P ∧ i = k ∧ w = false
  | upc.cas prev i next => prev = P ∧ i = k ∧ w = false ∧ L0 ≤ next ∧
      m.read next = some { next := none, id := k + 1, buffer := List.replicate S EMPTY } ∧
      nx ≠ some next
  | upc.dispose prev i next node => prev = P ∧ i = k ∧ w = false ∧ L0 ≤ next ∧
      m.read next = some { next := none, id := k + 1, buffer := List.replicate S EMPTY } ∧
      nx = some node ∧ node ≠ next
  | upc.ret node => nx = some node

/-- The speculative node a thread holds (allocated, not yet installed or freed). -/
def pc_holds : upc → Nat → Prop
  | upc.cas _ _ next, c => next = c
  | upc.dispose _ _ next _, c => next = c
  | _, _ => False

/-- An upper bound on the number of steps a thread still takes before it returns. -/
def pc_rank (to_ : Nat) : upc → Nat
  | upc.top _ i => if i < to_ then 6 else 1
  | upc.load _ _ => 5
  | upc.alloc _ _ => 4
  | upc.cas _ _ _ => 3
  | upc.dispose _ _ _ _ => 2
  | upc.ret _ => 0

/-- Invariant of two threads racing to extend the last segment `P` (id `k`,
buffer `b0`) of the memory `m0` by one segment: `nx` is the content of
`P->next`. -/
structure RaceInv (m0 : Heap) (P k S : Nat) (b0 : List Nat) (nx : Option Nat) (m : Heap)
    (a b : uthread) : Prop where
  prev : m.read P = some { next := nx, id := k, buffer := b0 }
  below : P < m0.length
  grow : m0.length ≤ m.length
  toA : a.to_ = k + 1
  sizeA : a.size = S
  toB : b.to_ = k + 1
  sizeB : b.size = S
  okA : pc_ok m P k S m0.length nx a.winner a.pc
  okB : pc_ok m P k S m0.length nx b.winner b.pc
  inst : ∀ x, nx = some x →
    m.read x = some { next := none, id := k + 1, buffer := List.replicate S EMPTY } ∧
    m0.length ≤ x ∧ a.winner ≠ b.winner
  apart : ∀ c, pc_holds a.pc c → pc_holds b.pc c → False
  spare : ∀ c, m0.length ≤ c → (m.read c).isSome = true →
    nx = some c ∨ pc_holds a.pc c ∨ pc_holds b.pc c
  frame : ∀ c, c < m0.length → c ≠ P → m.read c = m0.read c

/-! ## Segment memory -/

theorem read_lt {m : Heap} {a : Nat} {n : node_t} (h : m.read a = some n) : a < m.length := by
  by_contra hlt
  have hle : m.length ≤ a := Nat.le_of_not_lt hlt
  simp [Heap.read, List.getD_eq_getElem?_getD, List.getElem?_eq_none hle] at h

theorem read_length (m : Heap) : m.read m.length = none := by
  simp [Heap.read, List.getD_eq_getElem?_getD]

theorem read_write (m : Heap) (a b : Nat) (n : node_t) :
    (m.write a n).read b = if a = b ∧ a < m.length then some n else m.read b := by
  simp only [Heap.read, Heap.write, List.getD_eq_getElem?_getD, List.getElem?_set]
  by_cases hab : a = b
  · subst hab
    by_cases hlt : a < m.length
    · simp [hlt]
    · simp [hlt, List.getElem?_eq_none (Nat.le_of_not_lt hlt)]
  · simp [hab]

theorem read_free (m : Heap) (a b : Nat) :
    (m.free a).read b = if a = b then none else m.read b := by
  simp only [Heap.read, Heap.free, List.getD_eq_getElem?_getD, List.getElem?_set]
  by_cases hab : a = b
  · subst hab
    by_cases hlt : a < m.length
    · simp [hlt]
    · simp [hlt]
  · simp [hab]

theorem read_new_node (m : Heap) (id size : Nat) (b : Nat) :
    (new_node m id size).1.read b =
      if b = m.length then some { next := none, id := id, buffer := List.replicate size EMPTY }
      else m.read b := by
  simp only [Heap.read, new_node, List.getD_eq_getElem?_getD]
  by_cases hb : b = m.length
  · subst hb
    simp
  · rcases Nat.lt_or_gt_of_ne hb with hlt | hgt
    · simp [hb, List.getElem?_append_left hlt]
    · have h1 : (m ++ [some ({ next := none, id := id, buffer := List.replicate size EMPTY } : node_t)]).length ≤ b := by
        simp
        omega
      simp [hb, List.getElem?_eq_none h1, List.getElem?_eq_none (Nat.le_of_lt hgt)]

theorem length_write (m : Heap) (a : Nat) (n : node_t) : (m.write a n).length = m.length := by
  simp [Heap.write]

theorem length_free (m : Heap) (a : Nat) : (m.free a).length = m.length := by
  simp [Heap.free]

theorem length_new_node (m : Heap) (id size : Nat) : (new_node m id size).1.length = m.length + 1 := by
  simp [new_node]


/-! ## The walk-and-extend loop -/

theorem chainB_addr_ne {m : Heap} {addr : Nat → Nat} {lo hi : Nat} {B : Nat → List Nat}
    (hc : ChainB m addr lo hi B) {j k : Nat} (hj : j < hi) (hlj : lo ≤ j) (hk : k < hi)
    (hlk : lo ≤ k) (hne : j ≠ k) : addr j ≠ addr k := by
  intro heq
  have h1 := hc j hj hlj
  have h2 := hc k hk hlk
  rw [heq, h2] at h1
  have h3 := congrArg node_t.id (Option.some.inj h1)
  simp at h3
  exact hne h3.symm

theorem chainB_addr_lt {m : Heap} {addr : Nat → Nat} {lo hi : Nat} {B : Nat → List Nat}
    (hc : ChainB m addr lo hi B) {j : Nat} (hj : j < hi) (hlj : lo ≤ j) : addr j < m.length :=
  read_lt (hc j hj hlj)

theorem update_loop_spec (size : Nat) :
    ∀ (k i : Nat) (m : Heap) (addr : Nat → Nat) (lo hi : Nat) (B : Nat → List Nat) (w : Bool),
      ChainB m addr lo hi B → lo ≤ i → i < hi →
      ∃ m1 addr1,
        update_loop size k i m (addr i) w = some (m1, addr1 (i + k), w || decide (hi ≤ i + k)) ∧
        (∀ j, j < hi → addr1 j = addr j) ∧
        ChainB m1 addr1 lo (max hi (i + k + 1))
          (fun j => if j < hi then B j else List.replicate size EMPTY) ∧
        (∀ a n0, m.read a = some n0 →
          ∃ n, m1.read a = some n ∧ n.id = n0.id ∧ n.buffer = n0.buffer) ∧
        (∀ a n, m1.read a = some n → m.read a = none →
          hi ≤ n.id ∧ n.id < max hi (i + k + 1) ∧ a = addr1 n.id) := by
  intro k
  induction k with
  | zero =>
    intro i m addr lo hi B w hc hlo hhi
    refine ⟨m, addr, ?_, fun _ _ => rfl, ?_, ?_, ?_⟩
    · have : ¬ hi ≤ i := Nat.not_le.mpr hhi
      simp [update_loop, this]
    · have hmax : max hi (i + 0 + 1) = hi := by omega
      rw [hmax]
      intro j hj hlj
      rw [hc j hj hlj]
      simp [hj]
    · intro a n0 h
      exact ⟨n0, h, rfl, rfl⟩
    · intro a n h1 h2
      rw [h1] at h2
      cases h2
  | succ k ih =>
    intro i m addr lo hi B w hc hlo hhi
    have hri := hc i hhi hlo
    by_cases hnext : i + 1 < hi
    · obtain ⟨m1, addr1, hrun, hadd, hch, hold, hnew⟩ := ih (i + 1) m addr lo hi B w hc (by omega) hnext
      have e1 : i + 1 + k = i + (k + 1) := by omega
      have e2 : i + 1 + k + 1 = i + (k + 1) + 1 := by omega
      rw [e1] at hrun
      rw [e2] at hch hnew
      refine ⟨m1, addr1, ?_, hadd, hch, hold, hnew⟩
      simp only [update_loop, hri, hnext, if_true]
      exact hrun
    · have hi_eq : hi = i + 1 := by omega
      have hlen : addr i < m.length := read_lt hri
      have hne : addr i ≠ m.length := Nat.ne_of_lt hlen
      let addr2 : Nat → Nat := fun j => if j = hi then m.length else addr j
      let pn : node_t := { next := some m.length, id := i, buffer := B i }
      let m2 : Heap := (new_node m (i + 1) size).1.write (addr i) pn
      have hread2 : ∀ b, m2.read b =
          if addr i = b then some pn
          else if b = m.length then
            some { next := none, id := i + 1, buffer := List.replicate size EMPTY }
          else m.read b := by
        intro b
        simp only [m2, read_write, read_new_node, length_new_node]
        by_cases hb : addr i = b
        · subst hb
          have : addr i < m.length + 1 := by omega
          simp [this]
        · simp [hb]
      have hc2 : ChainB m2 addr2 lo (hi + 1)
          (fun j => if j < hi then B j else List.replicate size EMPTY) := by
        intro j hj hlj
        rw [hread2]
        by_cases hji : j = i
        · subst hji
          have h1 : j ≠ hi := by omega
          have h2 : j < hi := by omega
          simp [addr2, h1, h2, pn, hi_eq]
        · by_cases hjh : j = hi
          · subst hjh
            simp [addr2, hne, hi_eq]
          · have h2 : j < hi := by omega
            have hne1 : addr i ≠ addr j :=
              chainB_addr_ne hc hhi hlo h2 hlj (fun h => hji h.symm)
            have hne2 : addr j ≠ m.length := Nat.ne_of_lt (chainB_addr_lt hc h2 hlj)
            have h3 : j + 1 < hi := by omega
            have h4 : j + 1 ≠ hi := by omega
            have h5 : j + 1 < hi + 1 := by omega
            simp [addr2, hjh, hne1, hne2, hc j h2 hlj, h2, h3, h4, h5]
      obtain ⟨m1, addr1, hrun, hadd, hch, hold, hnew⟩ :=
        ih (i + 1) m2 addr2 lo (hi + 1) _ true hc2 (by omega) (by omega)
      have ha2 : addr2 (i + 1) = m.length := by simp [addr2, hi_eq]
      have e1 : i + 1 + k = i + (k + 1) := by omega
      have e2 : max (hi + 1) (i + 1 + k + 1) = max hi (i + (k + 1) + 1) := by omega
      rw [ha2, e1] at hrun
      rw [e2] at hch hnew
      refine ⟨m1, addr1, ?_, ?_, ?_, ?_, ?_⟩
      · have hr1 : (new_node m (i + 1) size).1.read (addr i)
            = some { next := none, id := i, buffer := B i } := by
          rw [read_new_node]
          simp [hne, hri, hnext]
        have hle : hi ≤ i + (k + 1) := by omega
        simp only [update_loop, hri, hnext, if_false, hr1, compare_and_swap, if_true]
        simp only [new_node] at hrun ⊢
        simp only [m2, pn, new_node] at hrun
        rw [hrun]
        simp [hle]
      · intro j hj
        rw [hadd j (by omega)]
        have : j ≠ hi := by omega
        simp [addr2, this]
      · intro j hj hlj
        rw [hch j hj hlj]
        by_cases h1 : j < hi
        · have : j < hi + 1 := by omega
          simp [h1, this]
        · have : ¬ j < hi + 1 → True := fun _ => trivial
          by_cases h2 : j < hi + 1 <;> simp [h1, h2]
      · intro a n0 ha
        have halen : a < m.length := read_lt ha
        have hane : a ≠ m.length := Nat.ne_of_lt halen
        by_cases hai : addr i = a
        · have h2 : m2.read a = some pn := by rw [hread2]; simp [hai]
          obtain ⟨n, hn1, hn2, hn3⟩ := hold a pn h2
          refine ⟨n, hn1, ?_, ?_⟩
          · rw [hn2]
            rw [← hai, hri] at ha
            rw [← Option.some.inj ha]
          · rw [hn3]
            rw [← hai, hri] at ha
            rw [← Option.some.inj ha]
        · have h2 : m2.read a = some n0 := by rw [hread2]; simp [hai, hane, ha]
          exact hold a n0 h2
      · intro a n ha hnone
        have hai : addr i ≠ a := by
          intro h
          rw [← h, hri] at hnone
          cases hnone
        by_cases hal : a = m.length
        · have h2 : m2.read a = some { next := none, id := i + 1, buffer := List.replicate size EMPTY } := by
            rw [hread2]; simp [hal, hne]
          obtain ⟨n1, hn1, hn2, hn3⟩ := hold a _ h2
          rw [ha] at hn1
          have hnid : n.id = i + 1 := by
            rw [Option.some.inj hn1, hn2]
          refine ⟨by omega, by omega, ?_⟩
          rw [hnid, hal, hadd (i + 1) (by omega)]
          exact ha2.symm
        · have h2 : m2.read a = none := by rw [hread2]; simp [hai, hal, hnone]
          obtain ⟨h3, h4, h5⟩ := hnew a n ha h2
          exact ⟨by omega, h4, h5⟩


/-! ## The hazard scan -/

theorem chainB_id {m : Heap} {addr : Nat → Nat} {lo hi : Nat} {B : Nat → List Nat}
    (hc : ChainB m addr lo hi B) {j k : Nat} (hj : j < hi) (hlj : lo ≤ j) (hk : k < hi)
    (hlk : lo ≤ k) (heq : addr j = addr k) : j = k := by
  by_contra hne
  exact chainB_addr_ne hc hj hlj hk hlk hne heq

theorem chain_card {m : Heap} {addr : Nat → Nat} {lo hi : Nat} {B : Nat → List Nat}
    (hc : ChainB m addr lo hi B) : hi - lo ≤ m.length := by
  have h := Finset.card_le_card_of_injOn (s := Finset.Ico lo hi) (t := Finset.range m.length) addr
    (by
      intro a ha
      simp only [Finset.mem_Ico] at ha
      simp only [Finset.mem_range]
      exact chainB_addr_lt hc ha.2 ha.1)
    (by
      intro a ha b hb hab
      simp only [Finset.coe_Ico, Set.mem_Ico] at ha hb
      exact chainB_id hc ha.2 ha.1 hb.2 hb.1 hab)
  simpa using h

theorem refsIn_mono {addr : Nat → Nat} {lo lo1 hi : Nat} {hd : handle_t}
    (h : RefsIn addr lo hi hd) (hle : lo1 ≤ lo) : RefsIn addr lo1 hi hd := by
  obtain ⟨h1, ⟨k0, hk0, hl0, he0⟩, ⟨k1, hk1, hl1, he1⟩⟩ := h
  refine ⟨?_, ⟨k0, hk0, by omega, he0⟩, ⟨k1, hk1, by omega, he1⟩⟩
  intro a ha
  obtain ⟨k, hk, hl, he⟩ := h1 a ha
  exact ⟨k, hk, by omega, he⟩

theorem refsIn_adv {m : Heap} {addr : Nat → Nat} {lo hi t1 t : Nat} {hd hd1 : handle_t}
    (h : RefsIn addr lo hi hd) (ha : Adv m addr t1 t hd hd1) (hlo : lo ≤ t1) (hhi : t < hi) :
    RefsIn addr lo hi hd1 := by
  obtain ⟨h1, h2, h3⟩ := h
  obtain ⟨a1, _, a3, a4⟩ := ha
  refine ⟨?_, ?_, ?_⟩
  · rw [a1]
    exact h1
  · rcases a3 with e | ⟨⟨k, hk1, hk2, e⟩, _⟩
    · rw [e]
      exact h2
    · exact ⟨k, by omega, by omega, e.symm⟩
  · rcases a4 with e | ⟨⟨k, hk1, hk2, e⟩, _⟩
    · rw [e]
      exact h3
    · exact ⟨k, by omega, by omega, e.symm⟩

theorem idLt_trans {m : Heap} {a b c : Nat} (h1 : IdLt m a b) (h2 : IdLt m b c) : IdLt m a c := by
  obtain ⟨n, n1, e1, e2, hlt⟩ := h1
  obtain ⟨n2, n3, e3, e4, hlt2⟩ := h2
  rw [e2] at e3
  cases e3
  exact ⟨n, n3, e1, e4, by omega⟩

theorem adv_refl (m : Heap) (addr : Nat → Nat) (tlo thi : Nat) (hd : handle_t) :
    Adv m addr tlo thi hd hd :=
  ⟨rfl, rfl, Or.inl rfl, Or.inl rfl⟩

theorem adv_widen {m : Heap} {addr : Nat → Nat} {t1 t s1 : Nat} {hd hd1 : handle_t}
    (h : Adv m addr t1 t hd hd1) (hle : t ≤ s1) : Adv m addr t1 s1 hd hd1 := by
  obtain ⟨a1, a2, a3, a4⟩ := h
  refine ⟨a1, a2, ?_, ?_⟩
  · rcases a3 with e | ⟨⟨k, hk1, hk2, e⟩, hid⟩
    · exact Or.inl e
    · exact Or.inr ⟨⟨k, hk1, by omega, e⟩, hid⟩
  · rcases a4 with e | ⟨⟨k, hk1, hk2, e⟩, hid⟩
    · exact Or.inl e
    · exact Or.inr ⟨⟨k, hk1, by omega, e⟩, hid⟩

theorem adv_trans {m : Heap} {addr : Nat → Nat} {t2 t1 t : Nat} {hd hd1 hd2 : handle_t}
    (h1 : Adv m addr t1 t hd hd1) (h2 : Adv m addr t2 t1 hd1 hd2) (h21 : t2 ≤ t1) (h10 : t1 ≤ t) :
    Adv m addr t2 t hd hd2 := by
  obtain ⟨a1, a2, a3, a4⟩ := h1
  obtain ⟨b1, b2, b3, b4⟩ := h2
  refine ⟨b1.trans a1, b2.trans a2, ?_, ?_⟩
  · rcases b3 with e | ⟨⟨k, hk1, hk2, e⟩, hid⟩
    · rcases a3 with e0 | ⟨⟨k, hk1, hk2, e0⟩, hid0⟩
      · exact Or.inl (e.trans e0)
      · refine Or.inr ⟨⟨k, by omega, hk2, e.trans e0⟩, ?_⟩
        rw [e]
        exact hid0
    · rcases a3 with e0 | ⟨_, hid0⟩
      · refine Or.inr ⟨⟨k, hk1, by omega, e⟩, ?_⟩
        rw [← e0]
        exact hid
      · exact Or.inr ⟨⟨k, hk1, by omega, e⟩, idLt_trans hid0 hid⟩
  · rcases b4 with e | ⟨⟨k, hk1, hk2, e⟩, hid⟩
    · rcases a4 with e0 | ⟨⟨k, hk1, hk2, e0⟩, hid0⟩
      · exact Or.inl (e.trans e0)
      · refine Or.inr ⟨⟨k, by omega, hk2, e.trans e0⟩, ?_⟩
        rw [e]
        exact hid0
    · rcases a4 with e0 | ⟨_, hid0⟩
      · refine Or.inr ⟨⟨k, hk1, by omega, e⟩, ?_⟩
        rw [← e0]
        exact hid
      · exact Or.inr ⟨⟨k, hk1, by omega, e⟩, idLt_trans hid0 hid⟩

theorem check_hazard {q : fifo_t} {p : Nat} {addr : Nat → Nat} {lo hi : Nat} {B : Nat → List Nat}
    (hc : ChainB q.heap addr lo hi B) {t : Nat} (hlt : lo ≤ t) (hth : t < hi)
    {hd : handle_t} (hp : q.handles p = some hd) (hz : Option Nat)
    (hhz : ∀ kz, hz = some kz → lo ≤ kz ∧ kz < hi) (hh : hd.hazard = hz.map addr) :
    check q p Field.hazard none (addr t) =
      some (q, addr (match hz with
        | some kz => min t kz
        | none => t)) := by
  cases hz with
  | none =>
    simp only [Option.map_none'] at hh
    simp [check, hp, handle_t.get, hh]
  | some kz =>
    simp only [Option.map_some'] at hh
    obtain ⟨h1, h2⟩ := hhz kz rfl
    simp only [check, hp, handle_t.get, hh, hc kz h2 h1, hc t hth hlt]
    by_cases hlt2 : kz < t
    · have : min t kz = kz := by omega
      simp [hlt2, this]
    · have : min t kz = t := by omega
      simp [hlt2, this]

theorem check_node {q : fifo_t} {p : Nat} {addr : Nat → Nat} {lo hi : Nat} {B : Nat → List Nat}
    (hc : ChainB q.heap addr lo hi B) {t : Nat} (hlt : lo ≤ t) (hth : t < hi)
    {hd : handle_t} (hp : q.handles p = some hd) (hz : Option Nat)
    (hhz : ∀ kz, hz = some kz → t ≤ kz ∧ kz < hi) (hh : hd.hazard = hz.map addr)
    (side : Field) (hside : side ≠ Field.hazard) {k : Nat} (hlk : lo ≤ k) (hkh : k < hi)
    (hk : hd.get side = some (addr k)) :
    check q p side (some Field.hazard) (addr t) =
      some (if k < t then q.setHandle p (hd.set side (some (addr t))) else q, addr t) := by
  have hget : (hd.set side (some (addr t))).get Field.hazard = hz.map addr := by
    cases side <;> simp_all [handle_t.set, handle_t.get]
  simp only [check, hp, hk, hc k hkh hlk, hc t hth hlt, compare_and_swap, if_true, hget,
    fifo_t.setHandle]
  by_cases hkt : k < t
  · simp only [hkt, if_true]
    cases hz with
    | none => simp [hc t hth hlt]
    | some kz =>
      obtain ⟨h1, h2⟩ := hhz kz rfl
      have h3 : ¬ kz < t := by omega
      simp [hc kz h2 (by omega), h3]
  · simp [hkt]


theorem refsIn_index {addr : Nat → Nat} {lo hi : Nat} {hd : handle_t}
    (h : RefsIn addr lo hi hd) :
    ∃ (hz : Option Nat) (k0 k1 : Nat), (∀ kz, hz = some kz → lo ≤ kz ∧ kz < hi) ∧
      hd.hazard = hz.map addr ∧ lo ≤ k0 ∧ k0 < hi ∧ hd.node0 = addr k0 ∧
      lo ≤ k1 ∧ k1 < hi ∧ hd.node1 = addr k1 := by
  obtain ⟨h1, ⟨k0, hk0, hl0, he0⟩, ⟨k1, hk1, hl1, he1⟩⟩ := h
  cases hhz : hd.hazard with
  | none =>
    refine ⟨none, k0, k1, ?_, rfl, hl0, hk0, he0.symm, hl1, hk1, he1.symm⟩
    intro kz h
    cases h
  | some a =>
    obtain ⟨kz, hkz, hlz, hez⟩ := h1 a hhz
    refine ⟨some kz, k0, k1, ?_, by simp [hez], hl0, hk0, he0.symm, hl1, hk1, he1.symm⟩
    intro kz1 h
    cases h
    exact ⟨hlz, hkz⟩

theorem scan_handle {q : fifo_t} {p : Nat} {addr : Nat → Nat} {lo hi : Nat} {B : Nat → List Nat}
    (hc : ChainB q.heap addr lo hi B) {t : Nat} (hlt : lo ≤ t) (hth : t < hi)
    {hd : handle_t} (hp : q.handles p = some hd) (hr : RefsIn addr lo hi hd) :
    ∃ q1 q2 q3 t1 hd3, check q p Field.hazard none (addr t) = some (q1, addr t1) ∧
      check q1 p Field.ENQ (some Field.hazard) (addr t1) = some (q2, addr t1) ∧
      check q2 p Field.DEQ (some Field.hazard) (addr t1) = some (q3, addr t1) ∧
      lo ≤ t1 ∧ t1 ≤ t ∧ q3.root = q.root ∧ (∀ h, h ≠ p → q3.handles h = q.handles h) ∧
      q3.handles p = some hd3 ∧ Adv q.heap addr t1 t1 hd hd3 ∧ RefsIn addr t1 hi hd3 ∧
      (t1 = t ∨ hd.hazard = some (addr t1)) := by
  obtain ⟨hz, k0, k1, hhz, hh, hl0, hk0, he0, hl1, hk1, he1⟩ := refsIn_index hr
  have hT : ∃ t1, (match hz with
        | some kz => min t kz
        | none => t) = t1 ∧ lo ≤ t1 ∧ t1 ≤ t ∧ (∀ kz, hz = some kz → t1 ≤ kz ∧ kz < hi) ∧
        (t1 = t ∨ hz = some t1) := by
    cases hz with
    | none =>
      refine ⟨t, rfl, hlt, Nat.le_refl _, ?_, Or.inl rfl⟩
      intro kz h
      cases h
    | some kz =>
      obtain ⟨h1, h2⟩ := hhz kz rfl
      refine ⟨min t kz, rfl, by omega, by omega, ?_, ?_⟩
      · intro kz1 h
        cases h
        exact ⟨by omega, h2⟩
      · by_cases hle : t ≤ kz
        · exact Or.inl (Nat.min_eq_left hle)
        · right
          rw [Nat.min_eq_right (by omega)]
  obtain ⟨t1, ht1, hlt1, ht1t, hhz1, hfl⟩ := hT
  have hth1 : t1 < hi := by omega
  have c1 := check_hazard hc hlt hth hp hz hhz hh
  rw [ht1] at c1
  have g0 : hd.get Field.ENQ = some (addr k0) := by simp [handle_t.get, he0]
  have c2 := check_node hc hlt1 hth1 hp hz hhz1 hh Field.ENQ (by simp) hl0 hk0 g0
  let hdA : handle_t := if k0 < t1 then hd.set Field.ENQ (some (addr t1)) else hd
  let qA : fifo_t := if k0 < t1 then q.setHandle p (hd.set Field.ENQ (some (addr t1))) else q
  have hAroot : qA.root = q.root := by
    simp only [qA]
    split_ifs <;> rfl
  have hAheap : qA.heap = q.heap := by
    simp only [qA]
    split_ifs <;> rfl
  have hAp : qA.handles p = some hdA := by
    simp only [qA, hdA]
    split_ifs
    · simp [fifo_t.setHandle]
    · exact hp
  have hAo : ∀ h, h ≠ p → qA.handles h = q.handles h := by
    intro h hne
    simp only [qA]
    split_ifs
    · simp [fifo_t.setHandle, Function.update_noteq hne]
    · rfl
  have hAh : hdA.hazard = hz.map addr := by
    simp only [hdA]
    split_ifs
    · simp [handle_t.set, hh]
    · exact hh
  have g1 : hdA.get Field.DEQ = some (addr k1) := by
    simp only [hdA]
    split_ifs
    · simp [handle_t.set, handle_t.get, he1]
    · simp [handle_t.get, he1]
  have hcA : ChainB qA.heap addr lo hi B := by rw [hAheap]; exact hc
  have c3 := check_node hcA hlt1 hth1 hAp hz hhz1 hAh Field.DEQ (by simp) hl1 hk1 g1
  let hdB : handle_t := if k1 < t1 then hdA.set Field.DEQ (some (addr t1)) else hdA
  let qB : fifo_t := if k1 < t1 then qA.setHandle p (hdA.set Field.DEQ (some (addr t1))) else qA
  have hBroot : qB.root = q.root := by
    rw [← hAroot]
    simp only [qB]
    split_ifs <;> rfl
  have hBp : qB.handles p = some hdB := by
    simp only [qB, hdB]
    split_ifs
    · simp [fifo_t.setHandle]
    · exact hAp
  have hBo : ∀ h, h ≠ p → qB.handles h = q.handles h := by
    intro h hne
    rw [← hAo h hne]
    simp only [qB]
    split_ifs
    · simp [fifo_t.setHandle, Function.update_noteq hne]
    · rfl
  have hB0 : hdB.hazard = hz.map addr ∧ hdB.winner = hd.winner ∧ hdB.node0 = addr (max k0 t1) ∧
      hdB.node1 = addr (max k1 t1) := by
    simp only [hdB, hdA]
    by_cases a0 : k0 < t1 <;> by_cases a1 : k1 < t1 <;>
      simp [a0, a1, handle_t.set, hh, he0, he1]
    · exact ⟨by rw [Nat.max_eq_right (by omega)], by rw [Nat.max_eq_right (by omega)]⟩
    · exact ⟨by rw [Nat.max_eq_right (by omega)], by rw [Nat.max_eq_left (by omega)]⟩
    · exact ⟨by rw [Nat.max_eq_left (by omega)], by rw [Nat.max_eq_right (by omega)]⟩
    · exact ⟨by rw [Nat.max_eq_left (by omega)], by rw [Nat.max_eq_left (by omega)]⟩
  obtain ⟨b1, bw, b2, b3⟩ := hB0
  have hmv : ∀ k x, lo ≤ k → k < hi → x = addr k →
      (addr (max k t1) = x ∨
        (∃ j, t1 ≤ j ∧ j ≤ t1 ∧ addr (max k t1) = addr j) ∧ IdLt q.heap x (addr (max k t1))) := by
    intro k x hlk hkh hx
    by_cases hkt : k < t1
    · right
      rw [Nat.max_eq_right (by omega), hx]
      exact ⟨⟨t1, Nat.le_refl _, Nat.le_refl _, rfl⟩, _, _, hc k hkh hlk, hc t1 hth1 hlt1, hkt⟩
    · left
      rw [Nat.max_eq_left (by omega), hx]
  refine ⟨q, qA, qB, t1, hdB, c1, c2, c3, hlt1, ht1t, hBroot, hBo, hBp, ?_, ?_, ?_⟩
  · refine ⟨b1.trans hh.symm, bw, ?_, ?_⟩
    · rw [b2]
      exact hmv k0 _ hl0 hk0 he0
    · rw [b3]
      exact hmv k1 _ hl1 hk1 he1
  · refine ⟨?_, ⟨max k0 t1, by omega, by omega, b2.symm⟩, ⟨max k1 t1, by omega, by omega, b3.symm⟩⟩
    intro a ha
    rw [b1] at ha
    cases hz with
    | none => simp at ha
    | some kz =>
      simp only [Option.map_some', Option.some.injEq] at ha
      obtain ⟨h1, h2⟩ := hhz1 kz rfl
      exact ⟨kz, h2, h1, ha⟩
  · rcases hfl with e | e
    · exact Or.inl e
    · right
      rw [hh, e]
      rfl

theorem root_heap {q q1 : fifo_t} (h : q1.root = q.root) : q1.heap = q.heap := by
  simp only [fifo_t.root, Prod.mk.injEq] at h
  exact h.2.2.2.2.2.2.2.2

theorem scan_spec (addr : Nat → Nat) (lo hi : Nat) (B : Nat → List Nat) :
    ∀ (l : List Nat) (q : fifo_t) (t : Nat), ChainB q.heap addr lo hi B → lo ≤ t → t < hi →
      (∀ h ∈ l, ∃ hd, q.handles h = some hd ∧ RefsIn addr lo hi hd) →
      ∃ q1 t1, scan (addr lo) l q (addr t) = some (q1, addr t1) ∧ lo ≤ t1 ∧ t1 ≤ t ∧
        q1.root = q.root ∧ (∀ h, h ∉ l → q1.handles h = q.handles h) ∧
        (∀ h, q.handles h = none → q1.handles h = none) ∧
        (∀ h hd, q.handles h = some hd →
          ∃ hd1, q1.handles h = some hd1 ∧ Adv q.heap addr t1 t hd hd1) ∧
        (t1 = lo ∨ ∀ h ∈ l, ∀ hd1, q1.handles h = some hd1 → RefsIn addr t1 hi hd1) ∧
        (t1 = t ∨ ∃ h ∈ l, ∃ hd, q.handles h = some hd ∧ hd.hazard = some (addr t1)) := by
  intro l
  induction l with
  | nil =>
    intro q t hc hlt hth hl
    refine ⟨q, t, rfl, hlt, Nat.le_refl _, rfl, fun _ _ => rfl, fun _ h => h, ?_, Or.inr ?_,
      Or.inl rfl⟩
    · intro h hd hh
      exact ⟨hd, hh, adv_refl _ _ _ _ _⟩
    · intro h hh
      cases hh
  | cons p rest ih =>
    intro q t hc hlt hth hl
    by_cases hcur : addr lo = addr t
    · have hlo : lo = t := chainB_id hc (by omega) (Nat.le_refl _) hth hlt hcur
      refine ⟨q, t, ?_, hlt, Nat.le_refl _, rfl, fun _ _ => rfl, fun _ h => h, ?_, Or.inl hlo.symm,
        Or.inl rfl⟩
      · simp [scan, hcur]
      · intro h hd hh
        exact ⟨hd, hh, adv_refl _ _ _ _ _⟩
    · obtain ⟨hd, hp, hr⟩ := hl p (List.mem_cons_self _ _)
      obtain ⟨qa, qb, q3, t1, hd3, c1, c2, c3, hlt1, ht1t, hroot3, ho3, hp3, hadv3, hr3, hfl3⟩ :=
        scan_handle hc hlt hth hp hr
      have hc3 : ChainB q3.heap addr lo hi B := by rw [root_heap hroot3]; exact hc
      have hl3 : ∀ h ∈ rest, ∃ hd, q3.handles h = some hd ∧ RefsIn addr lo hi hd := by
        intro h hh
        by_cases hhp : h = p
        · subst hhp
          exact ⟨hd3, hp3, refsIn_mono hr3 hlt1⟩
        · rw [ho3 h hhp]
          exact hl h (List.mem_cons_of_mem _ hh)
      obtain ⟨q1, t2, hrun, hlt2, ht21, hroot1, ho1, hn1, hadv1, hfin, hfl1⟩ :=
        ih q3 t1 hc3 hlt1 (by omega) hl3
      have hadvAll : ∀ h hd0, q.handles h = some hd0 →
          ∃ hd1, q1.handles h = some hd1 ∧ Adv q.heap addr t2 t hd0 hd1 := by
        intro h hd0 hh
        by_cases hhp : h = p
        · subst hhp
          rw [hp] at hh
          cases hh
          obtain ⟨hd1, e1, a1⟩ := hadv1 h hd3 hp3
          refine ⟨hd1, e1, ?_⟩
          rw [root_heap hroot3] at a1
          exact adv_trans (adv_widen hadv3 ht1t) a1 ht21 ht1t
        · have h3 : q3.handles h = some hd0 := by rw [ho3 h hhp]; exact hh
          obtain ⟨hd1, e1, a1⟩ := hadv1 h hd0 h3
          rw [root_heap hroot3] at a1
          exact ⟨hd1, e1, adv_trans (adv_refl q.heap addr t1 t hd0) a1 ht21 ht1t⟩
      refine ⟨q1, t2, ?_, hlt2, by omega, hroot1.trans hroot3, ?_, ?_, hadvAll, ?_, ?_⟩
      · simp only [scan, hcur, if_false, c1, c2, c3]
        exact hrun
      · intro h hh
        have h1 : h ≠ p := fun e => hh (e ▸ List.mem_cons_self _ _)
        have h2 : h ∉ rest := fun e => hh (List.mem_cons_of_mem _ e)
        rw [ho1 h h2, ho3 h h1]
      · intro h hh
        by_cases hhp : h = p
        · subst hhp
          rw [hp] at hh
          cases hh
        · apply hn1
          rw [ho3 h hhp]
          exact hh
      · rcases hfin with e | hfin
        · exact Or.inl e
        · right
          intro h hh hd1 e1
          by_cases hmem : h ∈ rest
          · exact hfin h hmem hd1 e1
          · have hhp : h = p := by
              rcases List.mem_cons.mp hh with e | e
              · exact e
              · exact absurd e hmem
            subst hhp
            obtain ⟨hd2, e2, a2⟩ := hadv1 h hd3 hp3
            rw [e1] at e2
            cases e2
            exact refsIn_adv (refsIn_mono hr3 ht21) a2 (Nat.le_refl _) (by omega)
      · rcases hfl1 with e | ⟨h, hh, hd1, e1, e2⟩
        · rcases hfl3 with e3 | e3
          · exact Or.inl (e.trans e3)
          · right
            refine ⟨p, List.mem_cons_self _ _, hd, hp, ?_⟩
            rw [e]
            exact e3
        · right
          by_cases hhp : h = p
          · subst hhp
            rw [hp3] at e1
            cases e1
            refine ⟨h, List.mem_cons_self _ _, hd, hp, ?_⟩
            rw [← hadv3.1]
            exact e2
          · refine ⟨h, List.mem_cons_of_mem _ hh, hd1, ?_, e2⟩
            rw [← ho3 h hhp]
            exact e1


/-! ## Reclamation -/

theorem free_loop_spec (addr : Nat → Nat) (hi : Nat) (B : Nat → List Nat) (t : Nat) :
    ∀ (fuel j : Nat) (m : Heap), ChainB m addr j hi B → j ≤ t → t < hi → t - j ≤ fuel →
      ∃ m1, free_loop fuel m (addr j) (addr t) = some m1 ∧ m1.length = m.length ∧
        (∀ k, j ≤ k → k < t → m1.read (addr k) = none) ∧
        (∀ a, (∀ k, j ≤ k → k < t → addr k ≠ a) → m1.read a = m.read a) := by
  intro fuel
  induction fuel with
  | zero =>
    intro j m hc hjt hth hfuel
    have hj : j = t := by omega
    subst hj
    refine ⟨m, by simp [free_loop], rfl, ?_, fun _ _ => rfl⟩
    intro k h1 h2
    omega
  | succ fuel ih =>
    intro j m hc hjt hth hfuel
    by_cases hcur : addr j = addr t
    · have hj : j = t := chainB_id hc (by omega) (Nat.le_refl _) hth hjt hcur
      subst hj
      refine ⟨m, by simp [free_loop], rfl, ?_, fun _ _ => rfl⟩
      intro k h1 h2
      omega
    · have hjlt : j < t := by
        rcases Nat.lt_or_ge j t with h | h
        · exact h
        · have : j = t := by omega
          exact absurd (by rw [this]) hcur
      have hrj := hc j (by omega) (Nat.le_refl _)
      have hnx : j + 1 < hi := by omega
      have hc1 : ChainB (m.free (addr j)) addr (j + 1) hi B := by
        intro k hk hlk
        rw [read_free]
        have hne : addr j ≠ addr k :=
          chainB_addr_ne hc (by omega) (Nat.le_refl _) hk (by omega) (by omega)
        simp only [hne, if_false]
        exact hc k hk (by omega)
      obtain ⟨m1, hrun, hlen, hfreed, hkept⟩ := ih (j + 1) (m.free (addr j)) hc1 (by omega) hth (by omega)
      refine ⟨m1, ?_, ?_, ?_, ?_⟩
      · simp only [free_loop, hcur, if_false, hrj, hnx, if_true]
        exact hrun
      · rw [hlen, length_free]
      · intro k h1 h2
        by_cases hkj : k = j
        · subst hkj
          rw [hkept (addr k)]
          · simp [read_free]
          · intro k1 h3 h4
            exact chainB_addr_ne hc (by omega) (by omega) (by omega) (Nat.le_refl _) (by omega)
        · exact hfreed k (by omega) h2
      · intro a ha
        rw [hkept a (fun k h1 h2 => ha k (by omega) h2), read_free]
        have : addr j ≠ a := ha j (Nat.le_refl _) hjlt
        simp [this]

theorem cleanup_pass {q : fifo_t} {addr : Nat → Nat} {lo hi : Nat} {B : Nat → List Nat}
    (hc : ChainB q.heap addr lo hi B) (hhead : q.head_node = addr lo) {c : Nat}
    (hlc : lo ≤ c) (hch : c < hi)
    (hl : ∀ h ∈ q.plist, ∃ hd, q.handles h = some hd ∧ RefsIn addr lo hi hd)
    (hidx : q.head_index ≠ SIZE_MAX) (hthr : size_sub c q.head_index > threshold q.W) :
    ∃ q1 t, cleanup q (addr c) = some q1 ∧ CleanupPost addr lo hi c q q1 t ∧
      q1.head_index = t ∧
      (t = c ∨ ∃ h ∈ q.plist, ∃ hd, q.handles h = some hd ∧ hd.hazard = some (addr t)) := by
  obtain ⟨q1, t, hscan, hlt, htc, hroot, ho, hn, hadv, hfin, hfl⟩ :=
    scan_spec addr lo hi B q.plist { q with head_index := SIZE_MAX } c hc hlc hch hl
  have hh1 : q1.heap = q.heap := by
    have h := @root_heap _ q1 hroot
    exact h
  have hc1 : ChainB q1.heap addr lo hi B := by rw [hh1]; exact hc
  have hfuel : t - lo ≤ q1.heap.length := by
    have := chain_card hc1
    omega
  obtain ⟨m, hfree, hlen, hfreed, hkept⟩ :=
    free_loop_spec addr hi B t q1.heap.length lo q1.heap hc1 hlt (by omega) hfuel
  have hrt : m.read (addr t) = some
      { next := if t + 1 < hi then some (addr (t + 1)) else none, id := t, buffer := B t } := by
    rw [hkept (addr t), hc1 t (by omega) hlt]
    intro k h1 h2
    exact chainB_addr_ne hc (by omega) h1 (by omega) hlt (by omega)
  simp only [fifo_t.root, Prod.mk.injEq] at hroot
  obtain ⟨r1, r2, r3, r4, r5, r6, r7, r8, r9⟩ := hroot
  refine ⟨{ q1 with heap := m, head_node := addr t, head_index := t }, t, ?_, ?_, rfl, hfl⟩
  · simp only [cleanup, hidx, if_false, hc c hch hlc, hthr, if_true, compare_and_swap]
    simp only [hhead] at hscan ⊢
    simp only [hscan, hfree, hrt]
  · refine ⟨hlt, htc, Or.inr ⟨rfl, hidx, hthr⟩, rfl, r1, r2, r3, r6, r7, r8, ?_, hfreed, ?_, ho, hn,
      hadv, ?_⟩
    · show m.length = q.heap.length
      rw [hlen, hh1]
    · intro a ha
      show m.read a = q.heap.read a
      rw [hkept a ha, hh1]
    · intro h hh hd1 e1
      rcases hfin with e | hfin
      · obtain ⟨hd, e0, hr⟩ := hl h hh
        obtain ⟨hd2, e2, a2⟩ := hadv h hd e0
        have e3 : q1.handles h = some hd1 := e1
        rw [e3] at e2
        cases e2
        rw [e]
        rw [e] at a2
        exact refsIn_adv hr a2 (Nat.le_refl _) hch
      · exact hfin h hh hd1 e1

theorem cleanup_spec {q : fifo_t} {addr : Nat → Nat} {lo hi : Nat} {B : Nat → List Nat}
    (hc : ChainB q.heap addr lo hi B) (hhead : q.head_node = addr lo) {c : Nat}
    (hlc : lo ≤ c) (hch : c < hi)
    (hl : ∀ h ∈ q.plist, ∃ hd, q.handles h = some hd ∧ RefsIn addr lo hi hd) :
    ∃ q1 t, cleanup q (addr c) = some q1 ∧ CleanupPost addr lo hi c q q1 t := by
  have hnoop : CleanupPost addr lo hi c q q lo := by
    refine ⟨Nat.le_refl _, hlc, Or.inl ⟨rfl, rfl⟩, hhead, rfl, rfl, rfl, rfl, rfl, rfl, rfl, ?_,
      fun _ _ => rfl, fun _ _ => rfl, fun _ h => h, ?_, ?_⟩
    · intro k h1 h2
      omega
    · intro h hd hh
      exact ⟨hd, hh, adv_refl _ _ _ _ _⟩
    · intro h hh hd1 e1
      obtain ⟨hd, e, hr⟩ := hl h hh
      rw [e1] at e
      cases e
      exact hr
  by_cases hidx : q.head_index = SIZE_MAX
  · exact ⟨q, lo, by simp [cleanup, hidx], hnoop⟩
  by_cases hthr : size_sub c q.head_index > threshold q.W
  swap
  · refine ⟨q, lo, ?_, hnoop⟩
    simp [cleanup, hidx, hc c hch hlc, hthr]
  obtain ⟨q1, t, h1, h2, _, _⟩ := cleanup_pass hc hhead hlc hch hl hidx hthr
  exact ⟨q1, t, h1, h2⟩

/-! ## Slot contents -/

theorem slots_length (S : Nat) (items : List Nat) (k : Nat) : (slots S items k).length = S := by
  simp [slots]

theorem slots_get (S : Nat) (items : List Nat) (k l : Nat) (hl : l < S) :
    (slots S items k).get? l = some (items.getD (k * S + l) EMPTY) := by
  simp [slots, List.getElem?_map, List.getElem?_range hl]

theorem slots_empty {S : Nat} {items : List Nat} {hi k : Nat} (hfit : items.length ≤ hi * S)
    (hk : hi ≤ k) : slots S items k = List.replicate S EMPTY := by
  apply List.ext_get?
  intro l
  by_cases hl : l < S
  · have h1 : hi * S ≤ k * S := Nat.mul_le_mul_right S hk
    have h2 : items.length ≤ k * S + l := by omega
    rw [slots_get S items k l hl]
    simp [List.getD_eq_getElem?_getD, List.getElem?_eq_none h2, List.getElem?_replicate, hl]
  · have h1 : (slots S items k).length ≤ l := by rw [slots_length]; omega
    have h2 : (List.replicate S EMPTY).length ≤ l := by simp; omega
    rw [List.get?_eq_none.mpr h1, List.get?_eq_none.mpr h2]

theorem ticket_unique {S : Nat} (hS : 0 < S) (i j l : Nat) (hl : l < S) :
    j * S + l = i ↔ j = i / S ∧ l = i % S := by
  constructor
  · intro h
    subst h
    constructor
    · rw [Nat.add_comm, Nat.add_mul_div_right _ _ hS, Nat.div_eq_of_lt hl, Nat.zero_add]
    · rw [Nat.add_comm, Nat.add_mul_mod_self_right, Nat.mod_eq_of_lt hl]
  · rintro ⟨h1, h2⟩
    subst h1 h2
    rw [Nat.mul_comm]
    exact Nat.div_add_mod i S

theorem slots_put {S : Nat} (hS : 0 < S) (items : List Nat) (x : Nat) (j : Nat) :
    slots S (items ++ [x]) j =
      if j = items.length / S then (slots S items j).set (items.length % S) x
      else slots S items j := by
  apply List.ext_get?
  intro l
  by_cases hl : l < S
  · rw [slots_get S _ j l hl]
    have hget : ∀ t, (items ++ [x]).getD t EMPTY = if t = items.length then x else items.getD t EMPTY := by
      intro t
      simp only [List.getD_eq_getElem?_getD]
      rcases Nat.lt_trichotomy t items.length with h | h | h
      · simp [List.getElem?_append_left h, Nat.ne_of_lt h]
      · subst h
        simp
      · have h1 : (items ++ [x]).length ≤ t := by simp; omega
        have h2 : items.length ≤ t := by omega
        simp [List.getElem?_eq_none h1, List.getElem?_eq_none h2, Nat.ne_of_gt h]
    rw [hget]
    have huniq := ticket_unique hS items.length j l hl
    by_cases hj : j = items.length / S
    · simp only [hj, if_true]
      by_cases hli : l = items.length % S
      · have : items.length / S * S + l = items.length := by
          rw [← hj]
          exact huniq.mpr ⟨hj, hli⟩
        have hlen : items.length % S < (slots S items (items.length / S)).length := by
          rw [slots_length]
          exact Nat.mod_lt _ hS
        rw [if_pos this, hli, List.get?_eq_getElem?, List.getElem?_set]
        simp [hlen]
      · have : items.length / S * S + l ≠ items.length := by
          intro h
          rw [← hj] at h
          exact hli (huniq.mp h).2
        have hne : items.length % S ≠ l := fun h => hli h.symm
        simp only [this, if_false, List.get?_eq_getElem?, List.getElem?_set, hne]
        rw [← List.get?_eq_getElem?, slots_get S items _ l hl]
    · have : j * S + l ≠ items.length := fun h => hj (huniq.mp h).1
      simp only [this, hj, if_false]
      rw [slots_get S items _ l hl]
  · have h1 : (slots S (items ++ [x]) j).length ≤ l := by rw [slots_length]; omega
    have h2 : (if j = items.length / S then (slots S items j).set (items.length % S) x
        else slots S items j).length ≤ l := by
      split_ifs
      · rw [List.length_set, slots_length]; omega
      · rw [slots_length]; omega
    rw [List.get?_eq_none.mpr h1, List.get?_eq_none.mpr h2]


/-! ## Moving a handle to the segment of its ticket -/

theorem advance_spec {q : fifo_t} {p : Nat} {addr : Nat → Nat} {lo hi : Nat} {B : Nat → List Nat}
    (hc : ChainB q.heap addr lo hi B) {k : Nat} (hlk : lo ≤ k) (hkh : k < hi) (ni : Nat)
    (hkn : k ≤ ni) (hd : handle_t) (hp : q.handles p = some hd) (side : Field)
    (hside : side ≠ Field.hazard) (hk : hd.get side = some (addr k)) :
    ∃ m1 addr1,
      advance q p side (addr k) ni =
        some ({ q with
                heap := m1
                handles := Function.update q.handles p
                  (some ({ hd with winner := hd.winner || decide (hi ≤ ni) }.set side
                    (some (addr1 ni)))) }, addr1 ni) ∧
      (∀ j, j < hi → addr1 j = addr j) ∧
      ChainB m1 addr1 lo (max hi (ni + 1))
        (fun j => if j < hi then B j else List.replicate q.S EMPTY) ∧
      (∀ a n0, q.heap.read a = some n0 →
        ∃ n, m1.read a = some n ∧ n.id = n0.id ∧ n.buffer = n0.buffer) ∧
      (∀ a n, m1.read a = some n → q.heap.read a = none →
        hi ≤ n.id ∧ n.id < max hi (ni + 1) ∧ a = addr1 n.id) := by
  have hrk := hc k hkh hlk
  by_cases hne : k = ni
  · subst hne
    refine ⟨q.heap, addr, ?_, fun _ _ => rfl, ?_, ?_, ?_⟩
    · have hdec : decide (hi ≤ k) = false := decide_eq_false (by omega)
      have hhd : ({ hd with winner := hd.winner || decide (hi ≤ k) } : handle_t).set side
          (some (addr k)) = hd := by
        rw [hdec]
        obtain ⟨hz, n0, n1, w⟩ := hd
        cases side
        · exact absurd rfl hside
        · simp only [handle_t.get, Option.some.injEq] at hk
          simp [handle_t.set, hk]
        · simp only [handle_t.get, Option.some.injEq] at hk
          simp [handle_t.set, hk]
      have hfun : Function.update q.handles p (some hd) = q.handles := by
        rw [← hp]
        exact Function.update_eq_self p q.handles
      simp only [advance, hrk, ne_eq, not_true_eq_false, if_false, hhd, hfun]
    · have hmax : max hi (k + 1) = hi := by omega
      rw [hmax]
      intro j hj hlj
      rw [hc j hj hlj]
      simp [hj]
    · intro a n0 h
      exact ⟨n0, h, rfl, rfl⟩
    · intro a n h1 h2
      rw [h1] at h2
      cases h2
  · obtain ⟨m1, addr1, hrun, hadd, hch, hold, hnew⟩ :=
      update_loop_spec q.S (ni - k) k q.heap addr lo hi B hd.winner hc hlk hkh
    have e1 : k + (ni - k) = ni := by omega
    rw [e1] at hrun hch hnew
    refine ⟨m1, addr1, ?_, hadd, hch, hold, hnew⟩
    simp only [advance, hrk, ne_eq, hne, not_false_eq_true, if_true, hp, update, hrun]


/-! ## `fifo_put` keeps the invariant -/

theorem succ_le_div_mul {S : Nat} (hS : 0 < S) (i : Nat) : i + 1 ≤ (i / S + 1) * S := by
  have h1 := Nat.div_add_mod i S
  have h2 := Nat.mod_lt i hS
  have h3 : (i / S + 1) * S = S * (i / S) + S := by
    rw [Nat.add_mul, Nat.one_mul, Nat.mul_comm]
  omega

theorem fifo_put_spec {q : fifo_t} {items : List Nat} {addr : Nat → Nat} {hi : Nat}
    (hinv : Inv q items addr hi) {h : Nat} (hh : h ∈ q.plist) (x : Nat) :
    ∃ q1 m1 addr1 k0 k1 w,
      q.handles h = some { hazard := none, node0 := addr k0, node1 := addr k1, winner := w } ∧
      k0 ≤ q.tail_ENQ / q.S ∧
      fifo_put q h x = some q1 ∧
      q1 = { q with
        tail_ENQ := q.tail_ENQ + 1
        heap := m1
        handles := Function.update q.handles h (some
          { hazard := none, node0 := addr1 (q.tail_ENQ / q.S), node1 := addr k1,
            winner := w || decide (hi ≤ q.tail_ENQ / q.S) }) } ∧
      (∀ j, j < hi → addr1 j = addr j) ∧
      Inv q1 (items ++ [x]) addr1 (max hi (q.tail_ENQ / q.S + 1)) := by
  obtain ⟨k0, k1, w, hp, hl0, hk0, hb0, hl1, hk1, hb1⟩ := hinv.handles h hh
  have hS := hinv.spos
  have hSne : q.S ≠ 0 := Nat.pos_iff_ne_zero.mp hS
  have hacq : acquire q h Field.ENQ = some (q.setHandle h
      { hazard := some (addr k0), node0 := addr k0, node1 := addr k1, winner := w }, addr k0) := by
    simp [acquire, hp, handle_t.get, handle_t.set]
  obtain ⟨m1, addr1, hadv, hadd, hch, hold, hnew⟩ :=
    advance_spec (q := { q.setHandle h
        { hazard := some (addr k0), node0 := addr k0, node1 := addr k1, winner := w } with
        tail_ENQ := q.tail_ENQ + 1 })
      (p := h) hinv.chain hl0 hk0 (q.tail_ENQ / q.S) hb0
      { hazard := some (addr k0), node0 := addr k0, node1 := addr k1, winner := w }
      (by simp [fifo_t.setHandle]) Field.ENQ (by simp) (by simp [handle_t.get])
  simp only [fifo_t.setHandle, handle_t.set, Option.getD_some, Function.update_idem] at hadv hch hold hnew
  have hni : q.tail_ENQ / q.S < max hi (q.tail_ENQ / q.S + 1) := by omega
  have hlni : q.head_index ≤ q.tail_ENQ / q.S := by omega
  have hfit : items.length ≤ hi * q.S := hinv.fits
  have hBeq : ∀ j, (if j < hi then slots q.S items j else List.replicate q.S EMPTY)
      = slots q.S items j := by
    intro j
    by_cases hj : j < hi
    · simp [hj]
    · simp [hj, slots_empty hfit (Nat.le_of_not_lt hj)]
  have hch1 : ChainB m1 addr1 q.head_index (max hi (q.tail_ENQ / q.S + 1)) (slots q.S items) := by
    intro j hj hlj
    have := hch j hj hlj
    simp only [hBeq] at this
    exact this
  have hrn := hch1 _ hni hlni
  have hlen : q.tail_ENQ % q.S < (slots q.S items (q.tail_ENQ / q.S)).length := by
    rw [slots_length]
    exact Nat.mod_lt _ hS
  refine ⟨_, (m1.write (addr1 (q.tail_ENQ / q.S))
      { next := if q.tail_ENQ / q.S + 1 < max hi (q.tail_ENQ / q.S + 1)
          then some (addr1 (q.tail_ENQ / q.S + 1)) else none,
        id := q.tail_ENQ / q.S,
        buffer := (slots q.S items (q.tail_ENQ / q.S)).set (q.tail_ENQ % q.S) x }),
    addr1, k0, k1, w, hp, hb0, ?_, rfl, hadd, ?_⟩
  · simp only [fifo_put, hacq, fetch_and_add, fifo_t.setHandle, hSne, if_false, hadv, hrn, hlen,
      if_true, release_hazard, Function.update_same, Function.update_idem, handle_t.set]
  · have henq := hinv.enq
    have haddr_ni_lt : addr1 (q.tail_ENQ / q.S) < m1.length := read_lt hrn
    refine
      { spos := hS, lock := hinv.lock, enq := ?_, deq := ?_, lt := ?_, head := ?_,
        chain := ?_, exact := ?_, fits := ?_, head_le := hinv.head_le, handles := ?_ }
    · show q.tail_ENQ + 1 = (items ++ [x]).length
      simp [henq]
    · show q.tail_DEQ ≤ q.tail_ENQ + 1
      have := hinv.deq
      omega
    · show q.head_index < max hi (q.tail_ENQ / q.S + 1)
      have := hinv.lt
      omega
    · show q.head_node = addr1 q.head_index
      rw [hadd _ hinv.lt]
      exact hinv.head
    · show ChainB (m1.write _ _) addr1 q.head_index _ (slots q.S (items ++ [x]))
      intro j hj hlj
      rw [read_write, slots_put hS, ← henq]
      by_cases hjn : j = q.tail_ENQ / q.S
      · subst hjn
        simp [haddr_ni_lt]
      · have hne : addr1 (q.tail_ENQ / q.S) ≠ addr1 j :=
          chainB_addr_ne hch1 hni hlni hj hlj (fun e => hjn e.symm)
        simp only [hne, false_and, if_false, hjn]
        exact hch1 j hj hlj
    · show ∀ a n, (m1.write _ _).read a = some n → _
      intro a n hr
      rw [read_write] at hr
      have hbase : ∀ n1, m1.read a = some n1 →
          q.head_index ≤ n1.id ∧ n1.id < max hi (q.tail_ENQ / q.S + 1) ∧ a = addr1 n1.id := by
        intro n1 hr1
        cases hq : q.heap.read a with
        | none =>
          obtain ⟨h1, h2, h3⟩ := hnew a n1 hr1 hq
          have := hinv.lt
          exact ⟨by omega, h2, h3⟩
        | some n0 =>
          obtain ⟨n2, e1, e2, _⟩ := hold a n0 hq
          rw [hr1] at e1
          cases e1
          obtain ⟨h1, h2, h3⟩ := hinv.exact a n0 hq
          rw [e2]
          refine ⟨h1, by omega, ?_⟩
          rw [hadd _ h2]
          exact h3
      by_cases hw : addr1 (q.tail_ENQ / q.S) = a ∧ addr1 (q.tail_ENQ / q.S) < m1.length
      · rw [if_pos hw] at hr
        cases hr
        exact ⟨hlni, hni, hw.1.symm⟩
      · rw [if_neg hw] at hr
        exact hbase n hr
    · show (items ++ [x]).length ≤ max hi (q.tail_ENQ / q.S + 1) * q.S
      have h1 := succ_le_div_mul hS q.tail_ENQ
      have h2 : (q.tail_ENQ / q.S + 1) * q.S ≤ max hi (q.tail_ENQ / q.S + 1) * q.S :=
        Nat.mul_le_mul_right _ (by omega)
      simp only [List.length_append, List.length_singleton]
      omega
    · intro h1 hh1
      have hmono : q.tail_ENQ / q.S ≤ (q.tail_ENQ + 1) / q.S :=
        Nat.div_le_div_right (Nat.le_succ _)
      by_cases hh : h1 = h
      · subst hh
        refine ⟨q.tail_ENQ / q.S, k1, w || decide (hi ≤ q.tail_ENQ / q.S), ?_, hlni, hni, hmono,
          hl1, by omega, hb1⟩
        show Function.update q.handles h1 _ h1 = _
        rw [Function.update_same, hadd k1 hk1]
      · obtain ⟨j0, j1, w1, e, a1, a2, a3, a4, a5, a6⟩ := hinv.handles h1 hh1
        refine ⟨j0, j1, w1, ?_, a1, by omega, ?_, a4, by omega, a6⟩
        · show Function.update q.handles h _ h1 = _
          rw [Function.update_noteq hh, e, hadd j0 a2, hadd j1 a5]
        · show j0 ≤ (q.tail_ENQ + 1) / q.S
          omega


/-! ## `fifo_get` keeps the invariant -/

theorem cleanupPost_noop {q : fifo_t} {addr : Nat → Nat} {lo c : Nat} (hi : Nat)
    (hhead : q.head_node = addr lo) (hlc : lo ≤ c)
    (hl : ∀ h ∈ q.plist, ∃ hd, q.handles h = some hd ∧ RefsIn addr lo hi hd) :
    CleanupPost addr lo hi c q q lo := by
  refine ⟨Nat.le_refl _, hlc, Or.inl ⟨rfl, rfl⟩, hhead, rfl, rfl, rfl, rfl, rfl, rfl, rfl, ?_,
    fun _ _ => rfl, fun _ _ => rfl, fun _ h => h, ?_, ?_⟩
  · intro k h1 h2
    omega
  · intro h hd hh
    exact ⟨hd, hh, adv_refl _ _ _ _ _⟩
  · intro h hh hd1 e1
    obtain ⟨hd, e, hr⟩ := hl h hh
    rw [e1] at e
    cases e
    exact hr

theorem spin_while_some (fuel : Nat) (hfuel : 0 < fuel) (v : Nat) (hv : v ≠ EMPTY) :
    spin_while fuel v = some v := by
  cases fuel with
  | zero => omega
  | succ k => simp [spin_while, hv]

theorem spin_while_empty (fuel : Nat) : spin_while fuel EMPTY = none := by
  induction fuel with
  | zero => rfl
  | succ k ih => simp [spin_while, ih]

theorem spin_while_result (fuel : Nat) (c v : Nat) (h : spin_while fuel c = some v) :
    v = c ∧ c ≠ EMPTY := by
  induction fuel with
  | zero => simp [spin_while] at h
  | succ k ih =>
    by_cases hc : c = EMPTY
    · simp only [spin_while, hc, if_true] at h
      rw [hc] at ih
      exact absurd h (by rw [spin_while_empty]; simp)
    · simp only [spin_while, hc, if_false, Option.some.injEq] at h
      exact ⟨h.symm, hc⟩

theorem fifo_get_run {q : fifo_t} {items : List Nat} {addr : Nat → Nat} {hi : Nat}
    (hinv : Inv q items addr hi) {h : Nat} (hh : h ∈ q.plist) (fuel : Nat) :
    ∃ m1 addr1 k0 k1 w,
      q.handles h = some { hazard := none, node0 := addr k0, node1 := addr k1, winner := w } ∧
      q.head_index ≤ k0 ∧ k0 < hi ∧ k0 ≤ q.tail_ENQ / q.S ∧
      q.head_index ≤ k1 ∧ k1 < hi ∧ k1 ≤ q.tail_DEQ / q.S ∧
      (∀ j, j < hi → addr1 j = addr j) ∧
      ChainB m1 addr1 q.head_index (max hi (q.tail_DEQ / q.S + 1)) (slots q.S items) ∧
      (∀ a n, m1.read a = some n →
        q.head_index ≤ n.id ∧ n.id < max hi (q.tail_DEQ / q.S + 1) ∧ a = addr1 n.id) ∧
      fifo_get fuel q h =
        match spin_while fuel (items.getD q.tail_DEQ EMPTY) with
        | none => none
        | some val =>
          match (if w || decide (hi ≤ q.tail_DEQ / q.S) then
              match cleanup { q with
                  tail_DEQ := q.tail_DEQ + 1
                  heap := m1
                  handles := Function.update q.handles h (some
                    { hazard := some (addr k1), node0 := addr k0,
                      node1 := addr1 (q.tail_DEQ / q.S), winner := true }) }
                (addr1 (q.tail_DEQ / q.S)) with
              | none => none
              | some q5 =>
                match q5.handles h with
                | none => none
                | some hd5 => some (q5.setHandle h { hd5 with winner := false })
            else some { q with
                  tail_DEQ := q.tail_DEQ + 1
                  heap := m1
                  handles := Function.update q.handles h (some
                    { hazard := some (addr k1), node0 := addr k0,
                      node1 := addr1 (q.tail_DEQ / q.S), winner := false }) }) with
          | none => none
          | some q6 =>
            match release_hazard q6 h with
            | none => none
            | some q7 => some (q7, val) := by
  obtain ⟨k0, k1, w, hp, hl0, hk0, hb0, hl1, hk1, hb1⟩ := hinv.handles h hh
  have hS := hinv.spos
  have hSne : q.S ≠ 0 := Nat.pos_iff_ne_zero.mp hS
  have hacq : acquire q h Field.DEQ = some (q.setHandle h
      { hazard := some (addr k1), node0 := addr k0, node1 := addr k1, winner := w }, addr k1) := by
    simp [acquire, hp, handle_t.get, handle_t.set]
  obtain ⟨m1, addr1, hadv, hadd, hch, hold, hnew⟩ :=
    advance_spec (q := { q.setHandle h
        { hazard := some (addr k1), node0 := addr k0, node1 := addr k1, winner := w } with
        tail_DEQ := q.tail_DEQ + 1 })
      (p := h) hinv.chain hl1 hk1 (q.tail_DEQ / q.S) hb1
      { hazard := some (addr k1), node0 := addr k0, node1 := addr k1, winner := w }
      (by simp [fifo_t.setHandle]) Field.DEQ (by simp) (by simp [handle_t.get])
  simp only [fifo_t.setHandle, handle_t.set, Option.getD_some, Function.update_idem] at hadv hch hold hnew
  have hni : q.tail_DEQ / q.S < max hi (q.tail_DEQ / q.S + 1) := by omega
  have hlni : q.head_index ≤ q.tail_DEQ / q.S := by omega
  have hfit : items.length ≤ hi * q.S := hinv.fits
  have hBeq : ∀ j, (if j < hi then slots q.S items j else List.replicate q.S EMPTY)
      = slots q.S items j := by
    intro j
    by_cases hj : j < hi
    · simp [hj]
    · simp [hj, slots_empty hfit (Nat.le_of_not_lt hj)]
  have hch1 : ChainB m1 addr1 q.head_index (max hi (q.tail_DEQ / q.S + 1)) (slots q.S items) := by
    intro j hj hlj
    have := hch j hj hlj
    simp only [hBeq] at this
    exact this
  have hrn := hch1 _ hni hlni
  have hbase : ∀ a n1, m1.read a = some n1 →
      q.head_index ≤ n1.id ∧ n1.id < max hi (q.tail_DEQ / q.S + 1) ∧ a = addr1 n1.id := by
    intro a n1 hr1
    cases hq : q.heap.read a with
    | none =>
      obtain ⟨h1, h2, h3⟩ := hnew a n1 hr1 hq
      have := hinv.lt
      exact ⟨by omega, h2, h3⟩
    | some n0 =>
      obtain ⟨n2, e1, e2, _⟩ := hold a n0 hq
      rw [hr1] at e1
      cases e1
      obtain ⟨h1, h2, h3⟩ := hinv.exact a n0 hq
      rw [e2]
      refine ⟨h1, by omega, ?_⟩
      rw [hadd _ h2]
      exact h3
  have hcell : (slots q.S items (q.tail_DEQ / q.S)).get? (q.tail_DEQ % q.S)
      = some (items.getD q.tail_DEQ EMPTY) := by
    rw [slots_get _ _ _ _ (Nat.mod_lt _ hS)]
    have : q.tail_DEQ / q.S * q.S + q.tail_DEQ % q.S = q.tail_DEQ := by
      rw [Nat.mul_comm]
      exact Nat.div_add_mod _ _
    rw [this]
  refine ⟨m1, addr1, k0, k1, w, hp, hl0, hk0, hb0, hl1, hk1, hb1, hadd, hch1, hbase, ?_⟩
  simp only [fifo_get, hacq, fetch_and_add, fifo_t.setHandle, hSne, if_false, hadv, hrn, hcell,
    Function.update_same]
  cases hsp : spin_while fuel (items.getD q.tail_DEQ EMPTY) with
  | none => rfl
  | some val =>
    simp only []
    by_cases hw : (w || decide (hi ≤ q.tail_DEQ / q.S)) = true
    · simp only [hw, if_true]
    · simp only [hw]
      simp only [Bool.not_eq_true] at hw
      simp [hw]


theorem adv_bounds {m : Heap} {addr : Nat → Nat} {lo hi : Nat} {B : Nat → List Nat}
    (hc : ChainB m addr lo hi B) {t c E D : Nat} (hlt : lo ≤ t) (hcE : c ≤ E) (hcD : c ≤ D)
    (hch : c < hi) {hd hd1 : handle_t} (j0 j1 : Nat)
    (h0 : hd.node0 = addr j0) (hl0 : lo ≤ j0) (hh0 : j0 < hi) (hb0 : j0 ≤ E)
    (h1 : hd.node1 = addr j1) (hl1 : lo ≤ j1) (hh1 : j1 < hi) (hb1 : j1 ≤ D)
    (hadv : Adv m addr t c hd hd1) (hr : RefsIn addr t hi hd1) :
    ∃ a0 a1, hd1.node0 = addr a0 ∧ t ≤ a0 ∧ a0 < hi ∧ a0 ≤ E ∧
      hd1.node1 = addr a1 ∧ t ≤ a1 ∧ a1 < hi ∧ a1 ≤ D := by
  obtain ⟨_, ⟨a0, ha0, hla0, hea0⟩, ⟨a1, ha1, hla1, hea1⟩⟩ := hr
  obtain ⟨_, _, x3, x4⟩ := hadv
  refine ⟨a0, a1, hea0.symm, hla0, ha0, ?_, hea1.symm, hla1, ha1, ?_⟩
  · rcases x3 with e | ⟨⟨k, hk1, hk2, e⟩, _⟩
    · have : a0 = j0 := chainB_id hc ha0 (by omega) hh0 hl0 (by rw [hea0, e, h0])
      omega
    · have : a0 = k := chainB_id hc ha0 (by omega) (by omega) (by omega) (by rw [hea0, e])
      omega
  · rcases x4 with e | ⟨⟨k, hk1, hk2, e⟩, _⟩
    · have : a1 = j1 := chainB_id hc ha1 (by omega) hh1 hl1 (by rw [hea1, e, h1])
      omega
    · have : a1 = k := chainB_id hc ha1 (by omega) (by omega) (by omega) (by rw [hea1, e])
      omega

theorem get_finish {q : fifo_t} {items : List Nat} {addr : Nat → Nat} {hi : Nat}
    (hinv : Inv q items addr hi) {h : Nat} (havail : q.tail_DEQ < q.tail_ENQ)
    {m1 : Heap} {addr1 : Nat → Nat} {k0 k1 : Nat} (w3 : Bool)
    (hl0 : q.head_index ≤ k0) (hk0 : k0 < hi) (hb0 : k0 ≤ q.tail_ENQ / q.S)
    (hadd : ∀ j, j < hi → addr1 j = addr j)
    (hch1 : ChainB m1 addr1 q.head_index (max hi (q.tail_DEQ / q.S + 1)) (slots q.S items))
    (hbase : ∀ a n, m1.read a = some n →
      q.head_index ≤ n.id ∧ n.id < max hi (q.tail_DEQ / q.S + 1) ∧ a = addr1 n.id)
    {q5 : fifo_t} {t : Nat}
    (hpost : CleanupPost addr1 q.head_index (max hi (q.tail_DEQ / q.S + 1)) (q.tail_DEQ / q.S)
      { q with
        tail_DEQ := q.tail_DEQ + 1
        heap := m1
        handles := Function.update q.handles h (some
          { hazard := some (addr k1), node0 := addr k0,
            node1 := addr1 (q.tail_DEQ / q.S), winner := w3 }) } q5 t)
    {hd5 : handle_t} (h5 : q5.handles h = some hd5) :
    Inv { q5 with handles := Function.update q5.handles h (some
        { hazard := none, node0 := hd5.node0, node1 := hd5.node1, winner := false }) }
      items addr1 (max hi (q.tail_DEQ / q.S + 1)) ∧ q5.head_index = t ∧
      hd5.node1 = addr1 (q.tail_DEQ / q.S) := by
  have hS := hinv.spos
  have hidx : q5.head_index = t := by
    rcases hpost.index with ⟨e1, e2⟩ | ⟨e1, _⟩
    · rw [e1, e2]
    · exact e1
  have hni : q.tail_DEQ / q.S < max hi (q.tail_DEQ / q.S + 1) := by omega
  have hmonoD : q.tail_DEQ / q.S ≤ (q.tail_DEQ + 1) / q.S := Nat.div_le_div_right (Nat.le_succ _)
  have hmonoE : q.tail_DEQ / q.S ≤ q.tail_ENQ / q.S := Nat.div_le_div_right (Nat.le_of_lt havail)
  have hlo_t := hpost.lo_le
  have ht_c := hpost.le_c
  have hnode1 : hd5.node1 = addr1 (q.tail_DEQ / q.S) := by
    obtain ⟨hd5a, e5, hadv⟩ := hpost.adv h _ (Function.update_same _ _ _)
    rw [h5] at e5
    cases e5
    rcases hadv.2.2.2 with e | ⟨⟨k, hk1, hk2, e⟩, n, n1, r1, r2, hlt⟩
    · exact e
    · exfalso
      have r3 : m1.read (addr1 (q.tail_DEQ / q.S)) = some n := r1
      rw [hch1 _ hni (by omega)] at r3
      have r4 : m1.read hd5.node1 = some n1 := r2
      rw [e, hch1 k (by omega) (by omega)] at r4
      cases r3
      cases r4
      simp only at hlt
      omega
  refine ⟨?_, hidx, hnode1⟩
  refine
    { spos := ?_, lock := ?_, enq := ?_, deq := ?_, lt := ?_, head := ?_,
      chain := ?_, exact := ?_, fits := ?_, head_le := ?_, handles := ?_ }
  · show 0 < q5.S
    rw [hpost.size]
    exact hS
  · show q5.lock = false
    rw [hpost.lock]
    exact hinv.lock
  · show q5.tail_ENQ = items.length
    rw [hpost.enq]
    exact hinv.enq
  · show q5.tail_DEQ ≤ q5.tail_ENQ
    rw [hpost.enq, hpost.deq]
    exact havail
  · show q5.head_index < _
    rw [hidx]
    omega
  · show q5.head_node = addr1 q5.head_index
    rw [hidx]
    exact hpost.head
  · show ChainB q5.heap addr1 q5.head_index _ (slots q5.S items)
    rw [hidx, hpost.size]
    intro j hj hlj
    rw [hpost.kept (addr1 j)]
    · exact hch1 j hj (by omega)
    · intro k h1 h2
      exact chainB_addr_ne hch1 (by omega) h1 hj (by omega) (by omega)
  · show ∀ a n, q5.heap.read a = some n → q5.head_index ≤ n.id ∧ _
    rw [hidx]
    intro a n hr
    by_cases hfr : ∃ k, q.head_index ≤ k ∧ k < t ∧ addr1 k = a
    · obtain ⟨k, h1, h2, h3⟩ := hfr
      rw [← h3, hpost.freed k h1 h2] at hr
      cases hr
    · have hk : ∀ k, q.head_index ≤ k → k < t → addr1 k ≠ a :=
        fun k h1 h2 h3 => hfr ⟨k, h1, h2, h3⟩
      rw [hpost.kept a hk] at hr
      obtain ⟨b1, b2, b3⟩ := hbase a n hr
      refine ⟨?_, b2, b3⟩
      by_contra hlt
      exact hk n.id b1 (by omega) b3.symm
  · show items.length ≤ _ * q5.S
    rw [hpost.size]
    show items.length ≤ _ * q.S
    have h1 := hinv.fits
    have h2 : hi * q.S ≤ max hi (q.tail_DEQ / q.S + 1) * q.S := Nat.mul_le_mul_right _ (by omega)
    omega
  · show q5.head_index ≤ q5.tail_DEQ / q5.S
    rw [hidx, hpost.deq, hpost.size]
    show t ≤ (q.tail_DEQ + 1) / q.S
    omega
  · show ∀ h1 ∈ q5.plist, _
    rw [hpost.plist]
    intro h1 hh1
    show ∃ k0 k1 w, Function.update q5.handles h _ h1 = _ ∧ q5.head_index ≤ k0 ∧ k0 < _ ∧
      k0 ≤ q5.tail_ENQ / q5.S ∧ q5.head_index ≤ k1 ∧ k1 < _ ∧ k1 ≤ q5.tail_DEQ / q5.S
    rw [hidx, hpost.enq, hpost.deq, hpost.size]
    show ∃ k0 k1 w, Function.update q5.handles h _ h1 = _ ∧ t ≤ k0 ∧ k0 < _ ∧
      k0 ≤ q.tail_ENQ / q.S ∧ t ≤ k1 ∧ k1 < _ ∧ k1 ≤ (q.tail_DEQ + 1) / q.S
    by_cases hh : h1 = h
    · subst hh
      obtain ⟨hd5a, e5, hadv⟩ := hpost.adv h1 _ (Function.update_same _ _ _)
      rw [h5] at e5
      cases e5
      have hr := hpost.refs h1 hh1 hd5 h5
      obtain ⟨a0, a1, e0, x1, x2, x3, e1, y1, y2, y3⟩ :=
        adv_bounds (E := q.tail_ENQ / q.S) (D := (q.tail_DEQ + 1) / q.S)
          hch1 hlo_t hmonoE hmonoD hni k0 (q.tail_DEQ / q.S)
          (show _ = addr1 k0 by rw [hadd k0 hk0]) hl0 (by omega) hb0
          rfl (by omega) hni hmonoD hadv hr
      refine ⟨a0, a1, false, ?_, x1, x2, x3, y1, y2, y3⟩
      rw [Function.update_same, e0, e1]
    · obtain ⟨j0, j1, w1, e, a1, a2, a3, a4, a5, a6⟩ := hinv.handles h1 hh1
      have e3 : Function.update q.handles h (some
          { hazard := some (addr k1), node0 := addr k0,
            node1 := addr1 (q.tail_DEQ / q.S), winner := w3 }) h1
          = some { hazard := none, node0 := addr j0, node1 := addr j1, winner := w1 } := by
        rw [Function.update_noteq hh, e]
      obtain ⟨hd5a, e5, hadv⟩ := hpost.adv h1 _ e3
      have hr := hpost.refs h1 hh1 hd5a e5
      obtain ⟨b0, b1, e0, x1, x2, x3, e1, y1, y2, y3⟩ :=
        adv_bounds (E := q.tail_ENQ / q.S) (D := (q.tail_DEQ + 1) / q.S)
          hch1 hlo_t hmonoE hmonoD hni j0 j1
          (show _ = addr1 j0 by rw [hadd j0 a2]) a1 (by omega) a3
          (show _ = addr1 j1 by rw [hadd j1 a5]) a4 (by omega) (by omega) hadv hr
      refine ⟨b0, b1, hd5a.winner, ?_, x1, x2, x3, y1, y2, y3⟩
      rw [Function.update_noteq hh, e5, ← e0, ← e1]
      have hz : hd5a.hazard = none := hadv.1
      obtain ⟨z1, z2, z3, z4⟩ := hd5a
      simp only at hz
      rw [hz]


theorem fifo_get_spec {q : fifo_t} {items : List Nat} {addr : Nat → Nat} {hi : Nat}
    (hinv : Inv q items addr hi) {h : Nat} (hh : h ∈ q.plist) (havail : q.tail_DEQ < q.tail_ENQ)
    (hval : items.getD q.tail_DEQ EMPTY ≠ EMPTY) (fuel : Nat) (hfuel : 0 < fuel) :
    ∃ q1 addr1, fifo_get fuel q h = some (q1, items.getD q.tail_DEQ EMPTY) ∧
      Inv q1 items addr1 (max hi (q.tail_DEQ / q.S + 1)) ∧
      q1.plist = q.plist ∧ q1.W = q.W ∧ q1.S = q.S ∧ q1.tail_ENQ = q.tail_ENQ ∧
      q1.tail_DEQ = q.tail_DEQ + 1 ∧ (∀ j, j < hi → addr1 j = addr j) ∧
      q.head_index ≤ q1.head_index ∧
      (∃ a0, q1.handles h = some
        { hazard := none, node0 := a0, node1 := addr1 (q.tail_DEQ / q.S), winner := false }) ∧
      (∀ h1, h1 ∉ q.plist → q1.handles h1 = q.handles h1) ∧
      q1.head_index ≤ q.tail_DEQ / q.S := by
  obtain ⟨m1, addr1, k0, k1, w, hp, hl0, hk0, hb0, hl1, hk1, hb1, hadd, hch1, hbase, hrun⟩ :=
    fifo_get_run hinv hh fuel
  rw [spin_while_some fuel hfuel _ hval] at hrun
  have hni : q.tail_DEQ / q.S < max hi (q.tail_DEQ / q.S + 1) := by omega
  have hlni : q.head_index ≤ q.tail_DEQ / q.S := by omega
  have hhead : q.head_node = addr1 q.head_index := by
    rw [hadd _ hinv.lt]
    exact hinv.head
  have hl : ∀ (w3 : Bool), ∀ h1 ∈ q.plist, ∃ hd,
      Function.update q.handles h (some
        { hazard := some (addr k1), node0 := addr k0,
          node1 := addr1 (q.tail_DEQ / q.S), winner := w3 }) h1 = some hd ∧
      RefsIn addr1 q.head_index (max hi (q.tail_DEQ / q.S + 1)) hd := by
    intro w3 h1 hh1
    by_cases hhh : h1 = h
    · subst hhh
      refine ⟨_, Function.update_same _ _ _, ?_, ?_, ?_⟩
      · intro a ha
        simp only [Option.some.injEq] at ha
        exact ⟨k1, by omega, hl1, by rw [hadd k1 hk1, ha]⟩
      · exact ⟨k0, by omega, hl0, hadd k0 hk0⟩
      · exact ⟨_, hni, hlni, rfl⟩
    · obtain ⟨j0, j1, w1, e, a1, a2, a3, a4, a5, a6⟩ := hinv.handles h1 hh1
      refine ⟨_, by rw [Function.update_noteq hhh, e], ?_, ?_, ?_⟩
      · intro a ha
        cases ha
      · exact ⟨j0, by omega, a1, hadd j0 a2⟩
      · exact ⟨j1, by omega, a4, hadd j1 a5⟩
  by_cases hw : (w || decide (hi ≤ q.tail_DEQ / q.S)) = true
  · rw [if_pos hw] at hrun
    obtain ⟨q5, t, hcl, hpost⟩ := cleanup_spec
      (q := { q with
        tail_DEQ := q.tail_DEQ + 1
        heap := m1
        handles := Function.update q.handles h (some
          { hazard := some (addr k1), node0 := addr k0,
            node1 := addr1 (q.tail_DEQ / q.S), winner := true }) })
      hch1 hhead hlni hni (hl true)
    obtain ⟨hd5, h5, _⟩ := hpost.adv h _ (Function.update_same _ _ _)
    obtain ⟨hfin, hidx, hn1⟩ := get_finish hinv havail true hl0 hk0 hb0 hadd hch1 hbase hpost h5
    refine ⟨_, addr1, ?_, hfin, hpost.plist, hpost.width, hpost.size, hpost.enq, hpost.deq,
      hadd, ?_, ⟨hd5.node0, ?_⟩, ?_, ?_⟩
    · rw [hrun, hcl]
      simp only [h5, release_hazard, fifo_t.setHandle, Function.update_same, Function.update_idem,
        handle_t.set]
    · show q.head_index ≤ q5.head_index
      rw [hidx]
      exact hpost.lo_le
    · show Function.update q5.handles h _ h = _
      rw [Function.update_same, hn1]
    · intro h1 hh1
      have hne : h1 ≠ h := fun e => hh1 (e ▸ hh)
      show Function.update q5.handles h _ h1 = _
      rw [Function.update_noteq hne, hpost.others h1 hh1]
      exact Function.update_noteq hne _ _
    · show q5.head_index ≤ _
      rw [hidx]
      exact hpost.le_c
  · rw [if_neg hw] at hrun
    have hpost := cleanupPost_noop
      (q := { q with
        tail_DEQ := q.tail_DEQ + 1
        heap := m1
        handles := Function.update q.handles h (some
          { hazard := some (addr k1), node0 := addr k0,
            node1 := addr1 (q.tail_DEQ / q.S), winner := false }) })
      (max hi (q.tail_DEQ / q.S + 1)) hhead hlni (hl false)
    obtain ⟨hfin, hidx, hn1⟩ := get_finish hinv havail false hl0 hk0 hb0 hadd hch1 hbase hpost
      (Function.update_same _ _ _)
    refine ⟨_, addr1, ?_, hfin, rfl, rfl, rfl, rfl, rfl, hadd, Nat.le_refl _,
      ⟨addr k0, ?_⟩, ?_, hlni⟩
    · rw [hrun]
      simp only [release_hazard, fifo_t.setHandle, Function.update_same, Function.update_idem,
        handle_t.set]
    · show Function.update _ h _ h = _
      rw [Function.update_same]
    · intro h1 hh1
      have hne : h1 ≠ h := fun e => hh1 (e ▸ hh)
      show Function.update (Function.update q.handles h _) h _ h1 = _
      rw [Function.update_noteq hne, Function.update_noteq hne]


/-! ## Initialisation and the registry -/

theorem fifo_init_inv (S W0 : Nat) (hS : 0 < S) : Inv (fifo_init S W0) [] (fun _ => 0) 1 := by
  have hread : ∀ a, (fifo_init S W0).heap.read a =
      if a = 0 then some { next := none, id := 0, buffer := List.replicate S EMPTY } else none := by
    intro a
    show (new_node [] 0 S).1.read a = _
    rw [read_new_node]
    simp [Heap.read]
  refine
    { spos := hS, lock := rfl, enq := rfl, deq := Nat.le_refl _, lt := Nat.one_pos,
      head := rfl, chain := ?_, exact := ?_, fits := Nat.zero_le _, head_le := Nat.zero_le _,
      handles := ?_ }
  · intro k hk _
    have hk0 : k = 0 := by omega
    subst hk0
    rw [hread]
    have : slots S [] 0 = List.replicate S EMPTY :=
      @slots_empty S [] 0 0 (by simp) (Nat.le_refl _)
    simp [fifo_init, this]
  · intro a n hr
    rw [hread] at hr
    by_cases ha : a = 0
    · simp only [ha, if_true, Option.some.injEq] at hr
      subst hr
      exact ⟨Nat.zero_le _, Nat.one_pos, ha⟩
    · simp [ha] at hr
  · intro h hh
    cases hh

theorem fifo_register_inv {q : fifo_t} {items : List Nat} {addr : Nat → Nat} {hi : Nat}
    (hinv : Inv q items addr hi) (h : Nat) : Inv (fifo_register q h) items addr hi := by
  refine
    { spos := hinv.spos, lock := hinv.lock, enq := hinv.enq, deq := hinv.deq, lt := hinv.lt, head := hinv.head, chain := hinv.chain,
      exact := hinv.exact, fits := hinv.fits, head_le := hinv.head_le, handles := ?_ }
  intro h1 hh1
  show ∃ k0 k1 w, Function.update q.handles h _ h1 = _ ∧ q.head_index ≤ k0 ∧ k0 < hi ∧
    k0 ≤ q.tail_ENQ / q.S ∧ q.head_index ≤ k1 ∧ k1 < hi ∧ k1 ≤ q.tail_DEQ / q.S
  by_cases hhh : h1 = h
  · subst hhh
    have h1le : q.tail_DEQ / q.S ≤ q.tail_ENQ / q.S := Nat.div_le_div_right hinv.deq
    have h2 := hinv.head_le
    refine ⟨q.head_index, q.head_index, false, ?_, Nat.le_refl _, hinv.lt, by omega,
      Nat.le_refl _, hinv.lt, h2⟩
    rw [Function.update_same, hinv.head]
  · have hmem : h1 ∈ q.plist := by
      rcases List.mem_cons.mp hh1 with e | e
      · exact absurd e hhh
      · exact e
    obtain ⟨j0, j1, w1, e, a1, a2, a3, a4, a5, a6⟩ := hinv.handles h1 hmem
    exact ⟨j0, j1, w1, by rw [Function.update_noteq hhh, e], a1, a2, a3, a4, a5, a6⟩

theorem unlink_after_spec (me : Nat) :
    ∀ (rest : List Nat) (p : Nat), p ≠ me → me ∈ rest →
      unlink_after me (p :: rest) = some (p :: rest.erase me) := by
  intro rest
  induction rest with
  | nil =>
    intro p _ hm
    cases hm
  | cons n rest ih =>
    intro p hp hm
    by_cases hn : n = me
    · subst hn
      simp [unlink_after]
    · have hm1 : me ∈ rest := by
        rcases List.mem_cons.mp hm with e | e
        · exact absurd e.symm hn
        · exact e
      simp only [unlink_after, hn, if_false, ih n hn hm1, Option.map_some']
      rw [List.erase_cons_tail]
      simpa using hn

theorem fifo_unregister_spec (q : fifo_t) (hlock : q.lock = false) (h : Nat) (hh : h ∈ q.plist) :
    fifo_unregister q h = some { q with W := size_sub q.W 1, plist := q.plist.erase h } := by
  cases hpl : q.plist with
  | nil =>
    rw [hpl] at hh
    cases hh
  | cons p rest =>
    rw [hpl] at hh
    by_cases hp : p = h
    · subst hp
      simp [fifo_unregister, hlock, hpl]
    · have hm : h ∈ rest := by
        rcases List.mem_cons.mp hh with e | e
        · exact absurd e.symm hp
        · exact e
      have herase : (p :: rest).erase h = p :: rest.erase h := by
        rw [List.erase_cons_tail]
        simpa using hp
      simp [fifo_unregister, hlock, hpl, hp, unlink_after_spec h rest p hp hm, herase]

theorem fifo_unregister_inv {q : fifo_t} {items : List Nat} {addr : Nat → Nat} {hi : Nat}
    (hinv : Inv q items addr hi) (h : Nat) :
    Inv { q with W := size_sub q.W 1, plist := q.plist.erase h } items addr hi := by
  refine
    { spos := hinv.spos, lock := hinv.lock, enq := hinv.enq, deq := hinv.deq, lt := hinv.lt, head := hinv.head, chain := hinv.chain,
      exact := hinv.exact, fits := hinv.fits, head_le := hinv.head_le, handles := ?_ }
  intro h1 hh1
  exact hinv.handles h1 (List.mem_of_mem_erase hh1)


/-! ## Operation-atomic runs -/

theorem drop_take_succ (l : List Nat) (d g : Nat) (hd : d < l.length) :
    (l.drop d).take (g + 1) = l.getD d EMPTY :: (l.drop (d + 1)).take g := by
  rw [List.drop_eq_getElem_cons hd, List.take_succ_cons, List.getD_eq_getElem _ _ hd]

theorem run_spec (fuel : Nat) (hfuel : 0 < fuel) :
    ∀ (ops : List Op) (q : fifo_t) (items : List Nat) (addr : Nat → Nat) (hi : Nat)
      (reg : List Nat) (avail : Nat),
      Inv q items addr hi → (∀ x ∈ items, x ≠ EMPTY) → q.plist = reg →
      q.tail_DEQ + avail = q.tail_ENQ → wf_run reg avail ops = true →
      ∃ q1 addr1 hi1,
        run fuel q ops = some (q1, ((items ++ puts ops).drop q.tail_DEQ).take (gets ops)) ∧
        Inv q1 (items ++ puts ops) addr1 hi1 ∧ (∀ x ∈ items ++ puts ops, x ≠ EMPTY) ∧
        q1.tail_DEQ = q.tail_DEQ + gets ops ∧ q1.S = q.S ∧
        q1.plist = regs_after reg ops ∧ q.head_index ≤ q1.head_index := by
  intro ops
  induction ops with
  | nil =>
    intro q items addr hi reg avail hinv hne hreg _ _
    refine ⟨q, addr, hi, ?_, ?_, ?_, rfl, rfl, hreg, Nat.le_refl _⟩
    · simp [run, puts, gets]
    · simpa [puts] using hinv
    · simpa [puts] using hne
  | cons op ops ih =>
    intro q items addr hi reg avail hinv hne hreg hav hwf
    cases op with
    | register h =>
      simp only [wf_run, Bool.and_eq_true, decide_eq_true_eq] at hwf
      obtain ⟨q1, addr1, hi1, hrun, hinv1, hne1, hd1, hs1, hp1, hh1⟩ :=
        ih (fifo_register q h) items addr hi (h :: reg) avail (fifo_register_inv hinv h) hne
          (by simp [fifo_register, hreg]) hav hwf.2
      have hnot : h ∉ q.plist := by rw [hreg]; exact hwf.1
      refine ⟨q1, addr1, hi1, ?_, hinv1, hne1, hd1, hs1, hp1, hh1⟩
      simp only [run, step, puts, gets, hnot, if_false]
      rw [hrun]
      rfl
    | unregister h =>
      simp only [wf_run, Bool.and_eq_true, decide_eq_true_eq] at hwf
      have hmem : h ∈ q.plist := by rw [hreg]; exact hwf.1
      have hun := fifo_unregister_spec q hinv.lock h hmem
      obtain ⟨q1, addr1, hi1, hrun, hinv1, hne1, hd1, hs1, hp1, hh1⟩ :=
        ih { q with W := size_sub q.W 1, plist := q.plist.erase h } items addr hi (reg.erase h)
          avail (fifo_unregister_inv hinv h) hne (by simp [hreg]) hav hwf.2
      refine ⟨q1, addr1, hi1, ?_, hinv1, hne1, hd1, hs1, hp1, hh1⟩
      simp only [run, step, puts, gets, hun, Option.map_some']
      rw [hrun]
      rfl
    | put h x =>
      simp only [wf_run, Bool.and_eq_true, decide_eq_true_eq] at hwf
      have hmem : h ∈ q.plist := by rw [hreg]; exact hwf.1.1
      obtain ⟨qp, m1, addrp, k0, k1, w, _, _, hput, hqp, _, hinvp⟩ :=
        fifo_put_spec hinv hmem x
      have hnep : ∀ y ∈ items ++ [x], y ≠ EMPTY := by
        intro y hy
        rcases List.mem_append.mp hy with h1 | h1
        · exact hne y h1
        · simp only [List.mem_singleton] at h1
          rw [h1]
          exact hwf.1.2
      have e1 : qp.plist = reg := by rw [hqp]; exact hreg
      have e2 : qp.tail_DEQ + (avail + 1) = qp.tail_ENQ := by
        rw [hqp]
        show q.tail_DEQ + (avail + 1) = q.tail_ENQ + 1
        omega
      have e3 : qp.tail_DEQ = q.tail_DEQ := by rw [hqp]
      have e4 : qp.S = q.S := by rw [hqp]
      have e5 : qp.head_index = q.head_index := by rw [hqp]
      obtain ⟨q1, addr1, hi1, hrun, hinv1, hne1, hd1, hs1, hp1, hh1⟩ :=
        ih qp (items ++ [x]) addrp _ reg (avail + 1) hinvp hnep e1 e2 hwf.2
      rw [e3] at hrun hd1
      rw [e5] at hh1
      have e6 : items ++ [x] ++ puts ops = items ++ puts (Op.put h x :: ops) := by
        simp [puts]
      rw [e6] at hrun hinv1 hne1
      refine ⟨q1, addr1, hi1, ?_, hinv1, hne1, hd1, hs1.trans e4, hp1, hh1⟩
      simp only [run, step, hput, Option.map_some']
      rw [hrun]
      rfl
    | get h =>
      simp only [wf_run, Bool.and_eq_true, decide_eq_true_eq] at hwf
      have hmem : h ∈ q.plist := by rw [hreg]; exact hwf.1.1
      have havail : q.tail_DEQ < q.tail_ENQ := by
        have := hwf.1.2
        omega
      have hval : items.getD q.tail_DEQ EMPTY ≠ EMPTY := by
        have hlt : q.tail_DEQ < items.length := by rw [← hinv.enq]; exact havail
        rw [List.getD_eq_getElem _ _ hlt]
        exact hne _ (List.getElem_mem _)
      obtain ⟨qg, addrg, hget, hinvg, g1, _, g3, g4, g5, _, g7, _, _, _⟩ :=
        fifo_get_spec hinv hmem havail hval fuel hfuel
      obtain ⟨q1, addr1, hi1, hrun, hinv1, hne1, hd1, hs1, hp1, hh1⟩ :=
        ih qg items addrg _ reg (avail - 1) hinvg hne (g1.trans hreg) (by rw [g4, g5]; omega)
          hwf.2
      rw [g5] at hrun hd1
      have e6 : puts (Op.get h :: ops) = puts ops := rfl
      have hlen : q.tail_DEQ < (items ++ puts ops).length := by
        have := hinv.enq
        simp only [List.length_append]
        omega
      have hgd : (items ++ puts ops).getD q.tail_DEQ EMPTY = items.getD q.tail_DEQ EMPTY := by
        have h1 : q.tail_DEQ < items.length := by
          have := hinv.enq
          omega
        rw [List.getD_eq_getElem _ _ hlen, List.getD_eq_getElem _ _ h1,
          List.getElem_append_left h1]
      refine ⟨q1, addr1, hi1, ?_, by rw [e6]; exact hinv1, by rw [e6]; exact hne1, ?_,
        hs1.trans g3, hp1, by omega⟩
      · simp only [run, step, hget, Option.map_some', hrun, e6, gets]
        rw [drop_take_succ _ _ _ hlen, hgd]
        rfl
      · rw [hd1]
        simp only [gets]
        omega


theorem follow_chain {m : Heap} {addr : Nat → Nat} {lo hi : Nat} {B : Nat → List Nat}
    (hc : ChainB m addr lo hi B) :
    ∀ (k j : Nat), lo ≤ j → j < hi →
      follow m k (addr j) = if j + k < hi then some (addr (j + k)) else none := by
  intro k
  induction k with
  | zero =>
    intro j _ hj
    simp [follow, hj]
  | succ k ih =>
    intro j hlj hj
    rw [follow, hc j hj hlj]
    by_cases hnx : j + 1 < hi
    · simp only [hnx, if_true]
      rw [ih (j + 1) (by omega) hnx]
      have e : j + 1 + k = j + (k + 1) := by omega
      rw [e]
    · have : ¬ j + (k + 1) < hi := by omega
      simp [hnx, this]

theorem slot_at_inv {q : fifo_t} {items : List Nat} {addr : Nat → Nat} {hi : Nat}
    (hinv : Inv q items addr hi) (i : Nat) (hi0 : q.head_index ≤ i / q.S) :
    slot_at q i = items.getD i EMPTY := by
  have hS := hinv.spos
  have hhead := hinv.chain q.head_index hinv.lt (Nat.le_refl _)
  have hfol := follow_chain hinv.chain (i / q.S - q.head_index) q.head_index (Nat.le_refl _) hinv.lt
  have e : q.head_index + (i / q.S - q.head_index) = i / q.S := by omega
  rw [e] at hfol
  have hdm : i / q.S * q.S + i % q.S = i := by
    rw [Nat.mul_comm]
    exact Nat.div_add_mod _ _
  simp only [slot_at, hinv.head, hhead, hfol]
  by_cases hlt : i / q.S < hi
  · simp only [hlt, if_true, hinv.chain _ hlt hi0]
    have hg := slots_get q.S items (i / q.S) (i % q.S) (Nat.mod_lt _ hS)
    rw [hdm] at hg
    rw [List.getD_eq_getElem?_getD, ← List.get?_eq_getElem?, hg]
    rfl
  · simp only [hlt, if_false]
    have h1 : hi * q.S ≤ i / q.S * q.S := Nat.mul_le_mul_right _ (by omega)
    have h2 := hinv.fits
    have h3 : items.length ≤ i := by omega
    simp [List.getD_eq_getElem?_getD, List.getElem?_eq_none h3]

/-! ## Frame properties that hold in every state -/

theorem root_ctl {q q1 : fifo_t} (h : q1.root = q.root) : q1.ctl = q.ctl := by
  simp only [fifo_t.root, Prod.mk.injEq] at h
  obtain ⟨r1, r2, r3, r4, r5, r6, r7, r8, r9⟩ := h
  simp [fifo_t.ctl, r1, r2, r3, r6, r7, r8]

theorem check_root {q q1 : fifo_t} {p : Nat} {f : Field} {ph : Option Field} {t t1 : Nat}
    (h : check q p f ph t = some (q1, t1)) : q1.root = q.root := by
  unfold check at h
  split at h
  · cases h
  · split at h
    · split at h
      · cases h
      · split at h
        · split at h
          · revert h
            simp only []
            split
            · intro h; cases h
            · split
              · intro h; cases h
              · split
                · intro h
                  cases h
                  rfl
                · intro h
                  cases h
                  rfl
          · cases h
            rfl
        · cases h
    · split at h
      · cases h
        rfl
      · split at h
        · split at h <;> (cases h; rfl)
        · cases h

theorem scan_root (curr : Nat) :
    ∀ (l : List Nat) (q q1 : fifo_t) (t t1 : Nat), scan curr l q t = some (q1, t1) →
      q1.root = q.root := by
  intro l
  induction l with
  | nil =>
    intro q q1 t t1 h
    simp only [scan, Option.some.injEq, Prod.mk.injEq] at h
    rw [← h.1]
  | cons p rest ih =>
    intro q q1 t t1 h
    unfold scan at h
    split at h
    · simp only [Option.some.injEq, Prod.mk.injEq] at h
      rw [← h.1]
    · split at h
      · cases h
      · rename_i qa ta ha
        split at h
        · cases h
        · rename_i qb tb hb
          split at h
          · cases h
          · rename_i qc tc hc
            rw [ih _ _ _ _ h, check_root hc, check_root hb, check_root ha]

theorem cleanup_ctl {q q1 : fifo_t} {head : Nat} (h : cleanup q head = some q1) :
    q1.ctl = q.ctl := by
  unfold cleanup at h
  simp only [compare_and_swap, if_true] at h
  split at h
  · cases h
    rfl
  · split at h
    · cases h
    · split at h
      · split at h
        · cases h
        · rename_i qa ta ha
          split at h
          · cases h
          · split at h
            · cases h
            · cases h
              have hr := root_ctl (scan_root _ _ _ _ _ _ ha)
              simp only [fifo_t.ctl, Prod.mk.injEq] at hr ⊢
              exact hr
      · cases h
        rfl

theorem acquire_root {q q1 : fifo_t} {p : Nat} {f : Field} {n : Nat}
    (h : acquire q p f = some (q1, n)) : q1.root = q.root := by
  unfold acquire at h
  split at h
  · cases h
  · split at h
    · cases h
    · revert h
      simp only []
      split
      · intro h; cases h
      · split
        · intro h
          cases h
          rfl
        · intro h
          cases h

theorem release_root {q q1 : fifo_t} {p : Nat} (h : release_hazard q p = some q1) :
    q1.root = q.root := by
  unfold release_hazard at h
  split at h
  · cases h
  · cases h
    rfl

theorem advance_ctl {q q1 : fifo_t} {p : Nat} {f : Field} {n ni n1 : Nat}
    (h : advance q p f n ni = some (q1, n1)) :
    q1.ctl = q.ctl ∧ q1.head_index = q.head_index ∧ q1.head_node = q.head_node := by
  unfold advance at h
  split at h
  · cases h
  · split at h
    · split at h
      · cases h
      · split at h
        · cases h
        · cases h
          exact ⟨rfl, rfl, rfl⟩
    · cases h
      exact ⟨rfl, rfl, rfl⟩

theorem fifo_put_ctl {q q1 : fifo_t} {h x : Nat} (hput : fifo_put q h x = some q1) :
    q1.ctl = (q.lock, q.S, q.W, q.tail_ENQ + 1, q.tail_DEQ, q.plist) := by
  unfold fifo_put at hput
  split at hput
  · cases hput
  · rename_i qa na ha
    have ra := root_ctl (acquire_root ha)
    simp only [fetch_and_add] at hput
    split at hput
    · cases hput
    · split at hput
      · cases hput
      · rename_i qb nb hb
        obtain ⟨rb, _, _⟩ := advance_ctl hb
        split at hput
        · cases hput
        · split at hput
          · have rc := root_ctl (release_root hput)
            simp only [fifo_t.ctl, Prod.mk.injEq] at ra rb rc ⊢
            obtain ⟨a1, a2, a3, a4, a5, a6⟩ := ra
            obtain ⟨b1, b2, b3, b4, b5, b6⟩ := rb
            obtain ⟨c1, c2, c3, c4, c5, c6⟩ := rc
            refine ⟨?_, ?_, ?_, ?_, ?_, ?_⟩
            · rw [c1, b1, a1]
            · rw [c2, b2, a2]
            · rw [c3, b3, a3]
            · rw [c4, b4, a4]
            · rw [c5, b5, a5]
            · rw [c6, b6, a6]
          · cases hput

theorem fifo_get_ctl {fuel : Nat} {q q1 : fifo_t} {h v : Nat}
    (hget : fifo_get fuel q h = some (q1, v)) :
    q1.ctl = (q.lock, q.S, q.W, q.tail_ENQ, q.tail_DEQ + 1, q.plist) := by
  unfold fifo_get at hget
  split at hget
  · cases hget
  · rename_i qa na ha
    have ra := root_ctl (acquire_root ha)
    simp only [fetch_and_add] at hget
    split at hget
    · cases hget
    · split at hget
      · cases hget
      · rename_i qb nb hb
        obtain ⟨rb, _, _⟩ := advance_ctl hb
        split at hget
        · cases hget
        · split at hget
          · cases hget
          · split at hget
            · cases hget
            · split at hget
              · cases hget
              · rename_i hd hhd
                split at hget
                · cases hget
                · rename_i q6 h6
                  split at hget
                  · cases hget
                  · rename_i q7 h7
                    have r7 := root_ctl (release_root h7)
                    have r6 : q6.ctl = qb.ctl := by
                      split at h6
                      · split at h6
                        · cases h6
                        · rename_i q5 h5
                          split at h6
                          · cases h6
                          · cases h6
                            have hr := cleanup_ctl h5
                            simp only [fifo_t.ctl, Prod.mk.injEq] at hr ⊢
                            exact hr
                      · cases h6
                        rfl
                    simp only [Option.some.injEq, Prod.mk.injEq] at hget
                    rw [← hget.1]
                    simp only [fifo_t.ctl, Prod.mk.injEq] at ra rb r6 r7 ⊢
                    obtain ⟨a1, a2, a3, a4, a5, a6⟩ := ra
                    obtain ⟨b1, b2, b3, b4, b5, b6⟩ := rb
                    obtain ⟨c1, c2, c3, c4, c5, c6⟩ := r6
                    obtain ⟨d1, d2, d3, d4, d5, d6⟩ := r7
                    refine ⟨?_, ?_, ?_, ?_, ?_, ?_⟩
                    · rw [d1, c1, b1, a1]
                    · rw [d2, c2, b2, a2]
                    · rw [d3, c3, b3, a3]
                    · rw [d4, c4, b4, a4]
                    · rw [d5, c5, b5, a5]
                    · rw [d6, c6, b6, a6]
theorem unlink_after_length (me : Nat) :
    ∀ (l l1 : List Nat), unlink_after me l = some l1 → l1.length + 1 = l.length := by
  intro l
  induction l with
  | nil =>
    intro l1 h
    simp [unlink_after] at h
  | cons p rest ih =>
    intro l1 h
    cases rest with
    | nil => simp [unlink_after] at h
    | cons n rest1 =>
      simp only [unlink_after] at h
      split at h
      · cases h
        simp
      · cases hu : unlink_after me (n :: rest1) with
        | none =>
          rw [hu] at h
          cases h
        | some l2 =>
          rw [hu] at h
          cases h
          have := ih l2 hu
          simp only [List.length_cons] at this ⊢
          omega

theorem fifo_unregister_ctl {q q1 : fifo_t} {h : Nat} (hun : fifo_unregister q h = some q1) :
    q1.S = q.S ∧ q1.W = size_sub q.W 1 ∧ q1.tail_ENQ = q.tail_ENQ ∧ q1.tail_DEQ = q.tail_DEQ ∧
      q1.plist.length + 1 = q.plist.length := by
  unfold fifo_unregister at hun
  split at hun
  · cases hun
  · simp only [] at hun
    split at hun
    · cases hun
    · rename_i p rest hpl
      split at hun
      · cases hun
        refine ⟨rfl, rfl, rfl, rfl, ?_⟩
        show rest.length + 1 = q.plist.length
        rw [hpl]
        rfl
      · split at hun
        · cases hun
        · rename_i l hl
          cases hun
          refine ⟨rfl, rfl, rfl, rfl, ?_⟩
          show l.length + 1 = q.plist.length
          rw [hpl]
          exact unlink_after_length h _ _ hl

theorem size_sub_one {w : Nat} (h0 : 0 < w) (h1 : w < 2 ^ 64) : size_sub w 1 = w - 1 := by
  simp only [size_sub]
  omega

theorem run_ctl (fuel : Nat) :
    ∀ (ops : List Op) (q q1 : fifo_t) (outs : List Nat), run fuel q ops = some (q1, outs) →
      q1.S = q.S ∧ q1.tail_ENQ = q.tail_ENQ + (puts ops).length ∧
      q1.tail_DEQ = q.tail_DEQ + gets ops ∧
      (q.W < 2 ^ 64 → unregs ops ≤ q.W → q1.W = q.W - unregs ops) ∧
      q1.plist.length + unregs ops = q.plist.length + regs ops := by
  intro ops
  induction ops with
  | nil =>
    intro q q1 outs h
    simp only [run, Option.some.injEq, Prod.mk.injEq] at h
    rw [← h.1]
    simp [puts, gets, unregs, regs]
  | cons op ops ih =>
    intro q q1 outs h
    simp only [run] at h
    split at h
    · cases h
    · rename_i qa oa hstep
      split at h
      · cases h
      · rename_i qb ob hrest
        simp only [Option.some.injEq, Prod.mk.injEq] at h
        rw [← h.1]
        obtain ⟨i1, i2, i3, i4, i5⟩ := ih _ _ _ hrest
        cases op with
        | register p =>
          simp only [step] at hstep
          split at hstep
          · cases hstep
          simp only [Option.some.injEq, Prod.mk.injEq] at hstep
          rw [← hstep.1] at i1 i2 i3 i4 i5
          refine ⟨i1, i2, i3, i4, ?_⟩
          simp only [fifo_register, List.length_cons] at i5
          simp only [unregs, regs]
          omega
        | unregister p =>
          cases hun : fifo_unregister q p with
          | none => simp [step, hun] at hstep
          | some qu =>
            simp only [step, hun, Option.map_some', Option.some.injEq, Prod.mk.injEq] at hstep
            rw [← hstep.1] at i1 i2 i3 i4 i5
            obtain ⟨u1, u2, u3, u4, u5⟩ := fifo_unregister_ctl hun
            refine ⟨i1.trans u1, by rw [i2, u3]; rfl, by rw [i3, u4]; rfl, ?_, ?_⟩
            · intro hw hle
              simp only [unregs] at hle ⊢
              have hs := size_sub_one (w := q.W) (by omega) hw
              rw [i4 (by rw [u2, hs]; omega) (by rw [u2, hs]; omega), u2, hs]
              omega
            · simp only [unregs, regs]
              omega
        | put p x =>
          cases hput : fifo_put q p x with
          | none => simp [step, hput] at hstep
          | some qp =>
            simp only [step, hput, Option.map_some', Option.some.injEq, Prod.mk.injEq] at hstep
            rw [← hstep.1] at i1 i2 i3 i4 i5
            have hc := fifo_put_ctl hput
            simp only [fifo_t.ctl, Prod.mk.injEq] at hc
            obtain ⟨_, c2, c3, c4, c5, c6⟩ := hc
            refine ⟨i1.trans c2, ?_, by rw [i3, c5]; rfl, ?_, ?_⟩
            · rw [i2, c4]
              simp only [puts, List.length_cons]
              omega
            · rw [c3] at i4
              exact i4
            · rw [c6] at i5
              exact i5
        | get p =>
          cases hget : fifo_get fuel q p with
          | none => simp [step, hget] at hstep
          | some r =>
            obtain ⟨qg, v⟩ := r
            simp only [step, hget, Option.map_some', Option.some.injEq, Prod.mk.injEq] at hstep
            rw [← hstep.1] at i1 i2 i3 i4 i5
            have hc := fifo_get_ctl hget
            simp only [fifo_t.ctl, Prod.mk.injEq] at hc
            obtain ⟨_, c2, c3, c4, c5, c6⟩ := hc
            refine ⟨i1.trans c2, by rw [i2, c4]; rfl, ?_, ?_, ?_⟩
            · rw [i3, c5]
              simp only [gets]
              omega
            · rw [c3] at i4
              exact i4
            · rw [c6] at i5
              exact i5


/-! ## Claims -/

/-- C1 (FIFO order): for every segment capacity `S > 0`, every `W0` and every
operation-atomic run from `fifo_init S W0` that respects the client discipline
(`wf_run`: calls only on registered handles, non-null items, a `get` only when
fewer gets than puts have completed), the run completes and the `k`-th value
returned by a `get` is the `k`-th item passed to a `put`, whatever handles are
used and however many segments are crossed or reclaimed. -/
theorem fifo_order (S W0 : Nat) (hS : 0 < S) (fuel : Nat) (hfuel : 0 < fuel) (ops : List Op)
    (hwf : wf_run [] 0 ops = true) :
    ∃ q outs, run fuel (fifo_init S W0) ops = some (q, outs) ∧ outs.length = gets ops ∧
      outs = (puts ops).take (gets ops) ∧
      ∀ k, k < gets ops → outs.get? k = (puts ops).get? k := by
  obtain ⟨q1, addr1, hi1, hrun, hinv1, _, hd1, _, _, _⟩ :=
    run_spec fuel hfuel ops (fifo_init S W0) [] (fun _ => 0) 1 [] 0 (fifo_init_inv S W0 hS)
      (by intro x hx; cases hx) rfl rfl hwf
  have hle : gets ops ≤ (puts ops).length := by
    have h1 := hinv1.deq
    have h2 := hinv1.enq
    rw [hd1] at h1
    simp only [List.nil_append] at h2
    have h3 : (fifo_init S W0).tail_DEQ = 0 := rfl
    omega
  have e : (([] ++ puts ops).drop (fifo_init S W0).tail_DEQ).take (gets ops)
      = (puts ops).take (gets ops) := rfl
  rw [e] at hrun
  refine ⟨q1, _, hrun, ?_, rfl, ?_⟩
  · simp [hle]
  · intro k hk
    simp [List.getElem?_take, hk]

/-- Witness for C1: `S = 2`, five items put and then got by one handle come
back in order, across the segments 0, 1 and 2. -/
theorem fifo_order_witness :
    (∃ q outs, run 1 (fifo_init 2 1)
        [Op.register 7, Op.put 7 11, Op.put 7 12, Op.put 7 13, Op.put 7 14, Op.put 7 15,
          Op.get 7, Op.get 7, Op.get 7, Op.get 7, Op.get 7] = some (q, outs) ∧
        outs.length = 5 ∧ outs = [11, 12, 13, 14, 15] ∧
        ∀ k, k < 5 → outs.get? k = [11, 12, 13, 14, 15].get? k) :=
  fifo_order 2 1 (by decide) 1 (by decide)
    [Op.register 7, Op.put 7 11, Op.put 7 12, Op.put 7 13, Op.put 7 14, Op.put 7 15,
      Op.get 7, Op.get 7, Op.get 7, Op.get 7, Op.get 7] (by decide)

/-- C2 (round trip): in every state reached by a well-formed operation-atomic
run in which exactly one handle `h` is registered and every item put so far
has been consumed (`ENQ_TICKET = DEQ_TICKET`), `fifo_put h x` followed by
`fifo_get h` returns `x`, for every non-null `x`. -/
theorem put_get_round_trip (S W0 : Nat) (hS : 0 < S) (fuel : Nat) (hfuel : 0 < fuel)
    (ops : List Op) (hwf : wf_run [] 0 ops = true) :
    ∃ q outs, run fuel (fifo_init S W0) ops = some (q, outs) ∧
      ∀ h x, q.plist = [h] → q.tail_ENQ = q.tail_DEQ → x ≠ EMPTY →
        ∃ q1 q2, fifo_put q h x = some q1 ∧ fifo_get fuel q1 h = some (q2, x) := by
  obtain ⟨q, addr1, hi1, hrun, hinv, hne, _, _, _, _⟩ :=
    run_spec fuel hfuel ops (fifo_init S W0) [] (fun _ => 0) 1 [] 0 (fifo_init_inv S W0 hS)
      (by intro x hx; cases hx) rfl rfl hwf
  refine ⟨q, _, hrun, ?_⟩
  intro h x hpl hquiet hx
  have hmem : h ∈ q.plist := by rw [hpl]; exact List.mem_singleton_self h
  obtain ⟨qp, m1, addrp, k0, k1, w, _, _, hput, hqp, _, hinvp⟩ := fifo_put_spec hinv hmem x
  have e1 : qp.tail_DEQ = q.tail_DEQ := by rw [hqp]
  have e2 : qp.tail_ENQ = q.tail_ENQ + 1 := by rw [hqp]
  have e3 : qp.plist = q.plist := by rw [hqp]
  have hlen : q.tail_DEQ = ([] ++ puts ops).length := by rw [← hquiet]; exact hinv.enq
  have hval : (([] ++ puts ops) ++ [x]).getD qp.tail_DEQ EMPTY = x := by
    rw [e1, hlen]
    simp [List.getD_eq_getElem?_getD]
  obtain ⟨qg, addrg, hget, _⟩ :=
    fifo_get_spec hinvp (by rw [e3]; exact hmem) (by rw [e1, e2]; omega)
      (by rw [hval]; exact hx) fuel hfuel
  rw [hval] at hget
  exact ⟨qp, qg, hput, hget⟩

/-- Witness for C2: after two completed round trips on a queue with `S = 2`,
a third `put 9` followed by `get` on the only handle returns `9`. -/
theorem put_get_round_trip_witness :
    ∃ q outs, run 1 (fifo_init 2 1)
        [Op.register 7, Op.put 7 11, Op.get 7, Op.put 7 12, Op.get 7] = some (q, outs) ∧
      ∀ h x, q.plist = [h] → q.tail_ENQ = q.tail_DEQ → x ≠ EMPTY →
        ∃ q1 q2, fifo_put q h x = some q1 ∧ fifo_get 1 q1 h = some (q2, x) :=
  put_get_round_trip 2 1 (by decide) 1 (by decide)
    [Op.register 7, Op.put 7 11, Op.get 7, Op.put 7 12, Op.get 7] (by decide)

/-- C3 (`get` waits for its slot): in every state reached by a well-formed
operation-atomic run (non-null items), for every registered handle, a call of
`fifo_get` returns (for some bound on the spin loop) if and only if the slot
addressed by the current `DEQ_TICKET` is not `EMPTY`, which holds exactly when
more puts than gets have completed; a value it returns is never null, and
while the slot is `EMPTY` the call does not return whatever the bound. -/
theorem get_waits_for_slot (S W0 : Nat) (hS : 0 < S) (fuel0 : Nat) (hfuel : 0 < fuel0)
    (ops : List Op) (hwf : wf_run [] 0 ops = true) :
    ∃ q outs, run fuel0 (fifo_init S W0) ops = some (q, outs) ∧
      q.tail_ENQ = (puts ops).length ∧ q.tail_DEQ = gets ops ∧
      ∀ h ∈ q.plist,
        ((∃ fuel q1 v, fifo_get fuel q h = some (q1, v)) ↔ slot_at q q.tail_DEQ ≠ EMPTY) ∧
        (slot_at q q.tail_DEQ ≠ EMPTY ↔ gets ops < (puts ops).length) ∧
        (∀ fuel q1 v, fifo_get fuel q h = some (q1, v) → v ≠ EMPTY) ∧
        (slot_at q q.tail_DEQ = EMPTY → ∀ fuel, fifo_get fuel q h = none) := by
  obtain ⟨q, addr1, hi1, hrun, hinv, hne, hd, _, _, _⟩ :=
    run_spec fuel0 hfuel ops (fifo_init S W0) [] (fun _ => 0) 1 [] 0 (fifo_init_inv S W0 hS)
      (by intro x hx; cases hx) rfl rfl hwf
  simp only [List.nil_append] at hinv hne
  have henq : q.tail_ENQ = (puts ops).length := hinv.enq
  have hdeq : q.tail_DEQ = gets ops := by
    rw [hd]
    show 0 + gets ops = gets ops
    omega
  have hslot : slot_at q q.tail_DEQ = (puts ops).getD q.tail_DEQ EMPTY :=
    slot_at_inv hinv _ hinv.head_le
  have hiff : slot_at q q.tail_DEQ ≠ EMPTY ↔ gets ops < (puts ops).length := by
    rw [hslot, ← hdeq]
    constructor
    · intro h
      by_contra hge
      exact h (by simp [List.getD_eq_getElem?_getD, List.getElem?_eq_none (Nat.le_of_not_lt hge), EMPTY])
    · intro hlt
      rw [List.getD_eq_getElem _ _ hlt]
      exact hne _ (List.getElem_mem _)
  have hnone : ∀ h ∈ q.plist, slot_at q q.tail_DEQ = EMPTY → ∀ fuel, fifo_get fuel q h = none := by
    intro h hh hempty fuel
    obtain ⟨m1, addrg, k0, k1, w, _, _, _, _, _, _, _, _, _, _, hg⟩ := fifo_get_run hinv hh fuel
    rw [hg, ← hslot, hempty, spin_while_empty]
  refine ⟨q, _, hrun, henq, hdeq, ?_⟩
  intro h hh
  refine ⟨⟨?_, ?_⟩, hiff, ?_, hnone h hh⟩
  · rintro ⟨fuel, q1, v, hget⟩ hempty
    rw [hnone h hh hempty fuel] at hget
    cases hget
  · intro hfull
    have hlt : q.tail_DEQ < q.tail_ENQ := by
      rw [henq, hdeq]
      exact hiff.mp hfull
    obtain ⟨q1, _, hget, _⟩ := fifo_get_spec hinv hh hlt (by rw [← hslot]; exact hfull) 1 Nat.one_pos
    exact ⟨1, q1, _, hget⟩
  · intro fuel q1 v hget
    obtain ⟨m1, addrg, k0, k1, w, _, _, _, _, _, _, _, _, _, _, hg⟩ := fifo_get_run hinv hh fuel
    rw [hg] at hget
    cases hsp : spin_while fuel ((puts ops).getD q.tail_DEQ EMPTY) with
    | none =>
      rw [hsp] at hget
      cases hget
    | some val =>
      rw [hsp] at hget
      obtain ⟨e1, e2⟩ := spin_while_result _ _ _ hsp
      simp only at hget
      split at hget
      · cases hget
      · split at hget
        · cases hget
        · simp only [Option.some.injEq, Prod.mk.injEq] at hget
          rw [← hget.2, e1]
          exact e2

/-- Witness for C3: after `put 11` on a queue with `S = 2` one item is
available. -/
theorem get_waits_for_slot_witness :
    ∃ q outs, run 1 (fifo_init 2 1) [Op.register 7, Op.put 7 11] = some (q, outs) ∧
      q.tail_ENQ = (puts [Op.register 7, Op.put 7 11]).length ∧
      q.tail_DEQ = gets [Op.register 7, Op.put 7 11] ∧
      ∀ h ∈ q.plist,
        ((∃ fuel q1 v, fifo_get fuel q h = some (q1, v)) ↔ slot_at q q.tail_DEQ ≠ EMPTY) ∧
        (slot_at q q.tail_DEQ ≠ EMPTY ↔
          gets [Op.register 7, Op.put 7 11] < (puts [Op.register 7, Op.put 7 11]).length) ∧
        (∀ fuel q1 v, fifo_get fuel q h = some (q1, v) → v ≠ EMPTY) ∧
        (slot_at q q.tail_DEQ = EMPTY → ∀ fuel, fifo_get fuel q h = none) :=
  get_waits_for_slot 2 1 (by decide) 1 (by decide) [Op.register 7, Op.put 7 11] (by decide)


theorem chain_of_chainB {m : Heap} {addr : Nat → Nat} {lo hi : Nat} {B : Nat → List Nat}
    (hc : ChainB m addr lo hi B) : Chain m addr lo hi := by
  intro k hk hlk
  rw [hc k hk hlk]
  simp [bufAt, hc k hk hlk]

/-- C4 (hazard correctness of reclamation): in a state whose segment list is
well formed (`Chain`), whose `head.node` is its first segment and in which the
candidate and every pointer of every registered handle (an arbitrary published
hazard included) refer to segments of that list, `cleanup` returns, no segment
it frees is referenced afterwards by the hazard, `node[ENQ]` or `node[DEQ]` of
a registered handle, and every freed segment has an id below that of the new
`head.node`.  Consequently, in every state reached by a well-formed
operation-atomic run each registered handle has no hazard published and its
two cached nodes are live. -/
theorem hazard_correct (q : fifo_t) (addr : Nat → Nat) (lo hi c : Nat)
    (hc : Chain q.heap addr lo hi) (hhead : q.head_node = addr lo) (hlc : lo ≤ c) (hch : c < hi)
    (hl : ∀ h ∈ q.plist, ∃ hd, q.handles h = some hd ∧ RefsIn addr lo hi hd)
    (S W0 fuel : Nat) (ops : List Op) (hS : 0 < S) (hfuel : 0 < fuel)
    (hwf : wf_run [] 0 ops = true) :
    (∃ q1, cleanup q (addr c) = some q1 ∧
      ∀ a n, q.heap.read a = some n → q1.heap.read a = none →
        (∀ h ∈ q1.plist, ∀ hd, q1.handles h = some hd →
          hd.hazard ≠ some a ∧ hd.node0 ≠ a ∧ hd.node1 ≠ a) ∧
        ∃ nh, q1.heap.read q1.head_node = some nh ∧ n.id < nh.id) ∧
    (∃ r outs, run fuel (fifo_init S W0) ops = some (r, outs) ∧
      ∀ h ∈ r.plist, ∃ hd n0 n1, r.handles h = some hd ∧ hd.hazard = none ∧
        r.heap.read hd.node0 = some n0 ∧ r.heap.read hd.node1 = some n1) := by
  constructor
  · obtain ⟨q1, t, hcl, hpost⟩ := cleanup_spec hc hhead hlc hch hl
    refine ⟨q1, hcl, ?_⟩
    intro a n hra hfree
    have hk : ∃ k, lo ≤ k ∧ k < t ∧ addr k = a := by
      by_contra hno
      have hkept := hpost.kept a (fun k h1 h2 h3 => hno ⟨k, h1, h2, h3⟩)
      rw [hfree, hra] at hkept
      cases hkept
    obtain ⟨k, hk1, hk2, hk3⟩ := hk
    have htc := hpost.le_c
    have hnid : n.id = k := by
      rw [← hk3, hc k (by omega) hk1] at hra
      cases hra
      rfl
    constructor
    · intro h hh hd hhd
      rw [hpost.plist] at hh
      obtain ⟨r1, ⟨j0, a0, b0, e0⟩, ⟨j1, a1, b1, e1⟩⟩ := hpost.refs h hh hd hhd
      refine ⟨?_, ?_, ?_⟩
      · intro hz
        obtain ⟨j, a2, b2, e2⟩ := r1 a hz
        exact chainB_addr_ne hc a2 (by omega) (by omega) hk1 (by omega) (e2.trans hk3.symm)
      · intro hz
        exact chainB_addr_ne hc a0 (by omega) (by omega) hk1 (by omega) (e0.trans (hz.trans hk3.symm))
      · intro hz
        exact chainB_addr_ne hc a1 (by omega) (by omega) hk1 (by omega) (e1.trans (hz.trans hk3.symm))
    · have hrt : q1.heap.read q1.head_node = some
          { next := if t + 1 < hi then some (addr (t + 1)) else none, id := t,
            buffer := bufAt q.heap addr t } := by
        rw [hpost.head, hpost.kept (addr t), hc t (by omega) hpost.lo_le]
        intro j h1 h2
        exact chainB_addr_ne hc (by omega) h1 (by omega) hpost.lo_le (by omega)
      refine ⟨_, hrt, ?_⟩
      show n.id < t
      omega
  · obtain ⟨r, addr1, hi1, hrun, hinv, _, _, _, _, _⟩ :=
      run_spec fuel hfuel ops (fifo_init S W0) [] (fun _ => 0) 1 [] 0 (fifo_init_inv S W0 hS)
        (by intro x hx; cases hx) rfl rfl hwf
    refine ⟨r, _, hrun, ?_⟩
    intro h hh
    obtain ⟨k0, k1, w, e, a1, a2, _, a4, a5, _⟩ := hinv.handles h hh
    exact ⟨_, _, _, e, rfl, hinv.chain k0 a2 a1, hinv.chain k1 a5 a4⟩

/-- Witness for C4: on `scan_state` with candidate segment `5` the scan stops at
the hazard of handle `1` (segment `3`), so segments `0, 1, 2` are freed. -/
theorem hazard_correct_witness :
    (∃ q1, cleanup scan_state 5 = some q1 ∧
      ∀ a n, scan_state.heap.read a = some n → q1.heap.read a = none →
        (∀ h ∈ q1.plist, ∀ hd, q1.handles h = some hd →
          hd.hazard ≠ some a ∧ hd.node0 ≠ a ∧ hd.node1 ≠ a) ∧
        ∃ nh, q1.heap.read q1.head_node = some nh ∧ n.id < nh.id) ∧
    (∃ r outs, run 1 (fifo_init 2 1) [Op.register 7, Op.put 7 11, Op.get 7] = some (r, outs) ∧
      ∀ h ∈ r.plist, ∃ hd n0 n1, r.handles h = some hd ∧ hd.hazard = none ∧
        r.heap.read hd.node0 = some n0 ∧ r.heap.read hd.node1 = some n1) :=
  hazard_correct scan_state (fun k => k) 0 6 5
    (by unfold Chain ChainB; decide) rfl (by decide) (by decide)
    (by
      intro h hh
      simp only [scan_state, List.mem_cons, List.mem_singleton, List.not_mem_nil, or_false] at hh
      rcases hh with e | e
      · subst e
        refine ⟨_, rfl, ?_, ⟨4, by decide, by decide, rfl⟩, ⟨5, by decide, by decide, rfl⟩⟩
        intro a ha
        cases ha
        exact ⟨3, by decide, by decide, rfl⟩
      · subst e
        refine ⟨_, rfl, ?_, ⟨2, by decide, by decide, rfl⟩, ⟨5, by decide, by decide, rfl⟩⟩
        intro a ha
        cases ha)
    2 1 1 [Op.register 7, Op.put 7 11, Op.get 7] (by decide) (by decide) (by decide)


/-- C5 (`update` contract): on a well-formed segment list, for a node with id
`k` of the list and a target id `to_ ≥ k`, `update` returns the segment with id
exactly `to_`, which is the one reached from the node by following `next`
`to_ - k` times in the resulting memory; every segment that existed keeps its
id and cells, every segment that did not exist before is all-`EMPTY`, is
linked from a predecessor whose id is one less, the list is still well formed,
and the winner flag is raised exactly when a segment was installed. -/
theorem update_contract (m : Heap) (addr : Nat → Nat) (lo hi k to_ S : Nat) (w : Bool)
    (hc : Chain m addr lo hi) (hlk : lo ≤ k) (hkh : k < hi) (hkt : k ≤ to_) :
    ∃ m1 node1 w1 addr1, update m (addr k) to_ S w = some (m1, node1, w1) ∧
      (∃ n1, m1.read node1 = some n1 ∧ n1.id = to_) ∧
      follow m1 (to_ - k) (addr k) = some node1 ∧
      (∀ a n0, m.read a = some n0 →
        ∃ n, m1.read a = some n ∧ n.id = n0.id ∧ n.buffer = n0.buffer) ∧
      (∀ a n, m1.read a = some n → m.read a = none →
        n.buffer = List.replicate S EMPTY ∧
        ∃ p pn, m1.read p = some pn ∧ pn.next = some a ∧ n.id = pn.id + 1) ∧
      Chain m1 addr1 lo (max hi (to_ + 1)) ∧ (∀ j, j < hi → addr1 j = addr j) ∧
      w1 = (w || decide (hi ≤ to_)) := by
  obtain ⟨m1, addr1, hrun, hadd, hch, hold, hnew⟩ :=
    update_loop_spec S (to_ - k) k m addr lo hi (bufAt m addr) w hc hlk hkh
  have e1 : k + (to_ - k) = to_ := by omega
  rw [e1] at hrun hch hnew
  have hto : to_ < max hi (to_ + 1) := by omega
  refine ⟨m1, addr1 to_, _, addr1, ?_, ⟨_, hch to_ hto (by omega), rfl⟩, ?_, hold, ?_,
    chain_of_chainB hch, hadd, rfl⟩
  · simp only [update, hc k hkh hlk, hrun]
  · have hf := follow_chain hch (to_ - k) k hlk (by omega)
    rw [e1, if_pos hto, hadd k hkh] at hf
    exact hf
  · intro a n hr hnone
    obtain ⟨h1, h2, h3⟩ := hnew a n hr hnone
    have hrn := hch n.id h2 (by omega)
    rw [← h3, hr] at hrn
    have hnb : n.buffer = List.replicate S EMPTY := by
      have := congrArg node_t.buffer (Option.some.inj hrn)
      simp only at this
      rw [this]
      have : ¬ n.id < hi := by omega
      simp [this]
    refine ⟨hnb, addr1 (n.id - 1), _, hch (n.id - 1) (by omega) (by omega), ?_, ?_⟩
    · have e2 : n.id - 1 + 1 = n.id := by omega
      simp only [e2, h2, if_true, h3]
    · show n.id = n.id - 1 + 1
      omega

/-- Witness for C5: from segment `0` of `two_segments` to target id `3`, two
fresh segments are installed. -/
theorem update_contract_witness :
    ∃ m1 node1 w1 addr1, update two_segments 0 3 2 false = some (m1, node1, w1) ∧
      (∃ n1, m1.read node1 = some n1 ∧ n1.id = 3) ∧
      follow m1 (3 - 0) 0 = some node1 ∧
      (∀ a n0, two_segments.read a = some n0 →
        ∃ n, m1.read a = some n ∧ n.id = n0.id ∧ n.buffer = n0.buffer) ∧
      (∀ a n, m1.read a = some n → two_segments.read a = none →
        n.buffer = List.replicate 2 EMPTY ∧
        ∃ p pn, m1.read p = some pn ∧ pn.next = some a ∧ n.id = pn.id + 1) ∧
      Chain m1 addr1 0 (max 2 (3 + 1)) ∧ (∀ j, j < 2 → addr1 j = (fun k => k) j) ∧
      w1 = (false || decide (2 ≤ 3)) :=
  update_contract two_segments (fun k => k) 0 2 0 3 2 false
    (by unfold Chain ChainB; decide) (by decide) (by decide) (by decide)

/-- C6 (ticket monotonicity without gaps): in every state, a completed
`fifo_put` increases `ENQ_TICKET` by exactly one and leaves `DEQ_TICKET`
unchanged, a completed `fifo_get` does the same for `DEQ_TICKET`, and
`fifo_register`, `fifo_unregister` and `cleanup` change neither counter; hence
after every prefix of an operation-atomic run from `fifo_init` the counters equal
the numbers of puts and gets of that prefix, so the `k`-th put draws ticket `k`
and the `k`-th get draws ticket `k`. -/
theorem ticket_monotone (fuel S W0 : Nat) (ops : List Op) (q : fifo_t) (outs : List Nat)
    (hrun : run fuel (fifo_init S W0) ops = some (q, outs)) :
    (∀ (s s1 : fifo_t) (h x : Nat), fifo_put s h x = some s1 →
      s1.tail_ENQ = s.tail_ENQ + 1 ∧ s1.tail_DEQ = s.tail_DEQ) ∧
    (∀ (f : Nat) (s s1 : fifo_t) (h v : Nat), fifo_get f s h = some (s1, v) →
      s1.tail_DEQ = s.tail_DEQ + 1 ∧ s1.tail_ENQ = s.tail_ENQ) ∧
    (∀ (s : fifo_t) (h : Nat), (fifo_register s h).tail_ENQ = s.tail_ENQ ∧
      (fifo_register s h).tail_DEQ = s.tail_DEQ) ∧
    (∀ (s s1 : fifo_t) (h : Nat), fifo_unregister s h = some s1 →
      s1.tail_ENQ = s.tail_ENQ ∧ s1.tail_DEQ = s.tail_DEQ) ∧
    (∀ (s s1 : fifo_t) (c : Nat), cleanup s c = some s1 →
      s1.tail_ENQ = s.tail_ENQ ∧ s1.tail_DEQ = s.tail_DEQ) ∧
    q.tail_ENQ = (puts ops).length ∧ q.tail_DEQ = gets ops ∧
    (∀ pre post, ops = pre ++ post →
      ∃ s o, run fuel (fifo_init S W0) pre = some (s, o) ∧
        s.tail_ENQ = (puts pre).length ∧ s.tail_DEQ = gets pre) := by
  have hfin : ∀ (l : List Op) (s : fifo_t) (o : List Nat),
      run fuel (fifo_init S W0) l = some (s, o) →
      s.tail_ENQ = (puts l).length ∧ s.tail_DEQ = gets l := by
    intro l s o hr
    obtain ⟨_, h2, h3, _, _⟩ := run_ctl fuel l _ _ _ hr
    constructor
    · rw [h2]
      show 0 + _ = _
      omega
    · rw [h3]
      show 0 + _ = _
      omega
  have hpre : ∀ (pre post : List Op) (s0 s : fifo_t) (o : List Nat),
      run fuel s0 (pre ++ post) = some (s, o) → ∃ s1 o1, run fuel s0 pre = some (s1, o1) := by
    intro pre
    induction pre with
    | nil =>
      intro post s0 s o _
      exact ⟨s0, [], rfl⟩
    | cons op pre ih =>
      intro post s0 s o hr
      simp only [List.cons_append, run] at hr ⊢
      split at hr
      · cases hr
      · rename_i qa oa hstep
        split at hr
        · cases hr
        · rename_i qb ob hrest
          obtain ⟨s1, o1, h1⟩ := ih post qa qb ob hrest
          simp only [h1]
          exact ⟨_, _, rfl⟩
  refine ⟨?_, ?_, ?_, ?_, ?_, (hfin ops q outs hrun).1, (hfin ops q outs hrun).2, ?_⟩
  · intro s s1 h x hput
    have hc := fifo_put_ctl hput
    simp only [fifo_t.ctl, Prod.mk.injEq] at hc
    exact ⟨hc.2.2.2.1, hc.2.2.2.2.1⟩
  · intro f s s1 h v hget
    have hc := fifo_get_ctl hget
    simp only [fifo_t.ctl, Prod.mk.injEq] at hc
    exact ⟨hc.2.2.2.2.1, hc.2.2.2.1⟩
  · intro s h
    exact ⟨rfl, rfl⟩
  · intro s s1 h hun
    obtain ⟨_, _, h3, h4, _⟩ := fifo_unregister_ctl hun
    exact ⟨h3, h4⟩
  · intro s s1 c hcl
    have hc := cleanup_ctl hcl
    simp only [fifo_t.ctl, Prod.mk.injEq] at hc
    exact ⟨hc.2.2.2.1, hc.2.2.2.2.1⟩
  · intro pre post hsplit
    rw [hsplit] at hrun
    obtain ⟨s1, o1, h1⟩ := hpre pre post _ _ _ hrun
    exact ⟨s1, o1, h1, (hfin pre s1 o1 h1).1, (hfin pre s1 o1 h1).2⟩


/-- Witness for C6: after `demo_ops` (three puts, one get) the counters are `3`
and `1`. -/
theorem ticket_monotone_witness :
    run 1 (fifo_init 2 2) demo_ops =
        some ((run_result (run 1 (fifo_init 2 2) demo_ops)).1,
          (run_result (run 1 (fifo_init 2 2) demo_ops)).2) ∧
      (run_result (run 1 (fifo_init 2 2) demo_ops)).1.tail_ENQ = 3 ∧
      (run_result (run 1 (fifo_init 2 2) demo_ops)).1.tail_DEQ = 1 :=
  ⟨rfl,
    (ticket_monotone 1 2 2 demo_ops (run_result (run 1 (fifo_init 2 2) demo_ops)).1
      (run_result (run 1 (fifo_init 2 2) demo_ops)).2 rfl).2.2.2.2.2.1,
    (ticket_monotone 1 2 2 demo_ops (run_result (run 1 (fifo_init 2 2) demo_ops)).1
      (run_result (run 1 (fifo_init 2 2) demo_ops)).2 rfl).2.2.2.2.2.2.1⟩

/-- C7 (slot addressing): in every state reached by a well-formed
operation-atomic run and for every registered handle, the cached nodes have ids
at most `ENQ_TICKET / S` and `DEQ_TICKET / S`; a `fifo_put` (drawing ticket
`i = ENQ_TICKET`) leaves the handle on the segment with id exactly `i / S` and
its item in cell `i % S` of that segment; a `fifo_get` issued when an item is
available (drawing ticket `i = DEQ_TICKET`) returns the content of cell
`i % S` of the segment with id exactly `i / S`, which is the segment its
handle is left on. -/
theorem slot_addressing (S W0 : Nat) (hS : 0 < S) (fuel : Nat) (hfuel : 0 < fuel)
    (ops : List Op) (hwf : wf_run [] 0 ops = true) :
    ∃ q outs, run fuel (fifo_init S W0) ops = some (q, outs) ∧
      ∀ h ∈ q.plist,
        (∃ hd n0 n1, q.handles h = some hd ∧
          q.heap.read hd.node0 = some n0 ∧ n0.id ≤ q.tail_ENQ / q.S ∧
          q.heap.read hd.node1 = some n1 ∧ n1.id ≤ q.tail_DEQ / q.S) ∧
        (∀ x, ∃ q1 hd n, fifo_put q h x = some q1 ∧ q1.handles h = some hd ∧
          q1.heap.read hd.node0 = some n ∧ n.id = q.tail_ENQ / q.S ∧
          n.buffer.get? (q.tail_ENQ % q.S) = some x) ∧
        (q.tail_DEQ < q.tail_ENQ →
          ∃ q1 v hd n n1, fifo_get fuel q h = some (q1, v) ∧ q1.handles h = some hd ∧
            q.heap.read hd.node1 = some n ∧ n.id = q.tail_DEQ / q.S ∧
            n.buffer.get? (q.tail_DEQ % q.S) = some v ∧
            q1.heap.read hd.node1 = some n1 ∧ n1.id = n.id ∧ n1.buffer = n.buffer) := by
  obtain ⟨q, addr, hi, hrun, hinv, hne, _, _, _, _⟩ :=
    run_spec fuel hfuel ops (fifo_init S W0) [] (fun _ => 0) 1 [] 0 (fifo_init_inv S W0 hS)
      (by intro x hx; cases hx) rfl rfl hwf
  simp only [List.nil_append] at hinv hne
  have hSq := hinv.spos
  refine ⟨q, _, hrun, ?_⟩
  intro h hh
  refine ⟨?_, ?_, ?_⟩
  · obtain ⟨k0, k1, w, e, a1, a2, a3, a4, a5, a6⟩ := hinv.handles h hh
    exact ⟨_, _, _, e, hinv.chain k0 a2 a1, a3, hinv.chain k1 a5 a4, a6⟩
  · intro x
    obtain ⟨qp, m1, addrp, k0, k1, w, _, hb0, hput, hqp, _, hinvp⟩ := fifo_put_spec hinv hh x
    have e1 : qp.head_index = q.head_index := by rw [hqp]
    have e2 : qp.S = q.S := by rw [hqp]
    have hrd := hinvp.chain (q.tail_ENQ / q.S) (by omega)
      (by rw [e1]; have := hinv.handles h hh; have := hinv.head_le
          have := Nat.div_le_div_right (c := q.S) hinv.deq; omega)
    rw [e2] at hrd
    have hhd : qp.handles h = some
        { hazard := none, node0 := addrp (q.tail_ENQ / q.S), node1 := addr k1,
          winner := w || decide (hi ≤ q.tail_ENQ / q.S) } := by
      rw [hqp]
      show Function.update q.handles h _ h = _
      rw [Function.update_same]
    have hcell : (slots q.S (puts ops ++ [x]) (q.tail_ENQ / q.S)).get? (q.tail_ENQ % q.S)
        = some x := by
      rw [slots_get _ _ _ _ (Nat.mod_lt _ hSq)]
      have hdm : q.tail_ENQ / q.S * q.S + q.tail_ENQ % q.S = q.tail_ENQ := by
        rw [Nat.mul_comm]
        exact Nat.div_add_mod _ _
      rw [hdm, hinv.enq]
      simp [List.getD_eq_getElem?_getD]
    exact ⟨qp, _, _, hput, hhd, hrd, rfl, hcell⟩
  · intro havail
    have hlt : q.tail_DEQ < (puts ops).length := by rw [← hinv.enq]; exact havail
    have hval : (puts ops).getD q.tail_DEQ EMPTY ≠ EMPTY := by
      rw [List.getD_eq_getElem _ _ hlt]
      exact hne _ (List.getElem_mem _)
    obtain ⟨qg, addrg, hget, hinvg, _, _, g3, _, g5, hadd, g7, ⟨a0, g8⟩, _, g10⟩ :=
      fifo_get_spec hinv hh havail hval fuel hfuel
    have hfit := hinv.fits
    have hnihi : q.tail_DEQ / q.S < hi := by
      apply Nat.div_lt_of_lt_mul
      rw [Nat.mul_comm]
      omega
    have hpre := hinv.chain (q.tail_DEQ / q.S) hnihi hinv.head_le
    have hpost := hinvg.chain (q.tail_DEQ / q.S) (by omega) g10
    rw [g3] at hpost
    rw [hadd _ hnihi] at hpost g8
    have hcell : (slots q.S (puts ops) (q.tail_DEQ / q.S)).get? (q.tail_DEQ % q.S)
        = some ((puts ops).getD q.tail_DEQ EMPTY) := by
      rw [slots_get _ _ _ _ (Nat.mod_lt _ hSq)]
      have hdm : q.tail_DEQ / q.S * q.S + q.tail_DEQ % q.S = q.tail_DEQ := by
        rw [Nat.mul_comm]
        exact Nat.div_add_mod _ _
      rw [hdm]
    exact ⟨qg, _, _, _, _, hget, g8, hpre, rfl, hcell, hpost, rfl, rfl⟩

/-- Witness for C7: the state after `demo_ops`. -/
theorem slot_addressing_witness :
    ∃ q outs, run 1 (fifo_init 2 2) demo_ops = some (q, outs) ∧
      ∀ h ∈ q.plist,
        (∃ hd n0 n1, q.handles h = some hd ∧
          q.heap.read hd.node0 = some n0 ∧ n0.id ≤ q.tail_ENQ / q.S ∧
          q.heap.read hd.node1 = some n1 ∧ n1.id ≤ q.tail_DEQ / q.S) ∧
        (∀ x, ∃ q1 hd n, fifo_put q h x = some q1 ∧ q1.handles h = some hd ∧
          q1.heap.read hd.node0 = some n ∧ n.id = q.tail_ENQ / q.S ∧
          n.buffer.get? (q.tail_ENQ % q.S) = some x) ∧
        (q.tail_DEQ < q.tail_ENQ →
          ∃ q1 v hd n n1, fifo_get 1 q h = some (q1, v) ∧ q1.handles h = some hd ∧
            q.heap.read hd.node1 = some n ∧ n.id = q.tail_DEQ / q.S ∧
            n.buffer.get? (q.tail_DEQ % q.S) = some v ∧
            q1.heap.read hd.node1 = some n1 ∧ n1.id = n.id ∧ n1.buffer = n.buffer) :=
  slot_addressing 2 2 (by decide) 1 (by decide) demo_ops (by decide)

/-- C8 (registry round trip): with the lock free, `fifo_register g` of a handle
that is not linked, followed by `fifo_unregister g`, leaves `plist` exactly as it
was; and `fifo_unregister h` on a `plist` in which `h` sits anywhere
(`l1 ++ h :: l2`, first occurrence) removes `h` and only `h`, keeping the order
of the other handles. -/
theorem registry_round_trip (q : fifo_t) (hlock : q.lock = false) :
    (∀ g, g ∉ q.plist →
      ∃ q1, fifo_unregister (fifo_register q g) g = some q1 ∧ q1.plist = q.plist) ∧
    (∀ h l1 l2, q.plist = l1 ++ h :: l2 → h ∉ l1 →
      ∃ q1, fifo_unregister q h = some q1 ∧ q1.plist = l1 ++ l2 ∧
        ∀ g, g ≠ h → (g ∈ q1.plist ↔ g ∈ q.plist)) := by
  constructor
  · intro g _
    refine ⟨_, fifo_unregister_spec (fifo_register q g) hlock g (List.mem_cons_self _ _), ?_⟩
    show (g :: q.plist).erase g = q.plist
    simp
  · intro h l1 l2 hpl hnot
    have hmem : h ∈ q.plist := by rw [hpl]; simp
    refine ⟨_, fifo_unregister_spec q hlock h hmem, ?_, ?_⟩
    · show q.plist.erase h = l1 ++ l2
      rw [hpl, List.erase_append_right _ hnot, List.erase_cons_head]
    · intro g hg
      show g ∈ q.plist.erase h ↔ g ∈ q.plist
      exact List.mem_erase_of_ne hg

/-- Witness for C8: on the registry `[1, 2, 3]`, registering and unregistering
handle `9` restores it, and unregistering handle `2` from the middle leaves
`[1, 3]`. -/
theorem registry_round_trip_witness :
    (∃ q1, fifo_unregister (fifo_register { fifo_init 2 3 with plist := [1, 2, 3] } 9) 9
        = some q1 ∧ q1.plist = [1, 2, 3]) ∧
    (∃ q1, fifo_unregister { fifo_init 2 3 with plist := [1, 2, 3] } 2 = some q1 ∧
      q1.plist = [1] ++ [3] ∧
      ∀ g, g ≠ 2 → (g ∈ q1.plist ↔ g ∈ [1, 2, 3])) :=
  ⟨(registry_round_trip { fifo_init 2 3 with plist := [1, 2, 3] } rfl).1 9 (by decide),
    (registry_round_trip { fifo_init 2 3 with plist := [1, 2, 3] } rfl).2 2 [1] [3] rfl
      (by decide)⟩

/-- Counterexample to C9 as stated: from `fifo_init 2 0` one `fifo_register`
links a handle, but `W` stays `0`. -/
theorem W_is_participant_count_counterexample :
    ∃ q outs, run 1 (fifo_init 2 0) [Op.register 7] = some (q, outs) ∧
      q.W = 0 ∧ q.plist.length = 1 ∧ q.W ≠ q.plist.length :=
  ⟨_, _, rfl, rfl, rfl, by decide⟩

/-- C9 (amended): `W` is the initial participant count minus the unregistrations.
`fifo_init` stores `W0`, `fifo_register`, `fifo_put` and `fifo_get` leave `W`
unchanged and `fifo_unregister` decrements it; so after a run from
`fifo_init S W0` (`W0` a `size_t`) with `r` registrations and `u ≤ W0`
unregistrations, `W = W0 - u` while `plist` holds `r - u` handles, and `W` is
the number of linked handles exactly when `r = W0`. -/
theorem W_counts_unregisters (fuel S W0 : Nat) (ops : List Op) (q : fifo_t) (outs : List Nat)
    (hW : W0 < 2 ^ 64) (hu : unregs ops ≤ W0)
    (hrun : run fuel (fifo_init S W0) ops = some (q, outs)) :
    q.W = W0 - unregs ops ∧ q.plist.length + unregs ops = regs ops ∧
    (q.W = q.plist.length ↔ regs ops = W0) ∧
    (∀ (s : fifo_t) (h : Nat), (fifo_register s h).W = s.W) ∧
    (∀ (s s1 : fifo_t) (h x : Nat), fifo_put s h x = some s1 → s1.W = s.W) ∧
    (∀ (f : Nat) (s s1 : fifo_t) (h v : Nat), fifo_get f s h = some (s1, v) → s1.W = s.W) ∧
    (∀ (s s1 : fifo_t) (h : Nat), fifo_unregister s h = some s1 → s1.W = size_sub s.W 1) := by
  obtain ⟨_, _, _, h4, h5⟩ := run_ctl fuel ops _ _ _ hrun
  have hw : q.W = W0 - unregs ops := h4 hW hu
  have hp : q.plist.length + unregs ops = regs ops := by
    have e : (fifo_init S W0).plist.length = 0 := rfl
    omega
  refine ⟨hw, hp, ?_, fun _ _ => rfl, ?_, ?_, ?_⟩
  · constructor
    · intro h
      omega
    · intro h
      omega
  · intro s s1 h x hput
    have hc := fifo_put_ctl hput
    simp only [fifo_t.ctl, Prod.mk.injEq] at hc
    exact hc.2.2.1
  · intro f s s1 h v hget
    have hc := fifo_get_ctl hget
    simp only [fifo_t.ctl, Prod.mk.injEq] at hc
    exact hc.2.2.1
  · intro s s1 h hun
    exact (fifo_unregister_ctl hun).2.1

/-- Witness for C9 (amended): `fifo_init 2 2`, two registrations, then one
unregistration leave `W = 1` and one linked handle. -/
theorem W_counts_unregisters_witness :
    (run_result (run 1 (fifo_init 2 2)
        [Op.register 7, Op.register 8, Op.put 7 11, Op.unregister 8])).1.W = 2 - 1 ∧
      (run_result (run 1 (fifo_init 2 2)
        [Op.register 7, Op.register 8, Op.put 7 11, Op.unregister 8])).1.plist.length + 1 = 2 :=
  ⟨(W_counts_unregisters 1 2 2 [Op.register 7, Op.register 8, Op.put 7 11, Op.unregister 8]
      (run_result (run 1 (fifo_init 2 2)
        [Op.register 7, Op.register 8, Op.put 7 11, Op.unregister 8])).1
      (run_result (run 1 (fifo_init 2 2)
        [Op.register 7, Op.register 8, Op.put 7 11, Op.unregister 8])).2
      (by decide) (by decide) rfl).1,
    (W_counts_unregisters 1 2 2 [Op.register 7, Op.register 8, Op.put 7 11, Op.unregister 8]
      (run_result (run 1 (fifo_init 2 2)
        [Op.register 7, Op.register 8, Op.put 7 11, Op.unregister 8])).1
      (run_result (run 1 (fifo_init 2 2)
        [Op.register 7, Op.register 8, Op.put 7 11, Op.unregister 8])).2
      (by decide) (by decide) rfl).2.1⟩

/-- C10 (`register` postcondition): in every state, after `fifo_register h` of a
handle that is not linked yet, the handle has `node[ENQ] = node[DEQ] =` the
current `head.node`, no hazard and a cleared winner flag, `h` is the first
element of `plist` followed by the previous `plist`, and segment memory, `head`,
both ticket counters, `S`, `W`, the lock and every other handle record are
unchanged. -/
theorem register_postcondition (q : fifo_t) (h : Nat) (hnew : h ∉ q.plist) :
    (fifo_register q h).handles h = some
        { hazard := none, node0 := q.head_node, node1 := q.head_node, winner := false } ∧
      (fifo_register q h).plist = h :: q.plist ∧
      (fifo_register q h).heap = q.heap ∧
      (fifo_register q h).head_node = q.head_node ∧
      (fifo_register q h).head_index = q.head_index ∧
      (fifo_register q h).tail_ENQ = q.tail_ENQ ∧
      (fifo_register q h).tail_DEQ = q.tail_DEQ ∧
      (fifo_register q h).S = q.S ∧ (fifo_register q h).W = q.W ∧
      (fifo_register q h).lock = q.lock ∧
      (∀ g, g ≠ h → (fifo_register q h).handles g = q.handles g) ∧
      ((fifo_register q h).plist.Nodup ↔ q.plist.Nodup) := by
  refine ⟨?_, rfl, rfl, rfl, rfl, rfl, rfl, rfl, rfl, rfl, ?_, ?_⟩
  · show Function.update q.handles h _ h = _
    rw [Function.update_same]
  · intro g hg
    show Function.update q.handles h _ g = _
    rw [Function.update_noteq hg]
  · show (h :: q.plist).Nodup ↔ q.plist.Nodup
    rw [List.nodup_cons]
    exact ⟨fun x => x.2, fun x => ⟨hnew, x⟩⟩

/-- Witness for C10: registering handle `9` in `reclaimed_state`, whose head has
been advanced to segment `2` by reclamation. -/
theorem register_postcondition_witness :
    reclaimed_state.head_index = 2 ∧
      (fifo_register reclaimed_state 9).handles 9 = some
        { hazard := none, node0 := 2, node1 := 2, winner := false } ∧
      (fifo_register reclaimed_state 9).plist = [9, 7] :=
  ⟨rfl, (register_postcondition reclaimed_state 9 (by decide)).1,
    (register_postcondition reclaimed_state 9 (by decide)).2.1⟩

/-! ## The two halves of `fifo_get` -/

theorem fifo_get_eq (fuel : Nat) (q : fifo_t) (h : Nat) :
    fifo_get fuel q h =
      match get_front q h with
      | none => none
      | some (q3, node1, li) => get_back fuel q3 h node1 li := by
  unfold fifo_get get_front get_back
  cases acquire q h Field.DEQ with
  | none => rfl
  | some r =>
    obtain ⟨q1, node⟩ := r
    simp only []
    by_cases hS : q1.S = 0
    · simp [hS]
    · simp only [hS, if_false]
      cases advance { q1 with tail_DEQ := (fetch_and_add q1.tail_DEQ 1).2 } h Field.DEQ node
          ((fetch_and_add q1.tail_DEQ 1).1 / q1.S) with
      | none => rfl
      | some r3 => rfl
theorem update_loop_flag (size : Nat) : ∀ (k i : Nat) (m : Heap) (node : Nat) (w : Bool)
    (m1 : Heap) (node1 : Nat) (w1 : Bool),
    update_loop size k i m node w = some (m1, node1, w1) →
    m.length ≤ m1.length ∧
    (∀ a, (m.read a).isSome = true → (m1.read a).isSome = true) ∧
    (∀ a, m.length ≤ a → a < m1.length → (m1.read a).isSome = true) ∧
    w1 = (w || decide (m.length < m1.length)) := by
  intro k
  induction k with
  | zero =>
    intro i m node w m1 node1 w1 h
    simp only [update_loop, Option.some.injEq, Prod.mk.injEq] at h
    obtain ⟨e1, _, e3⟩ := h
    subst e1
    subst e3
    refine ⟨Nat.le_refl _, fun _ h => h, ?_, by simp⟩
    intro a h1 h2
    omega
  | succ k ih =>
    intro i m node w m1 node1 w1 h
    simp only [update_loop] at h
    cases hr : m.read node with
    | none => simp [hr] at h
    | some pn =>
      simp only [hr] at h
      cases hn : pn.next with
      | some b =>
        simp only [hn] at h
        exact ih _ _ _ _ _ _ _ h
      | none =>
        have hlt : node < m.length := read_lt hr
        have hr1 : (new_node m (i + 1) size).1.read node = some pn := by
          rw [read_new_node, if_neg (by omega)]
          exact hr
        simp only [hn, hr1, compare_and_swap, if_true] at h
        have e2 : (new_node m (i + 1) size).2 = m.length := rfl
        rw [e2] at h
        obtain ⟨a1, a2, a3, a4⟩ := ih _ _ _ _ _ _ _ h
        have hlen : (((new_node m (i + 1) size).1).write node
              { next := some m.length, id := pn.id, buffer := pn.buffer }).length
            = m.length + 1 := by
          rw [length_write, length_new_node]
        rw [hlen] at a1 a3 a4
        have hrd : ∀ a, (((new_node m (i + 1) size).1).write node
              { next := some m.length, id := pn.id, buffer := pn.buffer }).read a =
            if node = a then some { next := some m.length, id := pn.id, buffer := pn.buffer }
            else if a = m.length then
              some { next := none, id := i + 1, buffer := List.replicate size EMPTY }
            else m.read a := by
          intro a
          rw [read_write, read_new_node, length_new_node]
          by_cases e : node = a
          · have : node < m.length + 1 := by omega
            simp [e, this]
            intro h1
            subst e
            omega
          · simp [e]
        refine ⟨by omega, ?_, ?_, ?_⟩
        · intro a ha
          apply a2
          rw [hrd]
          by_cases e : node = a
          · simp [e]
          · simp only [e, if_false]
            split
            · rfl
            · exact ha
        · intro a h1 h2
          by_cases e : a = m.length
          · apply a2
            rw [hrd]
            split
            · rfl
            · simp [e]
          · exact a3 a (by omega) h2
        · rw [a4]
          have : m.length < m1.length := by omega
          simp [this]

theorem update_flag {m : Heap} {node to_ size : Nat} {w : Bool} {m1 : Heap} {node1 : Nat}
    {w1 : Bool} (h : update m node to_ size w = some (m1, node1, w1)) :
    m.length ≤ m1.length ∧
    (∀ a, (m.read a).isSome = true → (m1.read a).isSome = true) ∧
    (∀ a, m.length ≤ a → a < m1.length → (m1.read a).isSome = true) ∧
    w1 = (w || decide (m.length < m1.length)) := by
  unfold update at h
  cases hr : m.read node with
  | none => simp [hr] at h
  | some n =>
    simp only [hr] at h
    exact update_loop_flag size _ _ _ _ _ _ _ _ h

theorem acquire_eq {q q1 : fifo_t} {p : Nat} {f : Field} {n : Nat}
    (h : acquire q p f = some (q1, n)) {hd : handle_t} (hp : q.handles p = some hd) :
    q1 = q.setHandle p (hd.set Field.hazard (some n)) ∧ (hd.set Field.hazard (some n)).get f = some n := by
  unfold acquire at h
  simp only [hp] at h
  split at h
  · cases h
  · rename_i temp ht
    split at h
    · cases h
    · rename_i node hnode
      split at h
      · rename_i e
        cases h
        subst e
        exact ⟨rfl, hnode⟩
      · cases h

theorem advance_flag {q q1 : fifo_t} {p : Nat} {side : Field} {node ni node1 : Nat}
    (h : advance q p side node ni = some (q1, node1)) (hd : handle_t)
    (hp : q.handles p = some hd) (hs : side ≠ Field.hazard) :
    ∃ hd1, q1.handles p = some hd1 ∧
      hd1.winner = (hd.winner || decide (q.heap.length < q1.heap.length)) ∧
      hd1.hazard = hd.hazard ∧
      q.heap.length ≤ q1.heap.length ∧
      (∀ a, (q.heap.read a).isSome = true → (q1.heap.read a).isSome = true) ∧
      (∀ a, q.heap.length ≤ a → a < q1.heap.length → (q1.heap.read a).isSome = true) ∧
      (∀ p1, p1 ≠ p → q1.handles p1 = q.handles p1) := by
  unfold advance at h
  split at h
  · cases h
  · split at h
    · simp only [hp] at h
      split at h
      · cases h
      · rename_i m n1 w1 hu
        cases h
        obtain ⟨a1, a2, a3, a4⟩ := update_flag hu
        refine ⟨_, Function.update_same _ _ _, ?_, ?_, a1, a2, a3, ?_⟩
        · cases side <;> simp [handle_t.set, a4]
        · cases side
          · exact absurd rfl hs
          · rfl
          · rfl
        · intro p1 hp1
          exact Function.update_noteq hp1 _ _
    · cases h
      refine ⟨hd, hp, by simp, rfl, Nat.le_refl _, fun _ h => h, ?_, fun _ _ => rfl⟩
      intro a h1 h2
      omega

theorem get_front_flag {q q3 : fifo_t} {h n li : Nat} (hf : get_front q h = some (q3, n, li))
    {hd : handle_t} (hp : q.handles h = some hd) :
    ∃ hd3, q3.handles h = some hd3 ∧
      hd3.winner = (hd.winner || decide (q.heap.length < q3.heap.length)) ∧
      hd3.hazard = some hd.node1 ∧
      (∀ a, (q.heap.read a).isSome = true → (q3.heap.read a).isSome = true) ∧
      (∀ a, q.heap.length ≤ a → a < q3.heap.length → (q3.heap.read a).isSome = true) := by
  unfold get_front at hf
  split at hf
  · cases hf
  · rename_i qa na ha
    obtain ⟨e1, e2⟩ := acquire_eq ha hp
    simp only [handle_t.set, handle_t.get, Option.some.injEq] at e2
    simp only [fetch_and_add] at hf
    split at hf
    · cases hf
    · split at hf
      · cases hf
      · rename_i qb nb hb
        cases hf
        subst e1
        have := advance_flag hb (hd.set Field.hazard (some na))
          (by simp [fifo_t.setHandle]) (by simp)
        obtain ⟨hd1, b1, b2, b3, b4, b5, b6, _⟩ := this
        refine ⟨hd1, b1, ?_, ?_, b5, b6⟩
        · rw [b2]; rfl
        · rw [b3, e2]; rfl
theorem fifo_put_flag {q q1 : fifo_t} {h x : Nat} (hput : fifo_put q h x = some q1)
    {hd : handle_t} (hp : q.handles h = some hd) :
    ∃ hd1, q1.handles h = some hd1 ∧
      hd1.winner = (hd.winner || decide (q.heap.length < q1.heap.length)) ∧
      q1.head_node = q.head_node ∧ q1.head_index = q.head_index ∧
      (∀ a, (q.heap.read a).isSome = true → (q1.heap.read a).isSome = true) ∧
      (∀ a, q.heap.length ≤ a → a < q1.heap.length → (q1.heap.read a).isSome = true) ∧
      (∀ p, p ≠ h → q1.handles p = q.handles p) := by
  unfold fifo_put at hput
  split at hput
  · cases hput
  · rename_i qa na ha
    obtain ⟨e1, e2⟩ := acquire_eq ha hp
    simp only [fetch_and_add] at hput
    split at hput
    · cases hput
    · split at hput
      · cases hput
      · rename_i qb nb hb
        split at hput
        · cases hput
        · rename_i n hn
          split at hput
          · subst e1
            obtain ⟨c1, c2, c3⟩ := advance_ctl hb
            obtain ⟨hd1, b1, b2, b3, b4, b5, b6, b7⟩ :=
              advance_flag hb (hd.set Field.hazard (some na))
                (by simp [fifo_t.setHandle]) (by simp)
            simp only [release_hazard, b1, Option.some.injEq] at hput
            subst hput
            simp only [fifo_t.setHandle, length_write, read_write] at *
            refine ⟨_, Function.update_same _ _ _, ?_, c3, c2, ?_, ?_, ?_⟩
            · show hd1.winner = _
              rw [b2]
              rfl
            · intro a ha1
              split
              · rfl
              · exact b5 a ha1
            · intro a h1 h2
              split
              · rfl
              · exact b6 a h1 h2
            · intro p hp1
              rw [Function.update_noteq hp1, b7 p hp1, Function.update_noteq hp1]
          · cases hput

theorem get_back_flag {fuel : Nat} {q3 q7 : fifo_t} {h n li v : Nat}
    (hb : get_back fuel q3 h n li = some (q7, v)) :
    ∃ hd7, q7.handles h = some hd7 ∧ hd7.winner = false ∧ hd7.hazard = none := by
  unfold get_back at hb
  split at hb
  · cases hb
  · split at hb
    · cases hb
    · split at hb
      · cases hb
      · split at hb
        · cases hb
        · rename_i hd hhd
          revert hb
          simp only []
          split
          · intro hb; cases hb
          · rename_i q6 h6
            split
            · intro hb; cases hb
            · rename_i q8 h8
              intro hb
              cases hb
              unfold release_hazard at h8
              split at h8
              · cases h8
              · rename_i hd6 hh6
                cases h8
                refine ⟨_, Function.update_same _ _ _, ?_, rfl⟩
                simp only [handle_t.set]
                split at h6
                · split at h6
                  · cases h6
                  · split at h6
                    · cases h6
                    · cases h6
                      simp only [fifo_t.setHandle, Function.update_same, Option.some.injEq] at hh6
                      rw [← hh6]
                · rename_i hw
                  cases h6
                  rw [hhd] at hh6
                  cases hh6
                  simpa using hw

theorem fifo_get_flag {fuel : Nat} {q q7 : fifo_t} {h v : Nat}
    (hg : fifo_get fuel q h = some (q7, v)) :
    ∃ hd7, q7.handles h = some hd7 ∧ hd7.winner = false ∧ hd7.hazard = none := by
  rw [fifo_get_eq] at hg
  split at hg
  · cases hg
  · exact get_back_flag hg
/-! ## A `get` whose segment exists already -/

theorem update_loop_walk (size : Nat) {m : Heap} {addr : Nat → Nat} {lo hi : Nat}
    {B : Nat → List Nat} (hc : ChainB m addr lo hi B) (w : Bool) :
    ∀ k i, lo ≤ i → i + k < hi →
      update_loop size k i m (addr i) w = some (m, addr (i + k), w) := by
  intro k
  induction k with
  | zero =>
    intro i _ _
    rfl
  | succ k ih =>
    intro i hli hik
    have hr := hc i (by omega) hli
    have hn : i + 1 < hi := by omega
    simp only [update_loop, hr, hn, if_true]
    rw [ih (i + 1) (by omega) (by omega)]
    have : i + 1 + k = i + (k + 1) := by omega
    rw [this]

theorem advance_walk {q : fifo_t} {p : Nat} {addr : Nat → Nat} {lo hi : Nat} {B : Nat → List Nat}
    (hc : ChainB q.heap addr lo hi B) {k : Nat} (hlk : lo ≤ k) (ni : Nat)
    (hkn : k ≤ ni) (hnh : ni < hi) (hd : handle_t) (hp : q.handles p = some hd) (side : Field)
    (hside : side ≠ Field.hazard) (hk : hd.get side = some (addr k)) :
    advance q p side (addr k) ni =
      some ({ q with
              handles := Function.update q.handles p
                (some (hd.set side (some (addr ni)))) }, addr ni) := by
  have hrk := hc k (by omega) hlk
  by_cases hne : k = ni
  · subst hne
    have hhd : hd.set side (some (addr k)) = hd := by
      obtain ⟨hz, n0, n1, w⟩ := hd
      cases side
      · exact absurd rfl hside
      · simp only [handle_t.get, Option.some.injEq] at hk
        simp [handle_t.set, hk]
      · simp only [handle_t.get, Option.some.injEq] at hk
        simp [handle_t.set, hk]
    have hfun : Function.update q.handles p (some hd) = q.handles := by
      rw [← hp]
      exact Function.update_eq_self p q.handles
    simp only [advance, hrk, ne_eq, not_true_eq_false, if_false, hhd, hfun]
  · have hw := update_loop_walk q.S hc hd.winner (ni - k) k hlk (by omega)
    have e1 : k + (ni - k) = ni := by omega
    rw [e1] at hw
    simp only [advance, hrk, ne_eq, hne, not_false_eq_true, if_true, hp, update, hw]

theorem get_front_walk {q : fifo_t} {items : List Nat} {addr : Nat → Nat} {hi : Nat}
    (hinv : Inv q items addr hi) {h : Nat} (hh : h ∈ q.plist) (havail : q.tail_DEQ < q.tail_ENQ) :
    ∃ k0 k1 w,
      q.handles h = some { hazard := none, node0 := addr k0, node1 := addr k1, winner := w } ∧
      q.head_index ≤ k0 ∧ k0 < hi ∧ k0 ≤ q.tail_ENQ / q.S ∧
      q.head_index ≤ k1 ∧ k1 < hi ∧ k1 ≤ q.tail_DEQ / q.S ∧ q.tail_DEQ / q.S < hi ∧
      get_front q h = some ({ q with
          tail_DEQ := q.tail_DEQ + 1
          handles := Function.update q.handles h (some
            { hazard := some (addr k1), node0 := addr k0,
              node1 := addr (q.tail_DEQ / q.S), winner := w }) },
        addr (q.tail_DEQ / q.S), q.tail_DEQ % q.S) := by
  obtain ⟨k0, k1, w, hp, hl0, hk0, hb0, hl1, hk1, hb1⟩ := hinv.handles h hh
  have hS := hinv.spos
  have hSne : q.S ≠ 0 := Nat.pos_iff_ne_zero.mp hS
  have hdh : q.tail_DEQ / q.S < hi := by
    apply (Nat.div_lt_iff_lt_mul hS).mpr
    have h1 := hinv.fits
    have h2 := hinv.enq
    omega
  have hacq : acquire q h Field.DEQ = some (q.setHandle h
      { hazard := some (addr k1), node0 := addr k0, node1 := addr k1, winner := w }, addr k1) := by
    simp [acquire, hp, handle_t.get, handle_t.set]
  have hadv := advance_walk (q := { q.setHandle h
        { hazard := some (addr k1), node0 := addr k0, node1 := addr k1, winner := w } with
        tail_DEQ := q.tail_DEQ + 1 })
      (p := h) hinv.chain hl1 (q.tail_DEQ / q.S) hb1 hdh
      { hazard := some (addr k1), node0 := addr k0, node1 := addr k1, winner := w }
      (by simp [fifo_t.setHandle]) Field.DEQ (by simp) (by simp [handle_t.get])
  simp only [fifo_t.setHandle, handle_t.set, Option.getD_some, Function.update_idem] at hadv
  refine ⟨k0, k1, w, hp, hl0, hk0, hb0, hl1, hk1, hb1, hdh, ?_⟩
  simp only [get_front, hacq, fetch_and_add, fifo_t.setHandle, hSne, if_false, hadv]

/-! ## The guard of `cleanup` -/

theorem threshold_small {W : Nat} (hW : 2 * W < 2 ^ 31) : threshold W = 2 * W := by
  unfold threshold to_size_t to_int
  have h1 : 2 * W % 2 ^ 64 = 2 * W := Nat.mod_eq_of_lt (by omega)
  have h2 : 2 * W % 2 ^ 32 = 2 * W := Nat.mod_eq_of_lt (by omega)
  rw [h1, h2, if_pos hW]
  have h3 : ((2 * W : Nat) : Int) % 2 ^ 64 = ((2 * W : Nat) : Int) := by
    apply Int.emod_eq_of_lt
    · exact Int.ofNat_nonneg _
    · have : (2 * W : Nat) < 2 ^ 64 := by omega
      exact_mod_cast this
  rw [h3]
  exact Int.toNat_ofNat _

theorem size_sub_le {a b : Nat} (hba : b ≤ a) (ha : a < 2 ^ 64) : size_sub a b = a - b := by
  unfold size_sub
  have h1 : a % 2 ^ 64 = a := Nat.mod_eq_of_lt ha
  have h2 : b % 2 ^ 64 = b := Nat.mod_eq_of_lt (by omega)
  rw [h1, h2]
  have h3 : a + (2 ^ 64 - b) = (a - b) + 2 ^ 64 := by omega
  rw [h3, Nat.add_mod_right]
  exact Nat.mod_eq_of_lt (by omega)

theorem cleanup_hysteresis {q : fifo_t} {c : Nat} {n : node_t} (hr : q.heap.read c = some n)
    (hW : 2 * q.W < 2 ^ 31) (hle : q.head_index ≤ n.id) (hid : n.id < 2 ^ 64)
    (hd : n.id - q.head_index ≤ 2 * q.W) : cleanup q c = some q := by
  unfold cleanup
  simp only [hr]
  split
  · rfl
  · rw [threshold_small hW, size_sub_le hle hid]
    have : ¬ (n.id - q.head_index > 2 * q.W) := by omega
    simp [this]

/-- C11 (code defect): `int threshold = 2 * fifo->W` keeps only the low 32 bits of
`2 * W`.  On a queue initialised with `width = 2^31` the threshold is `0`: in
the third `get` of a lone handle, `cleanup` is called with `head.index = 0` and
a candidate of id `2`, so `head_candidate.id - head.index <= 2 * W`, and yet it
frees segment `0` and moves `head.node` and `head.index` to segment `1`. -/
theorem hysteresis_int_threshold :
    ∃ q3 n li nn q5, get_front wide_state 7 = some (q3, n, li) ∧
      q3.heap.read n = some nn ∧ q3.head_index ≠ SIZE_MAX ∧ q3.head_index ≤ nn.id ∧
      nn.id - q3.head_index ≤ 2 * q3.W ∧ (q3.heap.read q3.head_node).isSome = true ∧
      cleanup q3 n = some q5 ∧ q5.heap.read q3.head_node = none ∧
      q3.head_index = 0 ∧ q5.head_index = 1 ∧ q5.head_node ≠ q3.head_node :=
  ⟨_, _, _, _, _, rfl, rfl, by decide, by decide, by decide, rfl, rfl, rfl, rfl, rfl, by decide⟩

/-! ## The reclamation scenario `S = 2`, `W = 2` -/

/-- C12 (as stated, refuted): in the scenario `S = 2`, `W = 2` the first
reclamation pass runs in the `get` of round trip `11`, which operates on
segment `5`.  Afterwards segments `4` and `5` are both live and `head.node` is
segment `4`, not the segment the `get` operated on. -/
theorem reclamation_frees_all_but_current_counterexample :
    observe (lone_state 2 2 (trips 10)) = ([0, 1, 2, 3, 4], 0, some 0) ∧
    observe (lone_state 2 2 (trips 11)) = ([4, 5], 4, some 4) ∧
    ((lone_state 2 2 (trips 11)).handles 7).map (fun hd =>
      ((lone_state 2 2 (trips 11)).heap.read hd.node1).map node_t.id) = some (some 5) ∧
    ((lone_state 2 2 (trips 11)).handles 7).map (fun hd =>
      decide (hd.node1 = (lone_state 2 2 (trips 11)).head_node)) = some false :=
  ⟨rfl, rfl, rfl, rfl⟩

/-- C12 (amended): in the scenario `S = 2`, `W = 2` with one handle making 20
round trips, segments accumulate without any being freed until the `get` of
round trip `11` calls `cleanup` with `head_candidate.id - head.index = 5 > 4`
while its hazard is on segment `4`; that pass frees segments `0, ..., 3`, all
segments before the one the hazard protects, and makes segment `4` the head,
so that two segments are live afterwards.  The second pass, in round trip
`19`, frees segments `4, ..., 7` in the same way.  The tables list the live
segment ids, `head.index` and the id of `head.node` after `n` round trips
(`n = 0, ..., 20`) and after the `put` of round trip `n + 1`
(`n = 0, ..., 19`). -/
theorem reclamation_trigger_scenario :
    (List.range 21).map (fun n => observe (lone_state 2 2 (trips n))) =
      [([0], 0, some 0), ([0], 0, some 0), ([0], 0, some 0), ([0, 1], 0, some 0),
       ([0, 1], 0, some 0), ([0, 1, 2], 0, some 0), ([0, 1, 2], 0, some 0),
       ([0, 1, 2, 3], 0, some 0), ([0, 1, 2, 3], 0, some 0), ([0, 1, 2, 3, 4], 0, some 0),
       ([0, 1, 2, 3, 4], 0, some 0), ([4, 5], 4, some 4), ([4, 5], 4, some 4),
       ([4, 5, 6], 4, some 4), ([4, 5, 6], 4, some 4), ([4, 5, 6, 7], 4, some 4),
       ([4, 5, 6, 7], 4, some 4), ([4, 5, 6, 7, 8], 4, some 4), ([4, 5, 6, 7, 8], 4, some 4),
       ([8, 9], 8, some 8), ([8, 9], 8, some 8)] ∧
    (List.range 20).map (fun n => observe (lone_state 2 2 (trips n ++ [Op.put 7 (n + 1)]))) =
      [([0], 0, some 0), ([0], 0, some 0), ([0, 1], 0, some 0), ([0, 1], 0, some 0),
       ([0, 1, 2], 0, some 0), ([0, 1, 2], 0, some 0), ([0, 1, 2, 3], 0, some 0),
       ([0, 1, 2, 3], 0, some 0), ([0, 1, 2, 3, 4], 0, some 0), ([0, 1, 2, 3, 4], 0, some 0),
       ([0, 1, 2, 3, 4, 5], 0, some 0), ([4, 5], 4, some 4), ([4, 5, 6], 4, some 4),
       ([4, 5, 6], 4, some 4), ([4, 5, 6, 7], 4, some 4), ([4, 5, 6, 7], 4, some 4),
       ([4, 5, 6, 7, 8], 4, some 4), ([4, 5, 6, 7, 8], 4, some 4),
       ([4, 5, 6, 7, 8, 9], 4, some 4), ([8, 9], 8, some 8)] ∧
    (get_front (lone_state 2 2 (trips 10 ++ [Op.put 7 11])) 7).map (fun r =>
        (r.1.head_index, (r.1.heap.read r.2.1).map node_t.id,
          (r.1.handles 7).map (fun hd =>
            (hd.winner, (hd.hazard.bind r.1.heap.read).map node_t.id)))) =
      some (0, some 5, some (true, some 4)) ∧
    (get_front (lone_state 2 2 (trips 10 ++ [Op.put 7 11])) 7).bind (fun r =>
        (cleanup r.1 r.2.1).map observe) = some ([4, 5], 4, some 4) :=
  ⟨rfl, rfl, rfl, rfl⟩

/-! ## The call of `cleanup` made by `fifo_get` -/

theorem get_mid_refs {q : fifo_t} {items : List Nat} {addr : Nat → Nat} {hi : Nat}
    (hinv : Inv q items addr hi) (h : Nat) {k0 k1 c : Nat}
    (hl0 : q.head_index ≤ k0) (hk0 : k0 < hi) (hl1 : q.head_index ≤ k1) (hk1 : k1 < hi)
    (hlc : q.head_index ≤ c) (hch : c < hi) (w3 : Bool) :
    ∀ h1 ∈ q.plist, ∃ hd,
      Function.update q.handles h (some
        { hazard := some (addr k1), node0 := addr k0, node1 := addr c, winner := w3 }) h1
        = some hd ∧
      RefsIn addr q.head_index hi hd := by
  intro h1 hh1
  by_cases hhh : h1 = h
  · subst hhh
    refine ⟨_, Function.update_same _ _ _, ?_, ?_, ?_⟩
    · intro a ha
      simp only [Option.some.injEq] at ha
      exact ⟨k1, hk1, hl1, ha⟩
    · exact ⟨k0, hk0, hl0, rfl⟩
    · exact ⟨c, hch, hlc, rfl⟩
  · obtain ⟨j0, j1, w1, e, a1, a2, a3, a4, a5, a6⟩ := hinv.handles h1 hh1
    refine ⟨_, by rw [Function.update_noteq hhh, e], ?_, ?_, ?_⟩
    · intro a ha
      cases ha
    · exact ⟨j0, a2, a1, rfl⟩
    · exact ⟨j1, a5, a4, rfl⟩

theorem cleanup_at_get {q : fifo_t} {items : List Nat} {addr : Nat → Nat} {hi : Nat}
    (hinv : Inv q items addr hi) {h : Nat} (hh : h ∈ q.plist) (havail : q.tail_DEQ < q.tail_ENQ) :
    ∃ k0 k1 w q3 q5 t,
      q.handles h = some { hazard := none, node0 := addr k0, node1 := addr k1, winner := w } ∧
      q.head_index ≤ k0 ∧ k0 < hi ∧ k0 ≤ q.tail_ENQ / q.S ∧
      q.head_index ≤ k1 ∧ k1 < hi ∧ k1 ≤ q.tail_DEQ / q.S ∧ q.tail_DEQ / q.S < hi ∧
      q3 = { q with
          tail_DEQ := q.tail_DEQ + 1
          handles := Function.update q.handles h (some
            { hazard := some (addr k1), node0 := addr k0,
              node1 := addr (q.tail_DEQ / q.S), winner := w }) } ∧
      get_front q h = some (q3, addr (q.tail_DEQ / q.S), q.tail_DEQ % q.S) ∧
      cleanup q3 (addr (q.tail_DEQ / q.S)) = some q5 ∧
      CleanupPost addr q.head_index hi (q.tail_DEQ / q.S) q3 q5 t ∧
      (q3.head_index ≠ SIZE_MAX → size_sub (q.tail_DEQ / q.S) q3.head_index > threshold q3.W →
        q5.head_index = t ∧
        (t = q.tail_DEQ / q.S ∨
          ∃ h1 ∈ q.plist, ∃ hd, q3.handles h1 = some hd ∧ hd.hazard = some (addr t))) ∧
      (¬ (q3.head_index ≠ SIZE_MAX ∧ size_sub (q.tail_DEQ / q.S) q3.head_index > threshold q3.W) →
        q5 = q3) := by
  obtain ⟨k0, k1, w, hp, hl0, hk0, hb0, hl1, hk1, hb1, hdh, hfront⟩ :=
    get_front_walk hinv hh havail
  have hlc : q.head_index ≤ q.tail_DEQ / q.S := hinv.head_le
  have hl := get_mid_refs hinv h hl0 hk0 hl1 hk1 hlc hdh w
  by_cases hg : q.head_index ≠ SIZE_MAX ∧ size_sub (q.tail_DEQ / q.S) q.head_index > threshold q.W
  · obtain ⟨q5, t, hcl, hpost, hidx, hfl⟩ := cleanup_pass
      (q := { q with
        tail_DEQ := q.tail_DEQ + 1
        handles := Function.update q.handles h (some
          { hazard := some (addr k1), node0 := addr k0,
            node1 := addr (q.tail_DEQ / q.S), winner := w }) })
      hinv.chain hinv.head hlc hdh hl hg.1 hg.2
    refine ⟨k0, k1, w, _, q5, t, hp, hl0, hk0, hb0, hl1, hk1, hb1, hdh, rfl, hfront, hcl, hpost,
      fun _ _ => ⟨hidx, hfl⟩, fun hn => absurd hg hn⟩
  · obtain ⟨q5, t, hcl, hpost⟩ := cleanup_spec
      (q := { q with
        tail_DEQ := q.tail_DEQ + 1
        handles := Function.update q.handles h (some
          { hazard := some (addr k1), node0 := addr k0,
            node1 := addr (q.tail_DEQ / q.S), winner := w }) })
      hinv.chain hinv.head hlc hdh hl
    refine ⟨k0, k1, w, _, q5, t, hp, hl0, hk0, hb0, hl1, hk1, hb1, hdh, rfl, hfront, hcl, hpost,
      fun h1 h2 => absurd ⟨h1, h2⟩ hg, ?_⟩
    intro _
    have hrd := hinv.chain _ hdh hlc
    have : cleanup { q with
        tail_DEQ := q.tail_DEQ + 1
        handles := Function.update q.handles h (some
          { hazard := some (addr k1), node0 := addr k0,
            node1 := addr (q.tail_DEQ / q.S), winner := w }) } (addr (q.tail_DEQ / q.S))
        = some { q with
        tail_DEQ := q.tail_DEQ + 1
        handles := Function.update q.handles h (some
          { hazard := some (addr k1), node0 := addr k0,
            node1 := addr (q.tail_DEQ / q.S), winner := w }) } := by
      unfold cleanup
      simp only [hrd]
      by_cases hidx : q.head_index = SIZE_MAX
      · simp [hidx]
      · have hthr : ¬ size_sub (q.tail_DEQ / q.S) q.head_index > threshold q.W :=
          fun e => hg ⟨hidx, e⟩
        simp [hidx, hthr]
    rw [this] at hcl
    cases hcl
    rfl

/-! ## The head-index state machine -/

/-- C13 (as stated, refuted): in `stale_state` (two registered handles, `W = 2`)
the next `get` of handle `7` calls `cleanup` with `head.index = 0` and a
candidate of id `5`; the guard passes and the compare-and-swap replaces `0` by
`-1`, the scan falls back to segment `0` because the caller's hazard is still
on it, and the value stored back into `head.index` is `0` again. -/
theorem head_index_strictly_increases_counterexample :
    ∃ q3 n li nn q5, get_front stale_state 7 = some (q3, n, li) ∧
      (q3.handles 7).map (fun hd => hd.winner) = some true ∧
      q3.heap.read n = some nn ∧ q3.head_index ≠ SIZE_MAX ∧
      size_sub nn.id q3.head_index > threshold q3.W ∧
      cleanup q3 n = some q5 ∧ q3.head_index = 0 ∧ q5.head_index = 0 :=
  ⟨_, _, _, _, _, rfl, rfl, rfl, by decide, by decide, rfl, rfl, rfl⟩

/-- C13 (amended): `head.index` only moves `ACTIVE(i) -> IN_PROGRESS -> ACTIVE(j)`
with `j >= i`.  In every state reached by an operation-atomic run, for every
registered handle whose `get` finds an item available, the call
`cleanup(fifo, n)` at the state `q3` reached after the `update` step returns;
when the guard fails nothing is stored (`q5 = q3`), and in every case the
resulting `head.index` is at least the previous one, at most the id of `n`,
and equal to the id of the resulting `head.node`. -/
theorem head_index_monotone (S W0 fuel : Nat) (hS : 0 < S) (hfuel : 0 < fuel) (ops : List Op)
    (hwf : wf_run [] 0 ops = true) :
    ∃ q out, run fuel (fifo_init S W0) ops = some (q, out) ∧
      ∀ h ∈ q.plist, q.tail_DEQ < q.tail_ENQ →
        ∃ q3 n li nn q5 nh, get_front q h = some (q3, n, li) ∧
          q3.heap.read n = some nn ∧ q3.head_index = q.head_index ∧
          cleanup q3 n = some q5 ∧
          (¬ (q3.head_index ≠ SIZE_MAX ∧ size_sub nn.id q3.head_index > threshold q3.W) →
            q5 = q3) ∧
          q3.head_index ≤ q5.head_index ∧ q5.head_index ≤ nn.id ∧
          q5.heap.read q5.head_node = some nh ∧ nh.id = q5.head_index := by
  obtain ⟨q, addr, hi, hrun, hinv, _, _, _, _, _⟩ :=
    run_spec fuel hfuel ops (fifo_init S W0) [] (fun _ => 0) 1 [] 0 (fifo_init_inv S W0 hS)
      (by intro x hx; cases hx) rfl rfl hwf
  refine ⟨q, _, hrun, ?_⟩
  intro h hh havail
  obtain ⟨k0, k1, w, q3, q5, t, hp, hl0, hk0, hb0, hl1, hk1, hb1, hdh, hq3, hfront, hcl, hpost,
    hpass, hfail⟩ := cleanup_at_get hinv hh havail
  have hlc : q.head_index ≤ q.tail_DEQ / q.S := hinv.head_le
  have hheap : q3.heap = q.heap := by rw [hq3]
  have hidx3 : q3.head_index = q.head_index := by rw [hq3]
  have hrd : q3.heap.read (addr (q.tail_DEQ / q.S)) = some
      { next := if q.tail_DEQ / q.S + 1 < hi then some (addr (q.tail_DEQ / q.S + 1)) else none,
        id := q.tail_DEQ / q.S, buffer := slots q.S ([] ++ puts ops) (q.tail_DEQ / q.S) } := by
    rw [hheap]
    exact hinv.chain _ hdh hlc
  have ht : q5.head_index = t := by
    rcases hpost.index with ⟨e1, e2⟩ | ⟨e1, _⟩
    · rw [e1, e2, hidx3]
    · exact e1
  have hrt : q5.heap.read q5.head_node = some
      { next := if t + 1 < hi then some (addr (t + 1)) else none, id := t,
        buffer := slots q.S ([] ++ puts ops) t } := by
    rw [hpost.head, hpost.kept (addr t), hheap]
    · exact hinv.chain t (by have := hpost.le_c; omega) hpost.lo_le
    · intro j h1 h2
      exact chainB_addr_ne hinv.chain (by have := hpost.le_c; omega) h1
        (by have := hpost.le_c; omega) hpost.lo_le (by omega)
  refine ⟨q3, _, _, _, q5, _, hfront, hrd, hidx3, hcl, hfail, ?_, ?_, hrt, ht.symm⟩
  · rw [ht, hidx3]
    exact hpost.lo_le
  · rw [ht]
    exact hpost.le_c

/-- Witness for C13: the run `stale_ops`, after which the `get` of handle `7`
stores back the head index it found. -/
theorem head_index_monotone_witness :
    ∃ q out, run 1 (fifo_init 1 2) stale_ops = some (q, out) ∧
      ∀ h ∈ q.plist, q.tail_DEQ < q.tail_ENQ →
        ∃ q3 n li nn q5 nh, get_front q h = some (q3, n, li) ∧
          q3.heap.read n = some nn ∧ q3.head_index = q.head_index ∧
          cleanup q3 n = some q5 ∧
          (¬ (q3.head_index ≠ SIZE_MAX ∧ size_sub nn.id q3.head_index > threshold q3.W) →
            q5 = q3) ∧
          q3.head_index ≤ q5.head_index ∧ q5.head_index ≤ nn.id ∧
          q5.heap.read q5.head_node = some nh ∧ nh.id = q5.head_index :=
  head_index_monotone 1 2 1 (by decide) (by decide) stale_ops (by decide)

/-! ## The hazard held when `cleanup` is called -/

/-- C14 (as stated, refuted): on `fifo_init(1, 1)`, after `put`, `get`, `put`
by handle `7`, the second `get` has ticket `1`; `acquire` publishes segment `0`
as hazard, `update` moves `n` to segment `1`, the winner flag is set, and
`cleanup(fifo, n)` is called while the hazard is still segment `0`. -/
theorem caller_hazard_is_candidate_counterexample :
    ∃ q3 n li hd, get_front (lone_state 1 1 [Op.put 7 1, Op.get 7, Op.put 7 2]) 7
        = some (q3, n, li) ∧
      q3.handles 7 = some hd ∧ hd.winner = true ∧ hd.hazard = some 0 ∧ n = 1 ∧
      (q3.heap.read 0).map node_t.id = some 0 ∧ (q3.heap.read 1).map node_t.id = some 1 ∧
      hd.hazard ≠ some n :=
  ⟨_, _, _, _, rfl, rfl, rfl, rfl, rfl, rfl, rfl, by decide⟩

/-- C14 (amended): in every state reached by an operation-atomic run, when a
`get` of a registered handle (with an item available) reaches the call
`cleanup(fifo, n)`, the handle's published hazard is the node `acquire`
protected, namely its previously cached `node[DEQ]`: a live segment whose id
is at most the id of `n`, and which is `n` itself exactly when `update` did
not move.  `cleanup` returns and frees neither the hazard segment nor `n`. -/
theorem hazard_at_cleanup (S W0 fuel : Nat) (hS : 0 < S) (hfuel : 0 < fuel) (ops : List Op)
    (hwf : wf_run [] 0 ops = true) :
    ∃ q out, run fuel (fifo_init S W0) ops = some (q, out) ∧
      ∀ h ∈ q.plist, q.tail_DEQ < q.tail_ENQ →
        ∃ hd q3 n li hd3 a na nn q5, q.handles h = some hd ∧
          get_front q h = some (q3, n, li) ∧ q3.handles h = some hd3 ∧
          hd3.hazard = some a ∧ a = hd.node1 ∧
          q3.heap.read a = some na ∧ q3.heap.read n = some nn ∧
          na.id ≤ nn.id ∧ (a = n ↔ na.id = nn.id) ∧ nn.id = q.tail_DEQ / q.S ∧
          cleanup q3 n = some q5 ∧
          q5.heap.read a = some na ∧ q5.heap.read n = some nn := by
  obtain ⟨q, addr, hi, hrun, hinv, _, _, _, _, _⟩ :=
    run_spec fuel hfuel ops (fifo_init S W0) [] (fun _ => 0) 1 [] 0 (fifo_init_inv S W0 hS)
      (by intro x hx; cases hx) rfl rfl hwf
  refine ⟨q, _, hrun, ?_⟩
  intro h hh havail
  obtain ⟨k0, k1, w, q3, q5, t, hp, hl0, hk0, hb0, hl1, hk1, hb1, hdh, hq3, hfront, hcl, hpost,
    hpass, hfail⟩ := cleanup_at_get hinv hh havail
  have hlc : q.head_index ≤ q.tail_DEQ / q.S := hinv.head_le
  have hheap : q3.heap = q.heap := by rw [hq3]
  have hp3 : q3.handles h = some
      { hazard := some (addr k1), node0 := addr k0,
        node1 := addr (q.tail_DEQ / q.S), winner := w } := by
    rw [hq3]
    exact Function.update_same _ _ _
  have hra := hinv.chain k1 hk1 hl1
  have hrn := hinv.chain _ hdh hlc
  obtain ⟨hd5, h5, hadv5⟩ := hpost.adv h _ hp3
  obtain ⟨r1, _, _⟩ := hpost.refs h (by rw [hq3]; exact hh) hd5 h5
  have hz5 : hd5.hazard = some (addr k1) := hadv5.1
  obtain ⟨kz, hkz, hlz, hez⟩ := r1 (addr k1) hz5
  have hkz1 : kz = k1 := chainB_id hinv.chain hkz (by have := hpost.lo_le; omega) hk1 hl1 hez
  have hkept : ∀ k, t ≤ k → k < hi → q5.heap.read (addr k) = q.heap.read (addr k) := by
    intro k h1 h2
    rw [hpost.kept (addr k), hheap]
    intro j h3 h4
    exact chainB_addr_ne hinv.chain (by omega) h3 h2 (by have := hpost.lo_le; omega) (by omega)
  have hra3 := hra
  have hrn3 := hrn
  rw [← hheap] at hra3 hrn3
  refine ⟨_, q3, _, _, _, addr k1, _, _, q5, hp, hfront, hp3, rfl, rfl, hra3, hrn3, hb1, ?_, rfl, hcl,
    ?_, ?_⟩
  · constructor
    · intro e
      exact chainB_id hinv.chain hk1 hl1 hdh hlc e
    · intro e
      have e1 : k1 = q.tail_DEQ / q.S := e
      rw [e1]
  · rw [hkept k1 (by omega) hk1]
    exact hra
  · rw [hkept _ hpost.le_c hdh]
    exact hrn

/-- Witness for C14: the run of the counterexample, `fifo_init(1, 1)` followed by
`register`, `put`, `get`, `put`. -/
theorem hazard_at_cleanup_witness :
    ∃ q out, run 1 (fifo_init 1 1) [Op.register 7, Op.put 7 1, Op.get 7, Op.put 7 2]
        = some (q, out) ∧
      ∀ h ∈ q.plist, q.tail_DEQ < q.tail_ENQ →
        ∃ hd q3 n li hd3 a na nn q5, q.handles h = some hd ∧
          get_front q h = some (q3, n, li) ∧ q3.handles h = some hd3 ∧
          hd3.hazard = some a ∧ a = hd.node1 ∧
          q3.heap.read a = some na ∧ q3.heap.read n = some nn ∧
          na.id ≤ nn.id ∧ (a = n ↔ na.id = nn.id) ∧ nn.id = q.tail_DEQ / q.S ∧
          cleanup q3 n = some q5 ∧
          q5.heap.read a = some na ∧ q5.heap.read n = some nn :=
  hazard_at_cleanup 1 1 1 (by decide) (by decide)
    [Op.register 7, Op.put 7 1, Op.get 7, Op.put 7 2] (by decide)

/-! ## Invariant SEG-1 -/

theorem seg_chain_of_chainB {q : fifo_t} {addr : Nat → Nat} {hi : Nat} {B : Nat → List Nat}
    (hc : ChainB q.heap addr q.head_index hi B) (hlt : q.head_index < hi)
    (hhead : q.head_node = addr q.head_index) : seg_chain q := by
  constructor
  · exact ⟨_, by rw [hhead]; exact hc _ hlt (Nat.le_refl _), rfl⟩
  · intro k a hf
    rw [hhead, follow_chain hc k q.head_index (Nat.le_refl _) hlt] at hf
    by_cases hk : q.head_index + k < hi
    · rw [if_pos hk] at hf
      cases hf
      refine ⟨_, hc _ hk (by omega), rfl, ?_⟩
      intro b hb
      by_cases hk1 : q.head_index + k + 1 < hi
      · simp only [hk1, if_true, Option.some.injEq] at hb
        subst hb
        exact ⟨_, hc _ hk1 (by omega), rfl⟩
      · simp [hk1] at hb
    · rw [if_neg hk] at hf
      cases hf

theorem seg_chain_inv {q : fifo_t} {items : List Nat} {addr : Nat → Nat} {hi : Nat}
    (hinv : Inv q items addr hi) : seg_chain q :=
  seg_chain_of_chainB hinv.chain hinv.lt hinv.head

theorem seg_chain_post {q3 q5 : fifo_t} {addr : Nat → Nat} {hi c t : Nat} {B : Nat → List Nat}
    (hc : ChainB q3.heap addr q3.head_index hi B) (hch : c < hi)
    (hpost : CleanupPost addr q3.head_index hi c q3 q5 t) : seg_chain q5 := by
  have ht : q5.head_index = t := by
    rcases hpost.index with ⟨e1, e2⟩ | ⟨e1, _⟩
    · rw [e1, e2]
    · exact e1
  have h1 := hpost.lo_le
  have h2 := hpost.le_c
  have hc5 : ChainB q5.heap addr q5.head_index hi B := by
    intro k hk hlk
    rw [ht] at hlk
    rw [hpost.kept (addr k)]
    · exact hc k hk (by omega)
    · intro j h3 h4
      exact chainB_addr_ne hc (by omega) h3 hk (by omega) (by omega)
  exact seg_chain_of_chainB hc5 (by omega) (by rw [ht]; exact hpost.head)

/-- C15 (SEG-1 is preserved): the initial segment has id `0`, and in every state
`q` reached from `fifo_init` by a well-formed operation-atomic run of
`register`, `put`, `get` and `unregister` calls the list starting at
`head.node` consists of live segments with consecutive ids starting at
`head.index = head.node.id`.  The same holds inside a `get` of a registered
handle: in the state `q3` after its `update` step and in the state `q5` after
the reclamation pass `cleanup(fifo, n)`. -/
theorem seg1_preserved (S W0 fuel : Nat) (hS : 0 < S) (hfuel : 0 < fuel) (ops : List Op)
    (hwf : wf_run [] 0 ops = true) :
    (fifo_init S W0).heap.read (fifo_init S W0).head_node =
      some { next := none, id := 0, buffer := List.replicate S EMPTY } ∧
    ∃ q out, run fuel (fifo_init S W0) ops = some (q, out) ∧ seg_chain q ∧
      ∀ h ∈ q.plist, q.tail_DEQ < q.tail_ENQ →
        ∃ q3 n li q5, get_front q h = some (q3, n, li) ∧ seg_chain q3 ∧
          cleanup q3 n = some q5 ∧ seg_chain q5 := by
  refine ⟨rfl, ?_⟩
  obtain ⟨q, addr, hi, hrun, hinv, _, _, _, _, _⟩ :=
    run_spec fuel hfuel ops (fifo_init S W0) [] (fun _ => 0) 1 [] 0 (fifo_init_inv S W0 hS)
      (by intro x hx; cases hx) rfl rfl hwf
  refine ⟨q, _, hrun, seg_chain_inv hinv, ?_⟩
  intro h hh havail
  obtain ⟨k0, k1, w, q3, q5, t, hp, hl0, hk0, hb0, hl1, hk1, hb1, hdh, hq3, hfront, hcl, hpost,
    hpass, hfail⟩ := cleanup_at_get hinv hh havail
  have hc3 : ChainB q3.heap addr q3.head_index hi (slots q.S ([] ++ puts ops)) := by
    rw [hq3]
    exact hinv.chain
  have hlt3 : q3.head_index < hi := by
    rw [hq3]
    exact hinv.lt
  have hh3 : q3.head_node = addr q3.head_index := by
    rw [hq3]
    exact hinv.head
  have hpost3 : CleanupPost addr q3.head_index hi (q.tail_DEQ / q.S) q3 q5 t := by
    have e : q3.head_index = q.head_index := by rw [hq3]
    rw [e]
    exact hpost
  exact ⟨q3, _, _, q5, hfront, seg_chain_of_chainB hc3 hlt3 hh3, hcl,
    seg_chain_post hc3 hdh hpost3⟩

/-- Witness for C15: the scenario run `S = 2`, `W = 2` with eleven round trips
of one handle followed by a `put`. -/
theorem seg1_preserved_witness :
    (fifo_init 2 2).heap.read (fifo_init 2 2).head_node =
      some { next := none, id := 0, buffer := List.replicate 2 EMPTY } ∧
    ∃ q out, run 1 (fifo_init 2 2) (Op.register 7 :: (trips 11 ++ [Op.put 7 12])) = some (q, out) ∧
      seg_chain q ∧
      ∀ h ∈ q.plist, q.tail_DEQ < q.tail_ENQ →
        ∃ q3 n li q5, get_front q h = some (q3, n, li) ∧ seg_chain q3 ∧
          cleanup q3 n = some q5 ∧ seg_chain q5 :=
  seg1_preserved 2 2 1 (by decide) (by decide) (Op.register 7 :: (trips 11 ++ [Op.put 7 12]))
    (by decide)

/-! ## Invariant SEG-2 -/

theorem getD_append_one (items : List Nat) (x t : Nat) :
    (items ++ [x]).getD t EMPTY = if t = items.length then x else items.getD t EMPTY := by
  simp only [List.getD_eq_getElem?_getD]
  rcases Nat.lt_trichotomy t items.length with h | h | h
  · simp [List.getElem?_append_left h, Nat.ne_of_lt h]
  · subst h
    simp
  · have h1 : (items ++ [x]).length ≤ t := by simp; omega
    have h2 : items.length ≤ t := by omega
    simp [List.getElem?_eq_none h1, List.getElem?_eq_none h2, Nat.ne_of_gt h]

/-- C16 (SEG-2, slot state machine): in every state `q` reached by a well-formed
operation-atomic run with non-null items, `ENQ_TICKET` and `DEQ_TICKET` count
the `put` and `get` calls made so far, and for every ticket `t` whose segment
has not been freed, slot `t` is non-`EMPTY` iff `t < ENQ_TICKET`.  A `fifo_put`
writes the slot of ticket `ENQ_TICKET`, which was `EMPTY` immediately before,
and changes no other slot; a `fifo_get` (item available) returns the content of
the slot of ticket `DEQ_TICKET`, which no earlier `get` read since each `get`
takes the next ticket, and leaves every slot of a segment that is still live
unchanged. -/
theorem slot_state_machine (S W0 fuel : Nat) (hS : 0 < S) (hfuel : 0 < fuel) (ops : List Op)
    (hwf : wf_run [] 0 ops = true) :
    ∃ q out, run fuel (fifo_init S W0) ops = some (q, out) ∧
      q.tail_ENQ = (puts ops).length ∧ q.tail_DEQ = gets ops ∧
      (∀ t, q.head_index ≤ t / q.S → (slot_at q t ≠ EMPTY ↔ t < q.tail_ENQ)) ∧
      (∀ h ∈ q.plist, ∀ x, ∃ q1, fifo_put q h x = some q1 ∧
        slot_at q q.tail_ENQ = EMPTY ∧ slot_at q1 q.tail_ENQ = x ∧
        q1.tail_ENQ = q.tail_ENQ + 1 ∧
        ∀ t, t ≠ q.tail_ENQ → q.head_index ≤ t / q.S → slot_at q1 t = slot_at q t) ∧
      (∀ h ∈ q.plist, q.tail_DEQ < q.tail_ENQ → ∃ q1 v, fifo_get fuel q h = some (q1, v) ∧
        v = slot_at q q.tail_DEQ ∧ v ≠ EMPTY ∧ q1.tail_DEQ = q.tail_DEQ + 1 ∧
        ∀ t, q1.head_index ≤ t / q.S → slot_at q1 t = slot_at q t) := by
  obtain ⟨q, addr, hi, hrun, hinv, hne, hdeq, _, _, _⟩ :=
    run_spec fuel hfuel ops (fifo_init S W0) [] (fun _ => 0) 1 [] 0 (fifo_init_inv S W0 hS)
      (by intro x hx; cases hx) rfl rfl hwf
  simp only [List.nil_append] at hinv hne
  have hSq := hinv.spos
  have henq := hinv.enq
  have hslot : ∀ t, q.head_index ≤ t / q.S → slot_at q t = (puts ops).getD t EMPTY :=
    fun t ht => slot_at_inv hinv t ht
  refine ⟨q, _, hrun, henq, ?_, ?_, ?_, ?_⟩
  · rw [hdeq]
    simp [fifo_init]
  · intro t ht
    rw [hslot t ht, henq]
    constructor
    · intro h
      by_contra hlt
      apply h
      simp [List.getD_eq_getElem?_getD, List.getElem?_eq_none (Nat.le_of_not_lt hlt)]
    · intro hlt
      have : (puts ops).getD t EMPTY = (puts ops)[t] := by
        simp [List.getD_eq_getElem?_getD, List.getElem?_eq_getElem hlt]
      rw [this]
      exact hne _ (List.getElem_mem _)
  · intro h hh x
    obtain ⟨qp, m1, addrp, k0, k1, w, _, hb0, hput, hqp, _, hinvp⟩ := fifo_put_spec hinv hh x
    have e1 : qp.head_index = q.head_index := by rw [hqp]
    have e2 : qp.S = q.S := by rw [hqp]
    have e3 : qp.tail_ENQ = q.tail_ENQ + 1 := by rw [hqp]
    have hle : q.head_index ≤ q.tail_ENQ / q.S := by
      have h1 := hinv.head_le
      have h2 := Nat.div_le_div_right (c := q.S) hinv.deq
      omega
    have hslotp : ∀ t, q.head_index ≤ t / q.S →
        slot_at qp t = if t = q.tail_ENQ then x else slot_at q t := by
      intro t ht
      rw [slot_at_inv hinvp t (by rw [e1, e2]; exact ht), getD_append_one, hslot t ht, henq]
    refine ⟨qp, hput, ?_, ?_, e3, ?_⟩
    · rw [hslot _ hle, henq]
      simp [List.getD_eq_getElem?_getD]
    · rw [hslotp _ hle, if_pos rfl]
    · intro t hne1 ht
      rw [hslotp t ht, if_neg hne1]
  · intro h hh havail
    have hv : (puts ops).getD q.tail_DEQ EMPTY ≠ EMPTY := by
      have hlt : q.tail_DEQ < (puts ops).length := by omega
      have : (puts ops).getD q.tail_DEQ EMPTY = (puts ops)[q.tail_DEQ] := by
        simp [List.getD_eq_getElem?_getD, List.getElem?_eq_getElem hlt]
      rw [this]
      exact hne _ (List.getElem_mem _)
    obtain ⟨q1, addr1, hget, hinv1, _, _, hS1, _, hd1, _, hidx, _, _, _⟩ :=
      fifo_get_spec hinv hh havail hv fuel hfuel
    refine ⟨q1, _, hget, ?_, hv, hd1, ?_⟩
    · rw [hslot _ hinv.head_le]
    · intro t ht
      rw [slot_at_inv hinv1 t (by rw [hS1]; exact ht), hslot t (by omega)]

/-- Witness for C16: the run `demo_ops` (two handles, three puts and one get on a
queue with `S = 2`). -/
theorem slot_state_machine_witness :
    ∃ q out, run 1 (fifo_init 2 2) demo_ops = some (q, out) ∧
      q.tail_ENQ = (puts demo_ops).length ∧ q.tail_DEQ = gets demo_ops ∧
      (∀ t, q.head_index ≤ t / q.S → (slot_at q t ≠ EMPTY ↔ t < q.tail_ENQ)) ∧
      (∀ h ∈ q.plist, ∀ x, ∃ q1, fifo_put q h x = some q1 ∧
        slot_at q q.tail_ENQ = EMPTY ∧ slot_at q1 q.tail_ENQ = x ∧
        q1.tail_ENQ = q.tail_ENQ + 1 ∧
        ∀ t, t ≠ q.tail_ENQ → q.head_index ≤ t / q.S → slot_at q1 t = slot_at q t) ∧
      (∀ h ∈ q.plist, q.tail_DEQ < q.tail_ENQ → ∃ q1 v, fifo_get 1 q h = some (q1, v) ∧
        v = slot_at q q.tail_DEQ ∧ v ≠ EMPTY ∧ q1.tail_DEQ = q.tail_DEQ + 1 ∧
        ∀ t, q1.head_index ≤ t / q.S → slot_at q1 t = slot_at q t) :=
  slot_state_machine 2 2 1 (by decide) (by decide) demo_ops (by decide)

/-! ## The winner flag -/

theorem get_back_quiet {fuel : Nat} {q3 : fifo_t} {h n li : Nat} {hd3 : handle_t}
    (hp : q3.handles h = some hd3) (hw : hd3.winner = false) :
    get_back fuel q3 h n li =
      ((get_cell q3 n li).bind (spin_while fuel)).map
        (fun v => (q3.setHandle h (hd3.set Field.hazard none), v)) := by
  unfold get_back get_cell
  cases q3.heap.read n with
  | none => rfl
  | some nn =>
    simp only [Option.some_bind]
    cases nn.buffer.get? li with
    | none => rfl
    | some cell =>
      simp only [Option.some_bind]
      cases spin_while fuel cell with
      | none => rfl
      | some v =>
        simp [hp, hw, release_hazard]

theorem get_back_winner {fuel : Nat} {q3 : fifo_t} {h n li : Nat} {hd3 : handle_t}
    (hp : q3.handles h = some hd3) (hw : hd3.winner = true) :
    get_back fuel q3 h n li =
      ((get_cell q3 n li).bind (spin_while fuel)).bind (fun v =>
        (cleanup q3 n).bind (fun q5 =>
          (q5.handles h).map (fun hd5 =>
            (q5.setHandle h ({ hd5 with winner := false }.set Field.hazard none), v)))) := by
  unfold get_back get_cell
  cases q3.heap.read n with
  | none => rfl
  | some nn =>
    simp only [Option.some_bind]
    cases nn.buffer.get? li with
    | none => rfl
    | some cell =>
      simp only [Option.some_bind]
      cases spin_while fuel cell with
      | none => rfl
      | some v =>
        simp only [hp, hw, if_true, Option.some_bind]
        cases cleanup q3 n with
        | none => rfl
        | some q5 =>
          simp only [Option.some_bind]
          cases h5 : q5.handles h with
          | none => rfl
          | some hd5 =>
            simp [release_hazard, fifo_t.setHandle]
/-- C17 (winner flag protocol).  `update` returns the flag set iff it was set
before or a fresh segment was installed (a live cell at an address that was not
allocated before), and returns it unchanged when nothing was installed.  In
`fifo_get` the flag after the `update` step is the old flag or-ed with "this
`update` installed a segment"; when it is clear the call finishes in the state
`q3` reached by that step with only the hazard released (no `cleanup`), and
when it is set the call runs `cleanup(fifo, n)` on `q3` and clears the flag;
after every completed `fifo_get` the flag is clear.  `fifo_put` never clears
the flag (it sets it when its `update` installs a segment), leaves `head.node`
and `head.index` alone and frees no segment.  In every state reached by a
well-formed operation-atomic run these calls return for registered handles. -/
theorem winner_protocol (S W0 fuel : Nat) (hS : 0 < S) (hfuel : 0 < fuel) (ops : List Op)
    (hwf : wf_run [] 0 ops = true) :
    (∀ m node to_ size w m1 node1 w1, update m node to_ size w = some (m1, node1, w1) →
      (m.length < m1.length ↔ ∃ a, m.length ≤ a ∧ (m1.read a).isSome = true) ∧
      (w1 = true ↔ w = true ∨ m.length < m1.length) ∧
      (¬ m.length < m1.length → w1 = w)) ∧
    (∀ q h q3 n li hd, get_front q h = some (q3, n, li) → q.handles h = some hd →
      ∃ hd3, q3.handles h = some hd3 ∧
        hd3.winner = (hd.winner || decide (q.heap.length < q3.heap.length)) ∧
        (hd3.winner = false → fifo_get fuel q h =
          ((get_cell q3 n li).bind (spin_while fuel)).map
            (fun v => (q3.setHandle h (hd3.set Field.hazard none), v))) ∧
        (hd3.winner = true → fifo_get fuel q h =
          ((get_cell q3 n li).bind (spin_while fuel)).bind (fun v =>
            (cleanup q3 n).bind (fun q5 =>
              (q5.handles h).map (fun hd5 =>
                (q5.setHandle h ({ hd5 with winner := false }.set Field.hazard none), v)))))) ∧
    (∀ q h q7 v, fifo_get fuel q h = some (q7, v) →
      ∃ hd7, q7.handles h = some hd7 ∧ hd7.winner = false) ∧
    (∀ q h x q1 hd, fifo_put q h x = some q1 → q.handles h = some hd →
      ∃ hd1, q1.handles h = some hd1 ∧ (hd.winner = true → hd1.winner = true) ∧
        hd1.winner = (hd.winner || decide (q.heap.length < q1.heap.length)) ∧
        q1.head_node = q.head_node ∧ q1.head_index = q.head_index ∧
        ∀ a, (q.heap.read a).isSome = true → (q1.heap.read a).isSome = true) ∧
    (∃ q out, run fuel (fifo_init S W0) ops = some (q, out) ∧
      ∀ h ∈ q.plist, (∀ x, ∃ q1, fifo_put q h x = some q1) ∧
        (q.tail_DEQ < q.tail_ENQ →
          ∃ q3 n li q1 v, get_front q h = some (q3, n, li) ∧ fifo_get fuel q h = some (q1, v))) := by
  refine ⟨?_, ?_, ?_, ?_, ?_⟩
  · intro m node to_ size w m1 node1 w1 hu
    obtain ⟨a1, a2, a3, a4⟩ := update_flag hu
    refine ⟨?_, ?_, ?_⟩
    · constructor
      · intro hlt
        exact ⟨m.length, Nat.le_refl _, a3 _ (Nat.le_refl _) hlt⟩
      · rintro ⟨a, ha, hs⟩
        cases hr : m1.read a with
        | none => simp [hr] at hs
        | some x =>
          have := read_lt hr
          omega
    · rw [a4]
      simp
    · intro hn
      rw [a4]
      simp [hn]
  · intro q h q3 n li hd hf hp
    obtain ⟨hd3, b1, b2, _, _, _⟩ := get_front_flag hf hp
    refine ⟨hd3, b1, b2, ?_, ?_⟩
    · intro hw
      rw [fifo_get_eq, hf]
      exact get_back_quiet b1 hw
    · intro hw
      rw [fifo_get_eq, hf]
      exact get_back_winner b1 hw
  · intro q h q7 v hg
    obtain ⟨hd7, c1, c2, _⟩ := fifo_get_flag hg
    exact ⟨hd7, c1, c2⟩
  · intro q h x q1 hd hput hp
    obtain ⟨hd1, d1, d2, d3, d4, d5, _, _⟩ := fifo_put_flag hput hp
    refine ⟨hd1, d1, ?_, d2, d3, d4, d5⟩
    intro hw
    rw [d2, hw]
    rfl
  · obtain ⟨q, addr, hi, hrun, hinv, hne, _, _, _, _⟩ :=
      run_spec fuel hfuel ops (fifo_init S W0) [] (fun _ => 0) 1 [] 0 (fifo_init_inv S W0 hS)
        (by intro x hx; cases hx) rfl rfl hwf
    simp only [List.nil_append] at hinv hne
    refine ⟨q, _, hrun, ?_⟩
    intro h hh
    constructor
    · intro x
      obtain ⟨qp, _, _, _, _, _, _, _, hput, _⟩ := fifo_put_spec hinv hh x
      exact ⟨qp, hput⟩
    · intro havail
      have henq := hinv.enq
      have hv : (puts ops).getD q.tail_DEQ EMPTY ≠ EMPTY := by
        have hlt : q.tail_DEQ < (puts ops).length := by omega
        have : (puts ops).getD q.tail_DEQ EMPTY = (puts ops)[q.tail_DEQ] := by
          simp [List.getD_eq_getElem?_getD, List.getElem?_eq_getElem hlt]
        rw [this]
        exact hne _ (List.getElem_mem _)
      obtain ⟨q1, addr1, hget, _⟩ := fifo_get_spec hinv hh havail hv fuel hfuel
      obtain ⟨_, _, _, _, _, _, _, _, _, _, _, hfront⟩ := get_front_walk hinv hh havail
      exact ⟨_, _, _, q1, _, hfront, hget⟩

/-- Witness for C17: the run `demo_ops` on a queue with `S = 2`, `W = 2`. -/
theorem winner_protocol_witness :
    (∀ m node to_ size w m1 node1 w1, update m node to_ size w = some (m1, node1, w1) →
      (m.length < m1.length ↔ ∃ a, m.length ≤ a ∧ (m1.read a).isSome = true) ∧
      (w1 = true ↔ w = true ∨ m.length < m1.length) ∧
      (¬ m.length < m1.length → w1 = w)) ∧
    (∀ q h q3 n li hd, get_front q h = some (q3, n, li) → q.handles h = some hd →
      ∃ hd3, q3.handles h = some hd3 ∧
        hd3.winner = (hd.winner || decide (q.heap.length < q3.heap.length)) ∧
        (hd3.winner = false → fifo_get 1 q h =
          ((get_cell q3 n li).bind (spin_while 1)).map
            (fun v => (q3.setHandle h (hd3.set Field.hazard none), v))) ∧
        (hd3.winner = true → fifo_get 1 q h =
          ((get_cell q3 n li).bind (spin_while 1)).bind (fun v =>
            (cleanup q3 n).bind (fun q5 =>
              (q5.handles h).map (fun hd5 =>
                (q5.setHandle h ({ hd5 with winner := false }.set Field.hazard none), v)))))) ∧
    (∀ q h q7 v, fifo_get 1 q h = some (q7, v) →
      ∃ hd7, q7.handles h = some hd7 ∧ hd7.winner = false) ∧
    (∀ q h x q1 hd, fifo_put q h x = some q1 → q.handles h = some hd →
      ∃ hd1, q1.handles h = some hd1 ∧ (hd.winner = true → hd1.winner = true) ∧
        hd1.winner = (hd.winner || decide (q.heap.length < q1.heap.length)) ∧
        q1.head_node = q.head_node ∧ q1.head_index = q.head_index ∧
        ∀ a, (q.heap.read a).isSome = true → (q1.heap.read a).isSome = true) ∧
    (∃ q out, run 1 (fifo_init 2 2) demo_ops = some (q, out) ∧
      ∀ h ∈ q.plist, (∀ x, ∃ q1, fifo_put q h x = some q1) ∧
        (q.tail_DEQ < q.tail_ENQ →
          ∃ q3 n li q1 v, get_front q h = some (q3, n, li) ∧ fifo_get 1 q h = some (q1, v))) :=
  winner_protocol 2 2 1 (by decide) (by decide) demo_ops (by decide)

/-! ## Counting live segments -/

theorem live_count_card (m : Heap) :
    live_count m =
      ((Finset.range m.length).filter (fun a => (m.read a).isSome = true)).card := by
  unfold live_count
  rw [Finset.card_def, Finset.filter_val, Finset.range_val, Multiset.range,
    Multiset.filter_coe, Multiset.coe_card]
  congr 1
  apply List.filter_congr
  intro a _
  simp

theorem live_count_le {m : Heap} {addr : Nat → Nat} {lo hi : Nat}
    (hex : ∀ a n, m.read a = some n → lo ≤ n.id ∧ n.id < hi ∧ a = addr n.id) :
    live_count m ≤ hi - lo := by
  rw [live_count_card]
  have h := Finset.card_le_card_of_injOn
    (s := (Finset.range m.length).filter (fun a => (m.read a).isSome = true))
    (t := Finset.Ico lo hi) (fun a => ((m.read a).map node_t.id).getD 0)
    (by
      intro a ha
      have ha1 := (Finset.mem_filter.mp ha).2
      cases hr : m.read a with
      | none => simp [hr] at ha1
      | some n =>
        obtain ⟨h1, h2, _⟩ := hex a n hr
        show ((m.read a).map node_t.id).getD 0 ∈ Finset.Ico lo hi
        rw [hr]
        exact Finset.mem_Ico.mpr ⟨h1, h2⟩)
    (by
      intro a ha b hb hab
      have ha1 := (Finset.mem_filter.mp ha).2
      have hb1 := (Finset.mem_filter.mp hb).2
      cases hra : m.read a with
      | none => simp [hra] at ha1
      | some n =>
        cases hrb : m.read b with
        | none => simp [hrb] at hb1
        | some n1 =>
          have hab1 : ((m.read a).map node_t.id).getD 0 = ((m.read b).map node_t.id).getD 0 :=
            hab
          rw [hra, hrb] at hab1
          have hab2 : n.id = n1.id := hab1
          obtain ⟨_, _, e1⟩ := hex a n hra
          obtain ⟨_, _, e2⟩ := hex b n1 hrb
          rw [e1, e2, hab2])
  simpa using h

theorem live_count_all {m : Heap} (hl : ∀ a, a < m.length → (m.read a).isSome = true) :
    live_count m = m.length := by
  unfold live_count
  rw [List.filter_eq_self.mpr]
  · simp
  · intro a ha
    exact hl a (List.mem_range.mp ha)

theorem segs_chain {m : Heap} {addr : Nat → Nat} {lo hi : Nat} {B : Nat → List Nat}
    (hc : ChainB m addr lo hi B) :
    ∀ (fuel k : Nat), lo ≤ k → k < hi → hi - k ≤ fuel →
      segs m fuel (addr k) = List.range' k (hi - k) := by
  intro fuel
  induction fuel with
  | zero =>
    intro k _ h1 h2
    omega
  | succ f ih =>
    intro k hlk hk hf
    rw [segs, hc k hk hlk]
    have e : hi - k = (hi - (k + 1)) + 1 := by omega
    rw [e, List.range'_succ]
    by_cases hn : k + 1 < hi
    · simp only [hn, if_true]
      rw [ih (k + 1) (by omega) hn (by omega)]
    · have e0 : hi - (k + 1) = 0 := by omega
      simp [hn, e0]
/-! ## Runs without reclamation -/

theorem get_cell_inv {q : fifo_t} {items : List Nat} {addr : Nat → Nat} {hi : Nat}
    (hinv : Inv q items addr hi) {i : Nat} (hlo : q.head_index ≤ i / q.S) (hhi : i / q.S < hi)
    (q3 : fifo_t) (hheap : q3.heap = q.heap) :
    get_cell q3 (addr (i / q.S)) (i % q.S) = some (items.getD i EMPTY) := by
  have hS := hinv.spos
  unfold get_cell
  rw [hheap, hinv.chain _ hhi hlo]
  simp only [Option.some_bind]
  rw [slots_get _ _ _ _ (Nat.mod_lt _ hS)]
  have : i / q.S * q.S + i % q.S = i := by
    rw [Nat.mul_comm]
    exact Nat.div_add_mod _ _
  rw [this]

theorem fifo_get_quiet {q : fifo_t} {items : List Nat} {addr : Nat → Nat} {hi : Nat}
    (hinv : Inv q items addr hi) {h : Nat} (hh : h ∈ q.plist) (havail : q.tail_DEQ < q.tail_ENQ)
    (hval : items.getD q.tail_DEQ EMPTY ≠ EMPTY) (fuel : Nat) (hfuel : 0 < fuel) :
    ∃ k0 k1 w,
      q.handles h = some { hazard := none, node0 := addr k0, node1 := addr k1, winner := w } ∧
      q.tail_DEQ / q.S < hi ∧
      (w = false → fifo_get fuel q h = some ({ q with
          tail_DEQ := q.tail_DEQ + 1
          handles := Function.update q.handles h (some
            { hazard := none, node0 := addr k0,
              node1 := addr (q.tail_DEQ / q.S), winner := false }) },
        items.getD q.tail_DEQ EMPTY)) := by
  obtain ⟨k0, k1, w, hp, hl0, hk0, hb0, hl1, hk1, hb1, hdh, hfront⟩ :=
    get_front_walk hinv hh havail
  refine ⟨k0, k1, w, hp, hdh, ?_⟩
  intro hw
  subst hw
  rw [fifo_get_eq, hfront]
  simp only []
  rw [@get_back_quiet fuel
    { q with
      tail_DEQ := q.tail_DEQ + 1
      handles := Function.update q.handles h (some
        { hazard := some (addr k1), node0 := addr k0,
          node1 := addr (q.tail_DEQ / q.S), winner := false }) }
    h (addr (q.tail_DEQ / q.S)) (q.tail_DEQ % q.S)
    { hazard := some (addr k1), node0 := addr k0,
      node1 := addr (q.tail_DEQ / q.S), winner := false }
    (Function.update_same _ _ _) rfl]
  rw [get_cell_inv hinv hinv.head_le hdh
    { q with
      tail_DEQ := q.tail_DEQ + 1
      handles := Function.update q.handles h (some
        { hazard := some (addr k1), node0 := addr k0,
          node1 := addr (q.tail_DEQ / q.S), winner := false }) } rfl]
  simp only [Option.some_bind, spin_while_some fuel hfuel _ hval, Option.map_some',
    fifo_t.setHandle, handle_t.set, Function.update_idem]
theorem norec_run (fuel : Nat) (hfuel : 0 < fuel) (G : List Nat) :
    ∀ (ops : List Op) (q : fifo_t) (items : List Nat) (addr : Nat → Nat) (hi : Nat)
      (reg : List Nat) (avail : Nat),
      Inv q items addr hi → (∀ x ∈ items, x ≠ EMPTY) → q.plist = reg →
      q.tail_DEQ + avail = q.tail_ENQ → wf_run reg avail ops = true →
      role_split G ops = true → NoRec q G hi →
      ∃ q1 addr1 hi1 out, run fuel q ops = some (q1, out) ∧
        Inv q1 (items ++ puts ops) addr1 hi1 ∧ NoRec q1 G hi1 ∧
        (∀ x ∈ items ++ puts ops, x ≠ EMPTY) ∧ q1.S = q.S := by
  intro ops
  induction ops with
  | nil =>
    intro q items addr hi reg avail hinv hne hreg _ _ _ hnr
    refine ⟨q, addr, hi, [], rfl, ?_, hnr, ?_, rfl⟩
    · simpa [puts] using hinv
    · simpa [puts] using hne
  | cons op ops ih =>
    intro q items addr hi reg avail hinv hne hreg hav hwf hrole hnr
    cases op with
    | register h =>
      simp only [wf_run, Bool.and_eq_true, decide_eq_true_eq] at hwf
      simp only [role_split] at hrole
      have hnr1 : NoRec (fifo_register q h) G hi := by
        refine ⟨hnr.index, hnr.node, ?_, hnr.live, hnr.top⟩
        intro g hg hd hhd
        by_cases e : g = h
        · subst e
          simp only [fifo_register, Function.update_same, Option.some.injEq] at hhd
          rw [← hhd]
        · simp only [fifo_register, Function.update_noteq e] at hhd
          exact hnr.quiet g hg hd hhd
      obtain ⟨q1, addr1, hi1, out, hrun, hinv1, hnr2, hne1, hs1⟩ :=
        ih (fifo_register q h) items addr hi (h :: reg) avail (fifo_register_inv hinv h) hne
          (by simp [fifo_register, hreg]) hav hwf.2 hrole hnr1
      have hnot : h ∉ q.plist := by rw [hreg]; exact hwf.1
      refine ⟨q1, addr1, hi1, [] ++ out, ?_, hinv1, hnr2, hne1, hs1⟩
      simp only [run, step, hnot, if_false]
      rw [hrun]
    | unregister h =>
      simp only [wf_run, Bool.and_eq_true, decide_eq_true_eq] at hwf
      simp only [role_split] at hrole
      have hmem : h ∈ q.plist := by rw [hreg]; exact hwf.1
      have hun := fifo_unregister_spec q hinv.lock h hmem
      have hnr1 : NoRec { q with W := size_sub q.W 1, plist := q.plist.erase h } G hi :=
        ⟨hnr.index, hnr.node, hnr.quiet, hnr.live, hnr.top⟩
      obtain ⟨q1, addr1, hi1, out, hrun, hinv1, hnr2, hne1, hs1⟩ :=
        ih { q with W := size_sub q.W 1, plist := q.plist.erase h } items addr hi (reg.erase h)
          avail (fifo_unregister_inv hinv h) hne (by simp [hreg]) hav hwf.2 hrole hnr1
      refine ⟨q1, addr1, hi1, [] ++ out, ?_, hinv1, hnr2, hne1, hs1⟩
      simp only [run, step, hun, Option.map_some']
      rw [hrun]
    | put h x =>
      simp only [wf_run, Bool.and_eq_true, decide_eq_true_eq] at hwf
      simp only [role_split, Bool.and_eq_true, decide_eq_true_eq] at hrole
      have hmem : h ∈ q.plist := by rw [hreg]; exact hwf.1.1
      obtain ⟨qp, m1, addrp, k0, k1, w, hp, _, hput, hqp, _, hinvp⟩ :=
        fifo_put_spec hinv hmem x
      obtain ⟨_, _, _, _, _, f5, f6, _⟩ := fifo_put_flag hput hp
      have hnep : ∀ y ∈ items ++ [x], y ≠ EMPTY := by
        intro y hy
        rcases List.mem_append.mp hy with h1 | h1
        · exact hne y h1
        · simp only [List.mem_singleton] at h1
          rw [h1]
          exact hwf.1.2
      have e1 : qp.plist = reg := by rw [hqp]; exact hreg
      have e2 : qp.tail_DEQ + (avail + 1) = qp.tail_ENQ := by
        rw [hqp]
        show q.tail_DEQ + (avail + 1) = q.tail_ENQ + 1
        omega
      have e4 : qp.S = q.S := by rw [hqp]
      have e7 : qp.tail_ENQ = q.tail_ENQ + 1 := by rw [hqp]
      have hnrp : NoRec qp G (max hi (q.tail_ENQ / q.S + 1)) := by
        refine ⟨?_, ?_, ?_, ?_, ?_⟩
        · rw [hqp]; exact hnr.index
        · rw [hqp]; exact hnr.node
        · intro g hg hd hhd
          have e : g ≠ h := fun e => hrole.1 (e ▸ hg)
          rw [hqp] at hhd
          simp only [Function.update_noteq e] at hhd
          exact hnr.quiet g hg hd hhd
        · intro a ha
          by_cases hlt : a < q.heap.length
          · exact f5 a (hnr.live a hlt)
          · exact f6 a (by omega) ha
        · rw [e7, e4, hnr.top]
          have : (q.tail_ENQ - 1) / q.S ≤ q.tail_ENQ / q.S :=
            Nat.div_le_div_right (Nat.sub_le _ _)
          have e8 : q.tail_ENQ + 1 - 1 = q.tail_ENQ := by omega
          rw [e8]
          omega
      obtain ⟨q1, addr1, hi1, out, hrun, hinv1, hnr2, hne1, hs1⟩ :=
        ih qp (items ++ [x]) addrp _ reg (avail + 1) hinvp hnep e1 e2 hwf.2 hrole.2 hnrp
      have e6 : items ++ [x] ++ puts ops = items ++ puts (Op.put h x :: ops) := by
        simp [puts]
      rw [e6] at hinv1 hne1
      refine ⟨q1, addr1, hi1, [] ++ out, ?_, hinv1, hnr2, hne1, hs1.trans e4⟩
      simp only [run, step, hput, Option.map_some']
      rw [hrun]
    | get h =>
      simp only [wf_run, Bool.and_eq_true, decide_eq_true_eq] at hwf
      simp only [role_split, Bool.and_eq_true, decide_eq_true_eq] at hrole
      have hmem : h ∈ q.plist := by rw [hreg]; exact hwf.1.1
      have havail : q.tail_DEQ < q.tail_ENQ := by
        have := hwf.1.2
        omega
      have hval : items.getD q.tail_DEQ EMPTY ≠ EMPTY := by
        have hlt : q.tail_DEQ < items.length := by rw [← hinv.enq]; exact havail
        rw [List.getD_eq_getElem _ _ hlt]
        exact hne _ (List.getElem_mem _)
      obtain ⟨qg, addrg, hget, hinvg, g1, _, g3, g4, g5, _, g7, _, _, _⟩ :=
        fifo_get_spec hinv hmem havail hval fuel hfuel
      obtain ⟨k0, k1, w, hp, hdh, hq⟩ := fifo_get_quiet hinv hmem havail hval fuel hfuel
      have hw : w = false := hnr.quiet h hrole.1 _ hp
      have hq1 := hq hw
      rw [hget] at hq1
      simp only [Option.some.injEq, Prod.mk.injEq] at hq1
      have hqg := hq1.1
      have hnrg : NoRec qg G (max hi (q.tail_DEQ / q.S + 1)) := by
        refine ⟨?_, ?_, ?_, ?_, ?_⟩
        · rw [hqg]; exact hnr.index
        · rw [hqg]; exact hnr.node
        · intro g hg hd hhd
          rw [hqg] at hhd
          by_cases e : g = h
          · subst e
            simp only [Function.update_same, Option.some.injEq] at hhd
            rw [← hhd]
          · simp only [Function.update_noteq e] at hhd
            exact hnr.quiet g hg hd hhd
        · rw [hqg]; exact hnr.live
        · rw [g4, g3, ← hnr.top]
          omega
      obtain ⟨q1, addr1, hi1, out, hrun, hinv1, hnr2, hne1, hs1⟩ :=
        ih qg items addrg _ reg (avail - 1) hinvg hne (g1.trans hreg) (by rw [g4, g5]; omega)
          hwf.2 hrole.2 hnrg
      have e6 : puts (Op.get h :: ops) = puts ops := rfl
      refine ⟨q1, addr1, hi1, [items.getD q.tail_DEQ EMPTY] ++ out, ?_, by rw [e6]; exact hinv1,
        hnr2, by rw [e6]; exact hne1, hs1.trans g3⟩
      simp only [run, step, hget, Option.map_some', hrun]
theorem norec_init (S W0 : Nat) (G : List Nat) : NoRec (fifo_init S W0) G 1 := by
  refine ⟨rfl, rfl, ?_, ?_, ?_⟩
  · intro h _ hd hhd
    cases hhd
  · intro a ha
    have h0 : a = 0 := by
      simp only [fifo_init, new_node, List.nil_append, List.length_singleton] at ha
      omega
    subst h0
    rfl
  · simp [fifo_init]

/-- C18 (no reclamation with disjoint producer and consumer handles): in every
well-formed operation-atomic run from `fifo_init(S, W)` in which the handles in
`G` only call `fifo_get` and all other handles only call `fifo_put`, the state
reached has `head.index = 0` and the initial `head.node`, every handle in `G`
has a clear winner flag, no allocated cell has been freed, and with `n` the
number of puts the segment list from `head.node` is exactly the segments with
ids `0, ..., (n - 1) / S`, which are all the cells ever allocated.  A `get` by a
handle in `G` finds its winner flag clear after the `update` step, so it
returns without calling `cleanup`: memory, `head.index` and the other handles
are unchanged. -/
theorem no_reclamation (S W0 fuel : Nat) (hS : 0 < S) (hfuel : 0 < fuel) (G : List Nat)
    (ops : List Op) (hwf : wf_run [] 0 ops = true) (hrole : role_split G ops = true) :
    ∃ q out, run fuel (fifo_init S W0) ops = some (q, out) ∧
      q.head_index = 0 ∧ q.head_node = (fifo_init S W0).head_node ∧
      (∀ h ∈ G, ∀ hd, q.handles h = some hd → hd.winner = false) ∧
      (∀ a, a < q.heap.length → (q.heap.read a).isSome = true) ∧
      q.heap.length = ((puts ops).length - 1) / S + 1 ∧
      seg_list q = List.range (((puts ops).length - 1) / S + 1) ∧
      (∀ h ∈ q.plist, h ∈ G → q.tail_DEQ < q.tail_ENQ →
        ∃ q3 n li hd3 q1 v, get_front q h = some (q3, n, li) ∧ q3.handles h = some hd3 ∧
          hd3.winner = false ∧ fifo_get fuel q h = some (q1, v) ∧
          q1.heap = q.heap ∧ q1.head_index = 0 ∧ q1.head_node = q.head_node ∧
          ∀ g, g ≠ h → q1.handles g = q.handles g) := by
  obtain ⟨q, addr, hi, out, hrun, hinv, hnr, hne, hs⟩ :=
    norec_run fuel hfuel G ops (fifo_init S W0) [] (fun _ => 0) 1 [] 0 (fifo_init_inv S W0 hS)
      (by intro x hx; cases hx) rfl rfl hwf hrole (norec_init S W0 G)
  simp only [List.nil_append] at hinv hne
  have hS1 : q.S = S := hs
  have henq := hinv.enq
  have hhi : hi = ((puts ops).length - 1) / S + 1 := by
    rw [hnr.top, henq, hS1]
  have hchain : ChainB q.heap addr 0 hi (slots q.S (puts ops)) := by
    have := hinv.chain
    rw [hnr.index] at this
    exact this
  have hlen : q.heap.length = hi := by
    have h1 := chain_card hchain
    have h2 : live_count q.heap ≤ hi - 0 := by
      apply @live_count_le _ addr
      intro a n hr
      have := hinv.exact a n hr
      rw [hnr.index] at this
      exact this
    rw [live_count_all hnr.live] at h2
    omega
  have hpos : 0 < hi := by rw [hhi]; exact Nat.succ_pos _
  refine ⟨q, out, hrun, hnr.index, hnr.node, hnr.quiet, hnr.live, ?_, ?_, ?_⟩
  · rw [hlen, hhi]
  · unfold seg_list
    have hhead : q.head_node = addr 0 := by
      rw [hinv.head, hnr.index]
    rw [hhead, segs_chain hchain q.heap.length 0 (Nat.le_refl _) hpos (by omega), ← hhi,
      List.range_eq_range', Nat.sub_zero]
  · intro h hh hG havail
    have hval : (puts ops).getD q.tail_DEQ EMPTY ≠ EMPTY := by
      have hlt : q.tail_DEQ < (puts ops).length := by rw [← henq]; exact havail
      rw [List.getD_eq_getElem _ _ hlt]
      exact hne _ (List.getElem_mem _)
    obtain ⟨k0, k1, w, hp, hdh, hq⟩ := fifo_get_quiet hinv hh havail hval fuel hfuel
    have hw : w = false := hnr.quiet h hG _ hp
    obtain ⟨j0, j1, w1, hp1, _, _, _, _, _, _, _, hfront⟩ := get_front_walk hinv hh havail
    rw [hp] at hp1
    simp only [Option.some.injEq, handle_t.mk.injEq] at hp1
    obtain ⟨_, e0, e1, ew⟩ := hp1
    refine ⟨_, _, _, _, _, _, hfront, Function.update_same _ _ _, ?_, hq hw, rfl, hnr.index, rfl, ?_⟩
    · show w1 = false
      rw [← ew]
      exact hw
    · intro g hg
      exact Function.update_noteq hg _ _

/-- Witness for C18: `S = 2`, handle `7` puts five items, then handle `8` gets
them: segments `0`, `1`, `2` are all still allocated. -/
theorem no_reclamation_witness :
    ∃ q out, run 1 (fifo_init 2 2)
        [Op.register 7, Op.register 8, Op.put 7 1, Op.put 7 2, Op.put 7 3, Op.put 7 4,
          Op.put 7 5, Op.get 8, Op.get 8, Op.get 8, Op.get 8, Op.get 8] = some (q, out) ∧
      q.head_index = 0 ∧ q.head_node = (fifo_init 2 2).head_node ∧
      (∀ h ∈ [8], ∀ hd, q.handles h = some hd → hd.winner = false) ∧
      (∀ a, a < q.heap.length → (q.heap.read a).isSome = true) ∧
      q.heap.length = ((puts
        [Op.register 7, Op.register 8, Op.put 7 1, Op.put 7 2, Op.put 7 3, Op.put 7 4,
          Op.put 7 5, Op.get 8, Op.get 8, Op.get 8, Op.get 8, Op.get 8]).length - 1) / 2 + 1 ∧
      seg_list q = List.range (((puts
        [Op.register 7, Op.register 8, Op.put 7 1, Op.put 7 2, Op.put 7 3, Op.put 7 4,
          Op.put 7 5, Op.get 8, Op.get 8, Op.get 8, Op.get 8, Op.get 8]).length - 1) / 2 + 1) ∧
      (∀ h ∈ q.plist, h ∈ [8] → q.tail_DEQ < q.tail_ENQ →
        ∃ q3 n li hd3 q1 v, get_front q h = some (q3, n, li) ∧ q3.handles h = some hd3 ∧
          hd3.winner = false ∧ fifo_get 1 q h = some (q1, v) ∧
          q1.heap = q.heap ∧ q1.head_index = 0 ∧ q1.head_node = q.head_node ∧
          ∀ g, g ≠ h → q1.handles g = q.handles g) :=
  no_reclamation 2 2 1 (by decide) (by decide) [8]
    [Op.register 7, Op.register 8, Op.put 7 1, Op.put 7 2, Op.put 7 3, Op.put 7 4,
      Op.put 7 5, Op.get 8, Op.get 8, Op.get 8, Op.get 8, Op.get 8] (by decide) (by decide)

/-! ## A lone thread making round trips -/

theorem fifo_get_winner {q : fifo_t} {items : List Nat} {addr : Nat → Nat} {hi : Nat}
    (hinv : Inv q items addr hi) {h : Nat} {q3 q5 : fifo_t} {hd3 hd5 : handle_t}
    (hfront : get_front q h = some (q3, addr (q.tail_DEQ / q.S), q.tail_DEQ % q.S))
    (hheap : q3.heap = q.heap) (hdh : q.tail_DEQ / q.S < hi)
    (hp3 : q3.handles h = some hd3) (hw : hd3.winner = true)
    (hcl : cleanup q3 (addr (q.tail_DEQ / q.S)) = some q5) (h5 : q5.handles h = some hd5)
    (hval : items.getD q.tail_DEQ EMPTY ≠ EMPTY) (fuel : Nat) (hfuel : 0 < fuel) :
    fifo_get fuel q h =
      some (q5.setHandle h ({ hd5 with winner := false }.set Field.hazard none),
        items.getD q.tail_DEQ EMPTY) := by
  rw [fifo_get_eq, hfront]
  simp only []
  rw [get_back_winner hp3 hw, get_cell_inv hinv hinv.head_le hdh q3 hheap]
  simp only [Option.some_bind, spin_while_some fuel hfuel _ hval, hcl, h5, Option.map_some']

theorem div_le_pred_div_succ (E S : Nat) (hS : 0 < S) : E / S ≤ (E - 1) / S + 1 := by
  have h1 : E ≤ (E - 1) + S := by omega
  have h2 := Nat.div_le_div_right (c := S) h1
  rw [Nat.add_div_right _ hS] at h2
  exact h2

theorem lone_live {q : fifo_t} {h W0 : Nat} {items : List Nat} {addr : Nat → Nat} {hi : Nat}
    (hl : Lone q h W0 items addr hi) : live_count q.heap ≤ max (2 * W0 + 1) 2 := by
  have h1 : live_count q.heap ≤ hi - q.head_index := live_count_le hl.inv.exact
  have h2 := hl.bound
  omega
theorem lone_trip {q : fifo_t} {h W0 : Nat} {items : List Nat} {addr : Nat → Nat} {hi : Nat}
    (hl : Lone q h W0 items addr hi) (x : Nat) (hx : x ≠ EMPTY) (hW : 2 * W0 < 2 ^ 31)
    (hE : q.tail_ENQ + 1 < 2 ^ 64) (fuel : Nat) (hfuel : 0 < fuel) :
    ∃ qp q2 addr2 hi2, fifo_put q h x = some qp ∧ live_count qp.heap ≤ max (2 * W0 + 2) 3 ∧
      fifo_get fuel qp h = some (q2, x) ∧ Lone q2 h W0 (items ++ [x]) addr2 hi2 ∧
      q2.S = q.S ∧ q2.tail_ENQ = q.tail_ENQ + 1 := by
  have hinv := hl.inv
  have hS := hinv.spos
  have hh : h ∈ q.plist := by rw [hl.plist]; exact List.mem_cons_self _ _
  obtain ⟨a0, hhd⟩ := hl.handle
  obtain ⟨qp, m1, addr1, k0, k1, w, hp, hb0, hput, hqp, hadd, hinvp⟩ := fifo_put_spec hinv hh x
  rw [hhd] at hp
  simp only [Option.some.injEq, handle_t.mk.injEq, true_and] at hp
  obtain ⟨e0, e1, ew⟩ := hp
  subst ew
  have hlt := hinv.lt
  have htop := hl.top
  have hc1 : (q.tail_ENQ - 1) / q.S ≤ q.tail_ENQ / q.S := Nat.div_le_div_right (Nat.sub_le _ _)
  have hc2 := div_le_pred_div_succ q.tail_ENQ q.S hS
  have hc3 : q.tail_ENQ / q.S ≤ q.tail_ENQ := Nat.div_le_self _ _
  have hmax : max hi (q.tail_ENQ / q.S + 1) = q.tail_ENQ / q.S + 1 := by omega
  rw [hmax] at hinvp
  have eS : qp.S = q.S := by rw [hqp]
  have eI : qp.head_index = q.head_index := by rw [hqp]
  have eE : qp.tail_ENQ = q.tail_ENQ + 1 := by rw [hqp]
  have eD : qp.tail_DEQ = q.tail_ENQ := by rw [hqp]; exact hl.deq
  have eP : qp.plist = [h] := by rw [hqp]; exact hl.plist
  have eW : qp.W = W0 := by rw [hqp]; exact hl.width
  have hph : qp.handles h = some
      { hazard := none, node0 := addr1 (q.tail_ENQ / q.S), node1 := addr1 (hi - 1),
        winner := decide (hi ≤ q.tail_ENQ / q.S) } := by
    rw [hqp]
    simp only [Function.update_same, Bool.false_or]
    rw [← e1, hadd (hi - 1) (by omega)]
  have hlivep : live_count qp.heap ≤ max (2 * W0 + 2) 3 := by
    have h1 : live_count qp.heap ≤ (q.tail_ENQ / q.S + 1) - qp.head_index :=
      live_count_le hinvp.exact
    have h2 := hl.bound
    rw [eI] at h1
    omega
  have hhp : h ∈ qp.plist := by rw [eP]; exact List.mem_cons_self _ _
  have havail : qp.tail_DEQ < qp.tail_ENQ := by rw [eD, eE]; omega
  have hvalx : (items ++ [x]).getD qp.tail_DEQ EMPTY = x := by
    rw [getD_append_one, eD, hinv.enq, if_pos rfl]
  have hval : (items ++ [x]).getD qp.tail_DEQ EMPTY ≠ EMPTY := by rw [hvalx]; exact hx
  have hdq : qp.tail_DEQ / qp.S = q.tail_ENQ / q.S := by rw [eD, eS]
  obtain ⟨q2, addr2, hget, hinv2, g1, g2, g3, g4, g5, _, _, ⟨b0, g8⟩, _, _⟩ :=
    fifo_get_spec hinvp hhp havail hval fuel hfuel
  rw [hdq, Nat.max_self] at hinv2
  rw [hdq] at g8
  rw [hvalx] at hget
  have hne2 : ∀ y ∈ items ++ [x], y ≠ EMPTY := by
    intro y hy
    rcases List.mem_append.mp hy with h1 | h1
    · exact hl.ne y h1
    · simp only [List.mem_singleton] at h1
      rw [h1]
      exact hx
  have hbound : (q.tail_ENQ / q.S + 1) - q2.head_index ≤ max (2 * W0 + 1) 2 := by
    by_cases hcase : hi ≤ q.tail_ENQ / q.S
    · obtain ⟨j0, j1, w1, q3, q5, t, hpj, hl0, hk0, _, hl1, hk1, _, hdh, hq3, hfront, hcl, hpost,
        hpass, hfail⟩ := cleanup_at_get hinvp hhp havail
      rw [hph] at hpj
      simp only [Option.some.injEq, handle_t.mk.injEq, true_and, hcase, decide_True] at hpj
      obtain ⟨_, ej1, ew1⟩ := hpj
      subst ew1
      rw [eI] at hl1 hl0
      have hj1 : j1 = hi - 1 :=
        (chainB_id hinvp.chain (by omega) (by rw [eI]; omega) hk1 (by rw [eI]; exact hl1) ej1).symm
      rw [hdq] at hdh hpost hpass hfail hfront hcl hq3
      rw [eI] at hpost
      have hp3 : q3.handles h = some
          { hazard := some (addr1 j1), node0 := addr1 j0,
            node1 := addr1 (q.tail_ENQ / q.S), winner := true } := by
        rw [hq3]
        exact Function.update_same _ _ _
      have hheap3 : q3.heap = qp.heap := by rw [hq3]
      have hidx3 : q3.head_index = q.head_index := by rw [hq3]; exact eI
      have hW3 : q3.W = W0 := by rw [hq3]; exact eW
      obtain ⟨hd5, h5, _⟩ := hpost.adv h _ hp3
      have hfront1 : get_front qp h =
          some (q3, addr1 (qp.tail_DEQ / qp.S), qp.tail_DEQ % qp.S) := by
        rw [hdq]
        exact hfront
      have hgw := fifo_get_winner hinvp hfront1 hheap3 (by rw [hdq]; exact hdh) hp3 rfl
        (by rw [hdq]; exact hcl) h5 hval fuel hfuel
      rw [hvalx, hget] at hgw
      simp only [Option.some.injEq, Prod.mk.injEq, and_true] at hgw
      have hidx2 : q2.head_index = q5.head_index := by rw [hgw]; rfl
      rw [hidx2]
      by_cases hg : q3.head_index ≠ SIZE_MAX ∧
          size_sub (q.tail_ENQ / q.S) q3.head_index > threshold q3.W
      · obtain ⟨ht, hfl⟩ := hpass hg.1 hg.2
        rw [ht]
        have h1 := hpost.lo_le
        have h2 := hpost.le_c
        rcases hfl with e | ⟨h1', hh1, hd, ehd, ehz⟩
        · omega
        · rw [eP] at hh1
          have eh : h1' = h := List.mem_singleton.mp hh1
          subst eh
          rw [hp3] at ehd
          cases ehd
          simp only [Option.some.injEq] at ehz
          have : j1 = t :=
            chainB_id hinvp.chain hk1 (by rw [eI]; exact hl1) (by omega) (by rw [eI]; exact h1) ehz
          omega
      · have e5 : q5 = q3 := hfail hg
        rw [e5, hidx3]
        rw [hidx3, hW3] at hg
        have hle : q.head_index ≤ q.tail_ENQ / q.S := by omega
        have hsm : q.head_index ≠ SIZE_MAX := by
          have : SIZE_MAX = 2 ^ 64 - 1 := rfl
          omega
        have hthr : ¬ size_sub (q.tail_ENQ / q.S) q.head_index > threshold W0 :=
          fun e => hg ⟨hsm, e⟩
        rw [size_sub_le hle (by omega), threshold_small hW] at hthr
        omega
    · obtain ⟨j0, j1, w1, hpj, hdh, hq⟩ := fifo_get_quiet hinvp hhp havail hval fuel hfuel
      rw [hph] at hpj
      simp only [Option.some.injEq, handle_t.mk.injEq, true_and, hcase, decide_False] at hpj
      obtain ⟨_, _, ew1⟩ := hpj
      have hq1 := hq ew1.symm
      rw [hvalx, hget] at hq1
      simp only [Option.some.injEq, Prod.mk.injEq, and_true] at hq1
      have hidx2 : q2.head_index = q.head_index := by rw [hq1]; exact eI
      rw [hidx2]
      have h2 := hl.bound
      omega
  refine ⟨qp, q2, addr2, q.tail_ENQ / q.S + 1, hput, hlivep, hget, ?_, g3.trans eS, g4.trans eE⟩
  refine ⟨hinv2, hne2, g1.trans eP, g2.trans eW, ?_, ?_, ⟨b0, ?_⟩, hbound⟩
  · rw [g5, g4, eD, eE]
  · rw [g4, eE, g3, eS]
    have : q.tail_ENQ + 1 - 1 = q.tail_ENQ := by omega
    rw [this]
  · rw [g8]
    have : q.tail_ENQ / q.S + 1 - 1 = q.tail_ENQ / q.S := by omega
    rw [this]
theorem lone_put_live {q : fifo_t} {h W0 : Nat} {items : List Nat} {addr : Nat → Nat} {hi : Nat}
    (hl : Lone q h W0 items addr hi) (x : Nat) :
    ∃ qp, fifo_put q h x = some qp ∧ live_count qp.heap ≤ max (2 * W0 + 2) 3 := by
  have hinv := hl.inv
  have hS := hinv.spos
  have hh : h ∈ q.plist := by rw [hl.plist]; exact List.mem_cons_self _ _
  obtain ⟨qp, m1, addr1, k0, k1, w, hp, hb0, hput, hqp, hadd, hinvp⟩ := fifo_put_spec hinv hh x
  have htop := hl.top
  have hc2 := div_le_pred_div_succ q.tail_ENQ q.S hS
  have eI : qp.head_index = q.head_index := by rw [hqp]
  have h1 : live_count qp.heap ≤ max hi (q.tail_ENQ / q.S + 1) - qp.head_index :=
    live_count_le hinvp.exact
  have h2 := hl.bound
  rw [eI] at h1
  exact ⟨qp, hput, by omega⟩

theorem lone_run (fuel : Nat) (hfuel : 0 < fuel) (h W0 : Nat) (hW : 2 * W0 < 2 ^ 31) :
    ∀ (xs : List Nat) (q : fifo_t) (items : List Nat) (addr : Nat → Nat) (hi : Nat),
      Lone q h W0 items addr hi → (∀ x ∈ xs, x ≠ EMPTY) → q.tail_ENQ + xs.length < 2 ^ 64 →
      (∃ q1 out items1 addr1 hi1, run fuel q (round_trips h xs) = some (q1, out) ∧
        Lone q1 h W0 items1 addr1 hi1) ∧
      (∀ x, ∃ q1 out, run fuel q (round_trips h xs ++ [Op.put h x]) = some (q1, out) ∧
        live_count q1.heap ≤ max (2 * W0 + 2) 3) := by
  intro xs
  induction xs with
  | nil =>
    intro q items addr hi hl _ _
    constructor
    · exact ⟨q, [], items, addr, hi, rfl, hl⟩
    · intro x
      obtain ⟨qp, hput, hlive⟩ := lone_put_live hl x
      refine ⟨qp, [], ?_, hlive⟩
      simp [round_trips, run, step, hput]
  | cons y ys ih =>
    intro q items addr hi hl hne hlen
    have hy : y ≠ EMPTY := hne y (List.mem_cons_self _ _)
    have hlen1 : q.tail_ENQ + (ys.length + 1) < 2 ^ 64 := by
      simpa using hlen
    obtain ⟨qp, q2, addr2, hi2, hput, _, hget, hl2, _, hE2⟩ :=
      lone_trip hl y hy hW (by omega) fuel hfuel
    obtain ⟨⟨q1, out, items1, addr1, hi1, hrun, hl1⟩, hputs⟩ :=
      ih q2 _ addr2 hi2 hl2 (fun x hx => hne x (List.mem_cons_of_mem _ hx))
        (by rw [hE2]; omega)
    constructor
    · refine ⟨q1, [] ++ ([y] ++ out), items1, addr1, hi1, ?_, hl1⟩
      simp only [round_trips, run, step, hput, hget, Option.map_some', hrun]
    · intro x
      obtain ⟨q3, out3, hrun3, hlive3⟩ := hputs x
      have e : round_trips h (y :: ys) ++ [Op.put h x] =
          Op.put h y :: Op.get h :: (round_trips h ys ++ [Op.put h x]) := rfl
      refine ⟨q3, [] ++ ([y] ++ out3), ?_, hlive3⟩
      rw [e]
      simp only [run, step, hput, hget, Option.map_some', hrun3]

theorem lone_init (S W0 : Nat) (hS : 0 < S) (h : Nat) :
    Lone (fifo_register (fifo_init S W0) h) h W0 [] (fun _ => 0) 1 := by
  refine ⟨fifo_register_inv (fifo_init_inv S W0 hS) h, ?_, rfl, rfl, rfl, ?_, ⟨0, ?_⟩, ?_⟩
  · intro x hx
    cases hx
  · simp [fifo_register, fifo_init]
  · simp [fifo_register, fifo_init, new_node]
  · have : (fifo_register (fifo_init S W0) h).head_index = 0 := rfl
    rw [this]
    omega

/-- C19 (as stated, refuted): with `S = 1` and `W = 0`, after two round trips and
a third `put` by the lone handle, segments `0`, `1` and `2` are live, which is
more than `2 * W + 2 = 2`. -/
theorem lone_thread_bound_counterexample :
    live_ids (lone_state 1 0 (trips 2 ++ [Op.put 7 3])).heap = [0, 1, 2] ∧
    live_count (lone_state 1 0 (trips 2 ++ [Op.put 7 3])).heap = 3 ∧
    ¬ live_count (lone_state 1 0 (trips 2 ++ [Op.put 7 3])).heap ≤ 2 * 0 + 2 :=
  ⟨rfl, rfl, by decide⟩

/-- C19 (amended): for every `S > 0` and every `W` with `2 * W < 2^31`, in a run
from `fifo_init(S, W)` with one registered handle that strictly alternates
`fifo_put` and `fifo_get` (fewer than `2^64` round trips, non-null items), the
number of live segments is `1` initially, at most `max (2 * W + 1) 2` after
every `get` (and after `register`), and at most `max (2 * W + 2) 3` after every
`put`; so it never exceeds `max (2 * W + 2) 3` at any operation boundary. -/
theorem lone_thread_retention (S W0 fuel : Nat) (hS : 0 < S) (hfuel : 0 < fuel)
    (hW : 2 * W0 < 2 ^ 31) (h : Nat) (xs : List Nat) (hxs : ∀ x ∈ xs, x ≠ EMPTY)
    (hlen : xs.length < 2 ^ 64) :
    live_count (fifo_init S W0).heap = 1 ∧
    (∃ q out, run fuel (fifo_init S W0) (Op.register h :: round_trips h xs) = some (q, out) ∧
      live_count q.heap ≤ max (2 * W0 + 1) 2) ∧
    (∀ x, ∃ q out,
      run fuel (fifo_init S W0) (Op.register h :: (round_trips h xs ++ [Op.put h x]))
        = some (q, out) ∧
      live_count q.heap ≤ max (2 * W0 + 2) 3) := by
  have hstep : step fuel (fifo_init S W0) (Op.register h)
      = some (fifo_register (fifo_init S W0) h, []) := by
    simp [step, fifo_init]
  obtain ⟨⟨q1, out, items1, addr1, hi1, hrun, hl1⟩, hputs⟩ :=
    lone_run fuel hfuel h W0 hW xs (fifo_register (fifo_init S W0) h) [] (fun _ => 0) 1
      (lone_init S W0 hS h) hxs (by
        have : (fifo_register (fifo_init S W0) h).tail_ENQ = 0 := rfl
        rw [this]
        omega)
  refine ⟨rfl, ⟨q1, [] ++ out, ?_, lone_live hl1⟩, ?_⟩
  · simp only [run, hstep, hrun]
  · intro x
    obtain ⟨q3, out3, hrun3, hlive3⟩ := hputs x
    refine ⟨q3, [] ++ out3, ?_, hlive3⟩
    simp only [run, hstep, hrun3]

/-- Witness for C19: `S = 1`, `W = 0` and two round trips of handle `7`, the run
of the counterexample. -/
theorem lone_thread_retention_witness :
    live_count (fifo_init 1 0).heap = 1 ∧
    (∃ q out, run 1 (fifo_init 1 0) (Op.register 7 :: round_trips 7 [1, 2]) = some (q, out) ∧
      live_count q.heap ≤ max (2 * 0 + 1) 2) ∧
    (∀ x, ∃ q out,
      run 1 (fifo_init 1 0) (Op.register 7 :: (round_trips 7 [1, 2] ++ [Op.put 7 x]))
        = some (q, out) ∧
      live_count q.heap ≤ max (2 * 0 + 2) 3) :=
  lone_thread_retention 1 0 1 (by decide) (by decide) (by decide) 7 [1, 2] (by decide)
    (by decide)

/-! ## Two threads racing in `update` -/

theorem pc_ok_other {m m1 : Heap} {P k S L0 : Nat} {nx nx1 : Option Nat} {w : Bool} {pc : upc}
    (h : pc_ok m P k S L0 nx w pc) (hread : ∀ c, pc_holds pc c → m1.read c = m.read c)
    (hnx : nx = nx1 ∨ (nx = none ∧ ∃ x, nx1 = some x ∧ ¬ pc_holds pc x)) :
    pc_ok m1 P k S L0 nx1 w pc := by
  cases pc with
  | top node i =>
    rcases h with h | ⟨h1, h2⟩
    · exact Or.inl h
    · rcases hnx with e | ⟨e, _⟩
      · exact Or.inr ⟨h1, e ▸ h2⟩
      · rw [e] at h2
        cases h2
  | load prev i => exact h
  | alloc prev i => exact h
  | cas prev i next =>
    obtain ⟨h1, h2, h3, h4, h5, h6⟩ := h
    refine ⟨h1, h2, h3, h4, ?_, ?_⟩
    · rw [hread next rfl]
      exact h5
    · rcases hnx with e | ⟨_, x, e1, e2⟩
      · rw [← e]
        exact h6
      · rw [e1]
        intro e3
        cases e3
        exact e2 rfl
  | dispose prev i next node =>
    obtain ⟨h1, h2, h3, h4, h5, h6, h7⟩ := h
    rcases hnx with e | ⟨e, _⟩
    · refine ⟨h1, h2, h3, h4, ?_, e ▸ h6, h7⟩
      rw [hread next rfl]
      exact h5
    · rw [e] at h6
      cases h6
  | ret node =>
    rcases hnx with e | ⟨e, _⟩
    · exact e ▸ h
    · have h' : nx = some node := h
      rw [e] at h'
      cases h'

theorem pc_ok_none {m : Heap} {P k S L0 : Nat} {w : Bool} {pc : upc}
    (h : pc_ok m P k S L0 none w pc) : w = false := by
  cases pc with
  | top node i =>
    rcases h with ⟨_, _, h⟩ | ⟨_, h⟩
    · exact h
    · cases h
  | load prev i => exact h.2.2
  | alloc prev i => exact h.2.2
  | cas prev i next => exact h.2.2.1
  | dispose prev i next node =>
    have := h.2.2.2.2.2.1
    cases this
  | ret node =>
    have h' : (none : Option Nat) = some node := h
    cases h'

theorem pc_holds_lt {m : Heap} {P k S L0 : Nat} {nx : Option Nat} {w : Bool} {pc : upc}
    (h : pc_ok m P k S L0 nx w pc) {c : Nat} (hc : pc_holds pc c) :
    L0 ≤ c ∧ m.read c = some { next := none, id := k + 1, buffer := List.replicate S EMPTY } := by
  cases pc with
  | top node i => exact absurd hc (by simp [pc_holds])
  | load prev i => exact absurd hc (by simp [pc_holds])
  | alloc prev i => exact absurd hc (by simp [pc_holds])
  | cas prev i next =>
    have e : next = c := hc
    subst e
    exact ⟨h.2.2.2.1, h.2.2.2.2.1⟩
  | dispose prev i next node =>
    have e : next = c := hc
    subst e
    exact ⟨h.2.2.2.1, h.2.2.2.2.1⟩
  | ret node => exact absurd hc (by simp [pc_holds])

theorem raceInv_symm {m0 : Heap} {P k S : Nat} {b0 : List Nat} {nx : Option Nat} {m : Heap}
    {a b : uthread} (h : RaceInv m0 P k S b0 nx m a b) : RaceInv m0 P k S b0 nx m b a := by
  refine ⟨h.prev, h.below, h.grow, h.toB, h.sizeB, h.toA, h.sizeA, h.okB, h.okA, ?_, ?_, ?_,
    h.frame⟩
  · intro x hx
    obtain ⟨h1, h2, h3⟩ := h.inst x hx
    exact ⟨h1, h2, fun e => h3 e.symm⟩
  · intro c h1 h2
    exact h.apart c h2 h1
  · intro c h1 h2
    rcases h.spare c h1 h2 with e | e | e
    · exact Or.inl e
    · exact Or.inr (Or.inr e)
    · exact Or.inr (Or.inl e)
theorem race_step {m0 : Heap} {P k S : Nat} {b0 : List Nat} {nx : Option Nat} {m : Heap}
    {a b : uthread} (h : RaceInv m0 P k S b0 nx m a b) :
    ∃ m1 a1 nx1, ustep m a = some (m1, a1) ∧ RaceInv m0 P k S b0 nx1 m1 a1 b ∧
      (pc_rank a1.to_ a1.pc < pc_rank a.to_ a.pc ∨ (pc_rank a.to_ a.pc = 0 ∧ a1 = a ∧ m1 = m)) := by
  obtain ⟨pc, to_, size, w⟩ := a
  have hto : to_ = k + 1 := h.toA
  have hsize : size = S := h.sizeA
  have hokA := h.okA
  have hPm : P < m.length := Nat.lt_of_lt_of_le h.below h.grow
  subst hto
  subst hsize
  cases pc with
  | top node i =>
    rcases hokA with ⟨e1, e2, e3⟩ | ⟨e1, e2⟩
    · subst e1 e2 e3
      refine ⟨m, ⟨upc.load node i, i + 1, size, false⟩, nx, ?_, ?_, ?_⟩
      · simp [ustep]
      · exact ⟨h.prev, h.below, h.grow, rfl, rfl, h.toB, h.sizeB, ⟨rfl, rfl, rfl⟩, h.okB, h.inst,
          fun c hc _ => hc, fun c h1 h2 => by
            rcases h.spare c h1 h2 with e | e | e
            · exact Or.inl e
            · exact absurd e (by simp [pc_holds])
            · exact Or.inr (Or.inr e), h.frame⟩
      · left
        simp [pc_rank]
    · subst e1
      refine ⟨m, ⟨upc.ret node, k + 1, size, w⟩, nx, ?_, ?_, ?_⟩
      · simp [ustep]
      · exact ⟨h.prev, h.below, h.grow, rfl, rfl, h.toB, h.sizeB, e2, h.okB, h.inst,
          fun c hc _ => hc, fun c h1 h2 => by
            rcases h.spare c h1 h2 with e | e | e
            · exact Or.inl e
            · exact absurd e (by simp [pc_holds])
            · exact Or.inr (Or.inr e), h.frame⟩
      · left
        simp [pc_rank]
  | load prev i =>
    obtain ⟨e1, e2, e3⟩ := hokA
    subst e1 e2 e3
    have hsp : ∀ c, m0.length ≤ c → (m.read c).isSome = true →
        nx = some c ∨ False ∨ pc_holds b.pc c := fun c h1 h2 => h.spare c h1 h2
    cases hnx : nx with
    | none =>
      subst hnx
      refine ⟨m, ⟨upc.alloc prev i, i + 1, size, false⟩, none, ?_, ?_, ?_⟩
      · simp [ustep, h.prev]
      · exact ⟨h.prev, h.below, h.grow, rfl, rfl, h.toB, h.sizeB, ⟨rfl, rfl, rfl⟩, h.okB, h.inst,
          fun c hc _ => hc, hsp, h.frame⟩
      · left
        simp [pc_rank]
    | some x =>
      subst hnx
      refine ⟨m, ⟨upc.top x (i + 1), i + 1, size, false⟩, some x, ?_, ?_, ?_⟩
      · simp [ustep, h.prev]
      · exact ⟨h.prev, h.below, h.grow, rfl, rfl, h.toB, h.sizeB, Or.inr ⟨rfl, rfl⟩, h.okB, h.inst,
          fun c hc _ => hc, hsp, h.frame⟩
      · left
        simp [pc_rank]
  | alloc prev i =>
    obtain ⟨e1, e2, e3⟩ := hokA
    subst e1 e2 e3
    have hrd : ∀ c, c < m.length → (new_node m (i + 1) size).1.read c = m.read c := by
      intro c hc
      rw [read_new_node, if_neg (by omega)]
    have hheld : ∀ c, pc_holds b.pc c → c < m.length := fun c hc =>
      read_lt (pc_holds_lt h.okB hc).2
    refine ⟨(new_node m (i + 1) size).1, ⟨upc.cas prev i m.length, i + 1, size, false⟩, nx,
      rfl, ?_, ?_⟩
    · refine ⟨?_, h.below, ?_, rfl, rfl, h.toB, h.sizeB, ?_, ?_, ?_, ?_, ?_, ?_⟩
      · rw [hrd prev hPm]
        exact h.prev
      · rw [length_new_node]
        have := h.grow
        omega
      · refine ⟨rfl, rfl, rfl, h.grow, ?_, ?_⟩
        · rw [read_new_node, if_pos rfl]
        · intro e
          have := read_lt (h.inst _ e).1
          omega
      · exact pc_ok_other h.okB (fun c hc => hrd c (hheld c hc)) (Or.inl rfl)
      · intro x hx
        obtain ⟨h1, h2, h3⟩ := h.inst x hx
        exact ⟨by rw [hrd x (read_lt h1)]; exact h1, h2, h3⟩
      · intro c h1 h2
        have e : m.length = c := h1
        have := hheld c h2
        omega
      · intro c h1 h2
        by_cases hc : c = m.length
        · exact Or.inr (Or.inl hc.symm)
        · have hlt : c < m.length := by
            cases hr : (new_node m (i + 1) size).1.read c with
            | none => simp [hr] at h2
            | some n =>
              have := read_lt hr
              rw [length_new_node] at this
              omega
          rw [hrd c hlt] at h2
          rcases h.spare c h1 h2 with e | e | e
          · exact Or.inl e
          · exact absurd e (by simp [pc_holds])
          · exact Or.inr (Or.inr e)
      · intro c h1 h2
        rw [hrd c (by have := h.grow; omega)]
        exact h.frame c h1 h2
    · left
      simp [pc_rank]
  | cas prev i next =>
    obtain ⟨e1, e2, e3, e4, e5, e6⟩ := hokA
    subst e1 e2 e3
    have hne : prev ≠ next := by
      have := h.below
      omega
    have hheld : ∀ c, pc_holds b.pc c → prev ≠ c := fun c hc => by
      have := (pc_holds_lt h.okB hc).1
      have := h.below
      omega
    cases hnx : nx with
    | none =>
      subst hnx
      have hrd : ∀ c, prev ≠ c →
          (m.write prev { next := some next, id := i, buffer := b0 }).read c = m.read c := by
        intro c hc
        rw [read_write, if_neg (fun e => hc e.1)]
      refine ⟨m.write prev { next := some next, id := i, buffer := b0 },
        ⟨upc.top next (i + 1), i + 1, size, true⟩, some next, ?_, ?_, ?_⟩
      · simp [ustep, h.prev, compare_and_swap]
      · refine ⟨?_, h.below, ?_, rfl, rfl, h.toB, h.sizeB, Or.inr ⟨rfl, rfl⟩, ?_, ?_, ?_, ?_, ?_⟩
        · rw [read_write, if_pos ⟨rfl, hPm⟩]
        · rw [length_write]
          exact h.grow
        · exact pc_ok_other h.okB (fun c hc => hrd c (hheld c hc))
            (Or.inr ⟨rfl, next, rfl, fun hb => h.apart next rfl hb⟩)
        · intro x hx
          cases hx
          refine ⟨by rw [hrd next hne]; exact e5, e4, ?_⟩
          have hb : b.winner = false := pc_ok_none h.okB
          show true ≠ b.winner
          rw [hb]
          decide
        · intro c hc _
          exact hc
        · intro c h1 h2
          have hpc : prev ≠ c := by
            have := h.below
            omega
          rw [hrd c hpc] at h2
          rcases h.spare c h1 h2 with e | e | e
          · cases e
          · left
            have e' : next = c := e
            rw [e']
          · exact Or.inr (Or.inr e)
        · intro c h1 h2
          rw [hrd c (fun e => h2 e.symm)]
          exact h.frame c h1 h2
      · left
        simp [pc_rank]
    | some x =>
      subst hnx
      have hrd : ∀ c,
          (m.write prev { next := some x, id := i, buffer := b0 }).read c = m.read c := by
        intro c
        rw [read_write]
        by_cases hc : prev = c
        · subst hc
          rw [if_pos ⟨rfl, hPm⟩, h.prev]
        · rw [if_neg (fun e => hc e.1)]
      refine ⟨m.write prev { next := some x, id := i, buffer := b0 },
        ⟨upc.dispose prev i next x, i + 1, size, false⟩, some x, ?_, ?_, ?_⟩
      · simp [ustep, h.prev, compare_and_swap]
      · refine ⟨?_, h.below, ?_, rfl, rfl, h.toB, h.sizeB, ?_, ?_, ?_, ?_, ?_, ?_⟩
        · rw [hrd]
          exact h.prev
        · rw [length_write]
          exact h.grow
        · refine ⟨rfl, rfl, rfl, e4, by rw [hrd]; exact e5, rfl, ?_⟩
          intro e
          exact e6 (by rw [e])
        · exact pc_ok_other h.okB (fun c _ => hrd c) (Or.inl rfl)
        · intro y hy
          obtain ⟨h1, h2, h3⟩ := h.inst y hy
          exact ⟨by rw [hrd]; exact h1, h2, h3⟩
        · intro c h1 h2
          exact h.apart c h1 h2
        · intro c h1 h2
          rw [hrd] at h2
          exact h.spare c h1 h2
        · intro c h1 h2
          rw [hrd]
          exact h.frame c h1 h2
      · left
        simp [pc_rank]
  | dispose prev i next node =>
    obtain ⟨e1, e2, e3, e4, e5, e6, e7⟩ := hokA
    subst e1 e2 e3 e6
    have hrd : ∀ c, next ≠ c → (m.free next).read c = m.read c := by
      intro c hc
      rw [read_free, if_neg hc]
    have hne : next ≠ prev := by
      have := h.below
      omega
    refine ⟨m.free next, ⟨upc.top node (i + 1), i + 1, size, false⟩, some node, rfl, ?_, ?_⟩
    · refine ⟨?_, h.below, ?_, rfl, rfl, h.toB, h.sizeB, Or.inr ⟨rfl, rfl⟩, ?_, ?_, ?_, ?_, ?_⟩
      · rw [hrd prev hne]
        exact h.prev
      · rw [length_free]
        exact h.grow
      · exact pc_ok_other h.okB (fun c hc => hrd c (fun e => h.apart c e hc)) (Or.inl rfl)
      · intro y hy
        cases hy
        obtain ⟨h1, h2, h3⟩ := h.inst _ rfl
        exact ⟨by rw [hrd _ (fun e => e7 e.symm)]; exact h1, h2, h3⟩
      · intro c hc _
        exact hc
      · intro c h1 h2
        have hc : next ≠ c := by
          intro e
          rw [← e, read_free, if_pos rfl] at h2
          cases h2
        rw [hrd c hc] at h2
        rcases h.spare c h1 h2 with e | e | e
        · exact Or.inl e
        · exact absurd e hc
        · exact Or.inr (Or.inr e)
      · intro c h1 h2
        rw [hrd c (by omega)]
        exact h.frame c h1 h2
    · left
      simp [pc_rank]
  | ret node =>
    exact ⟨m, _, nx, rfl, h, Or.inr ⟨rfl, rfl, rfl⟩⟩
theorem race_inv {m0 : Heap} {P k S : Nat} {b0 : List Nat} :
    ∀ (sch : List Bool) (nx : Option Nat) (m : Heap) (a b : uthread),
      RaceInv m0 P k S b0 nx m a b →
      ∃ m1 a1 b1 nx1, race sch (m, a, b) = some (m1, a1, b1) ∧
        RaceInv m0 P k S b0 nx1 m1 a1 b1 ∧
        pc_rank a1.to_ a1.pc ≤ pc_rank a.to_ a.pc - sch.count true ∧
        pc_rank b1.to_ b1.pc ≤ pc_rank b.to_ b.pc - sch.count false := by
  intro sch
  induction sch with
  | nil =>
    intro nx m a b h
    exact ⟨m, a, b, nx, rfl, h, by simp, by simp⟩
  | cons s sch ih =>
    intro nx m a b h
    cases s with
    | true =>
      obtain ⟨m1, a1, nx1, hs, h1, hr⟩ := race_step h
      obtain ⟨m2, a2, b2, nx2, hrun, h2, ra, rb⟩ := ih nx1 m1 a1 b h1
      refine ⟨m2, a2, b2, nx2, ?_, h2, ?_, ?_⟩
      · simp only [race, hs]
        exact hrun
      · have hc : (true :: sch).count true = sch.count true + 1 := by simp
        rw [hc]
        rcases hr with hr | ⟨hr, e, _⟩
        · omega
        · rw [e] at ra
          omega
      · have hc : (true :: sch).count false = sch.count false := by simp
        rw [hc]
        exact rb
    | false =>
      obtain ⟨m1, b1, nx1, hs, h1, hr⟩ := race_step (raceInv_symm h)
      obtain ⟨m2, a2, b2, nx2, hrun, h2, ra, rb⟩ := ih nx1 m1 a b1 (raceInv_symm h1)
      refine ⟨m2, a2, b2, nx2, ?_, h2, ?_, ?_⟩
      · simp only [race, hs]
        exact hrun
      · have hc : (false :: sch).count true = sch.count true := by simp
        rw [hc]
        exact ra
      · have hc : (false :: sch).count false = sch.count false + 1 := by simp
        rw [hc]
        rcases hr with hr | ⟨hr, e, _⟩
        · omega
        · rw [e] at rb
          omega

theorem pc_rank_zero {to_ : Nat} {pc : upc} (h : pc_rank to_ pc = 0) : ∃ x, pc = upc.ret x := by
  cases pc with
  | top node i =>
    simp only [pc_rank] at h
    split at h <;> omega
  | load prev i => simp [pc_rank] at h
  | alloc prev i => simp [pc_rank] at h
  | cas prev i next => simp [pc_rank] at h
  | dispose prev i next node => simp [pc_rank] at h
  | ret node => exact ⟨node, rfl⟩

theorem pc_rank_le (to_ : Nat) (pc : upc) : pc_rank to_ pc ≤ 6 := by
  cases pc <;> simp only [pc_rank]
  · split <;> omega
  all_goals omega

theorem raceInv_start {m0 : Heap} {P k S : Nat} {b0 : List Nat}
    (hP : m0.read P = some { next := none, id := k, buffer := b0 }) (wa wb : Bool)
    (hwa : wa = false) (hwb : wb = false) :
    RaceInv m0 P k S b0 none m0
      { pc := upc.top P k, to_ := k + 1, size := S, winner := wa }
      { pc := upc.top P k, to_ := k + 1, size := S, winner := wb } := by
  subst hwa hwb
  refine ⟨hP, read_lt hP, Nat.le_refl _, rfl, rfl, rfl, rfl, Or.inl ⟨rfl, rfl, rfl⟩,
    Or.inl ⟨rfl, rfl, rfl⟩, ?_, ?_, ?_, fun _ _ _ => rfl⟩
  · intro x hx
    cases hx
  · intro c hc _
    exact hc
  · intro c h1 h2
    cases hr : m0.read c with
    | none => simp [hr] at h2
    | some n =>
      have := read_lt hr
      omega
theorem ustep_solo (size : Nat) : ∀ (k i : Nat) (m : Heap) (node : Nat) (w : Bool)
    (m1 : Heap) (node1 : Nat) (w1 : Bool),
    update_loop size k i m node w = some (m1, node1, w1) →
    ∃ n, ∀ b, race (List.replicate n true)
        (m, { pc := upc.top node i, to_ := i + k, size := size, winner := w }, b) =
      some (m1, { pc := upc.ret node1, to_ := i + k, size := size, winner := w1 }, b) := by
  intro k
  induction k with
  | zero =>
    intro i m node w m1 node1 w1 h
    simp only [update_loop, Option.some.injEq, Prod.mk.injEq] at h
    obtain ⟨e1, e2, e3⟩ := h
    subst e1 e2 e3
    refine ⟨1, fun b => ?_⟩
    simp [race, ustep]
  | succ k ih =>
    intro i m node w m1 node1 w1 h
    simp only [update_loop] at h
    have hto : i + (k + 1) = i + 1 + k := by omega
    cases hr : m.read node with
    | none => simp [hr] at h
    | some pn =>
      simp only [hr] at h
      cases hn : pn.next with
      | some b1 =>
        simp only [hn] at h
        obtain ⟨n, hrun⟩ := ih _ _ _ _ _ _ _ h
        refine ⟨n + 2, fun b => ?_⟩
        rw [hto]
        have := hrun b
        simp only [List.replicate_succ, race, ustep, hr, hn]
        rw [if_pos (by omega)]
        simp only [race, ustep, hr, hn]
        exact this
      | none =>
        have hlt : node < m.length := read_lt hr
        have hr1 : (new_node m (i + 1) size).1.read node = some pn := by
          rw [read_new_node, if_neg (by omega)]
          exact hr
        simp only [hn, hr1, compare_and_swap, if_true] at h
        obtain ⟨n, hrun⟩ := ih _ _ _ _ _ _ _ h
        refine ⟨n + 4, fun b => ?_⟩
        rw [hto]
        have := hrun b
        simp only [List.replicate_succ, race, ustep, hr, hn]
        rw [if_pos (by omega)]
        simp only [race, ustep, hr, hn, hr1, compare_and_swap, if_true]
        exact this
/-- C20 (extension race).  Two threads enter `update(prev, prev.id + 1, size,
&winner)` on the same last segment `prev` (`next = nil`), each with a clear
winner flag, and their accesses to shared memory (the load of `prev->next`,
`new_node`, the compare-and-swap, `free`) are interleaved by an arbitrary
schedule.  No step faults, at no point are both winner flags set, and once each
thread has been scheduled six times both have returned.  Whenever both have
returned they return the same node `x`; exactly one winner flag is set;
`prev->next` is `x`, a fresh zeroed segment with id `prev.id + 1`; every other
cell allocated during the race has been freed (the loser's speculative node);
and no other cell of the memory changed. -/
theorem extension_race (m0 : Heap) (P k S : Nat) (b0 : List Nat)
    (hP : m0.read P = some { next := none, id := k, buffer := b0 }) (sch : List Bool) :
    ∃ a0 m a b, ustart m0 P (k + 1) S false = some a0 ∧
      race sch (m0, a0, a0) = some (m, a, b) ∧
      ¬ (a.winner = true ∧ b.winner = true) ∧
      (6 ≤ sch.count true → 6 ≤ sch.count false →
        ∃ x y, a.pc = upc.ret x ∧ b.pc = upc.ret y) ∧
      ∀ x y, a.pc = upc.ret x → b.pc = upc.ret y →
        x = y ∧ a.winner ≠ b.winner ∧
        m.read P = some { next := some x, id := k, buffer := b0 } ∧
        m.read x = some { next := none, id := k + 1, buffer := List.replicate S EMPTY } ∧
        m0.length ≤ x ∧
        (∀ c, m0.length ≤ c → c ≠ x → m.read c = none) ∧
        (∀ c, c < m0.length → c ≠ P → m.read c = m0.read c) := by
  obtain ⟨m, a, b, nx, hrace, hinv, ra, rb⟩ :=
    race_inv sch none m0 _ _ (raceInv_start (S := S) hP false false rfl rfl)
  refine ⟨_, m, a, b, by simp [ustart, hP], hrace, ?_, ?_, ?_⟩
  · rintro ⟨h1, h2⟩
    cases hnx : nx with
    | none =>
      have h3 := hinv.okA
      rw [hnx] at h3
      have := pc_ok_none h3
      rw [h1] at this
      cases this
    | some x =>
      obtain ⟨_, _, h3⟩ := hinv.inst x hnx
      exact h3 (h1.trans h2.symm)
  · intro h1 h2
    have e1 : pc_rank a.to_ a.pc = 0 := by
      have : pc_rank (k + 1) (upc.top P k) ≤ 6 := pc_rank_le _ _
      have h3 : pc_rank a.to_ a.pc ≤ pc_rank (k + 1) (upc.top P k) - sch.count true := ra
      omega
    have e2 : pc_rank b.to_ b.pc = 0 := by
      have : pc_rank (k + 1) (upc.top P k) ≤ 6 := pc_rank_le _ _
      have h3 : pc_rank b.to_ b.pc ≤ pc_rank (k + 1) (upc.top P k) - sch.count false := rb
      omega
    obtain ⟨x, hx⟩ := pc_rank_zero e1
    obtain ⟨y, hy⟩ := pc_rank_zero e2
    exact ⟨x, y, hx, hy⟩
  · intro x y hx hy
    have ha := hinv.okA
    have hb := hinv.okB
    rw [hx] at ha
    rw [hy] at hb
    have ha1 : nx = some x := ha
    have hb1 : nx = some y := hb
    have hxy : x = y := by
      rw [ha1] at hb1
      exact Option.some.inj hb1
    obtain ⟨h1, h2, h3⟩ := hinv.inst x ha1
    refine ⟨hxy, h3, ?_, h1, h2, ?_, hinv.frame⟩
    · rw [← ha1]
      exact hinv.prev
    · intro c hc hne
      cases hr : m.read c with
      | none => rfl
      | some n =>
        exfalso
        rcases hinv.spare c hc (by rw [hr]; rfl) with e | e | e
        · rw [ha1] at e
          exact hne (Option.some.inj e).symm
        · rw [hx] at e
          exact e
        · rw [hy] at e
          exact e

/-- Witness for C20: both threads extend `two_segments` (last segment at
address `1`, id `1`, `S = 2`) under the alternating schedule. -/
theorem extension_race_witness :
    ∃ a0 m a b, ustart two_segments 1 (1 + 1) 2 false = some a0 ∧
      race [true, false, true, false, true, false, true, false, true, false, true, false]
        (two_segments, a0, a0) = some (m, a, b) ∧
      ¬ (a.winner = true ∧ b.winner = true) ∧
      (6 ≤ [true, false, true, false, true, false, true, false, true, false, true,
          false].count true →
        6 ≤ [true, false, true, false, true, false, true, false, true, false, true,
          false].count false →
        ∃ x y, a.pc = upc.ret x ∧ b.pc = upc.ret y) ∧
      ∀ x y, a.pc = upc.ret x → b.pc = upc.ret y →
        x = y ∧ a.winner ≠ b.winner ∧
        m.read 1 = some { next := some x, id := 1, buffer := [12, 0] } ∧
        m.read x = some { next := none, id := 1 + 1, buffer := List.replicate 2 EMPTY } ∧
        two_segments.length ≤ x ∧
        (∀ c, two_segments.length ≤ c → c ≠ x → m.read c = none) ∧
        (∀ c, c < two_segments.length → c ≠ 1 → m.read c = two_segments.read c) :=
  extension_race two_segments 1 1 2 [12, 0] rfl
    [true, false, true, false, true, false, true, false, true, false, true, false]

end Fifo
